import Mathlib

/-!
# dups: a verification development

A shallow embedding of `dups.c` (find sets of byte-identical regular files) and
theorems about it.

Modelling conventions.

* A C linked list of `File` records (`head`, `next`) is a Lean `List File`.
* `dev_t`, `ino_t`, `off_t` sizes and bytes are natural numbers; a regular
  file's `st_size` is never negative.  The member counter `int n` is a natural
  number (a class of 2^31 members is out of reach).
* The binary search tree of `<search.h>` (`tsearch`, `twalk`) is a list of
  nodes kept in ascending comparator order: `tsearch` finds the node comparing
  equal to the key or links the key in at its place, `twalk` visits the nodes
  in order (the `postorder` and `leaf` visits of an in-order walk).
* The operating system is part of the input: a directory tree (`Ent`), and a
  `World` telling for each path what `open` yields, the descriptor being the
  finite list of outcomes of the successive `read` calls on it.
* `err`/`errx` end the process: the state records the exit status and every
  later step is skipped.  Memory allocation is assumed to succeed.
-/

namespace Dups

/-! ## Data model -/

/-- The window length: `static const size_t blksize = 8 * 1024`. -/
def blksize : Nat := 8 * 1024

/-- The macro `CMP(a, b) (((a) > (b)) - ((a) < (b)))`. -/
def CMP (a b : Nat) : Int :=
  (if a > b then 1 else 0) - (if a < b then 1 else 0)

/-- One outcome of a `read(2)` call on a descriptor: some bytes, end of file,
an interrupted call (`-1` with `EINTR`), or another error (`-1`). -/
inductive Outcome where
  | data (bs : List Nat)
  | eof
  | eintr
  | error
deriving DecidableEq

/-- An open descriptor: the outcomes of the reads still to come.  Past the end
of the list every read reports end of file. -/
abbrev Desc := List Outcome

/-- The environment of `open(name, O_RDONLY)`: `none` when the call fails. -/
abbrev World := String → Option Desc

/-- The record `struct File` without its `next` link.  `fd = none` is the C
value `-1`, `buf = none` is `NULL`; an allocated buffer is modelled by the
bytes the latest `readn` stored at its start. -/
structure File where
  name : String
  fd : Option Desc
  dev : Nat
  ino : Nat
  buf : Option (List Nat)
  bufsiz : Nat
deriving DecidableEq

/-- The record `Node`: a group of files, keyed by `size`. -/
structure Node where
  size : Nat
  head : List File
  n : Nat
deriving DecidableEq

/-- The reasons for which the program ends through `err`/`errx` or `return 1`. -/
inductive Err where
  | usage
  | fstatat
  | sameFile
  | read
  | unexpectedEof (name : String)
deriving DecidableEq

/-- How far the process got: `running` until something ends it, `fatal` is
`exit(1)`, `crash` is the null pointer access in `compare`, `nofuel` marks a
refinement that was given too few levels. -/
inductive Status where
  | running
  | fatal (e : Err)
  | crash
  | nofuel
deriving DecidableEq

/-- The observable state of the reporting stage: the `static bool firstset`,
the text handed to `putchar` and `puts` so far, and three logs kept for the
statements: the member lists printed, in order (`sets`), the records passed to
`readn` (`reads`), the records passed to `filefree` (`freed`). -/
structure St where
  firstset : Bool
  stdout : String
  sets : List (List File)
  reads : List File
  freed : List File
  status : Status
deriving DecidableEq

/-- The state at program start. -/
def St.init : St := ⟨true, "", [], [], [], .running⟩

/-! ## readn -/

/-- What `readn` leaves behind: its return value, the bytes stored at the
start of the buffer, and the descriptor afterwards. -/
structure ReadnRes where
  r : Int
  bytes : List Nat
  fd : Option Desc
deriving DecidableEq

/-- The loop of `readn` on an open descriptor, `t` bytes already stored in `a`.
Each iteration takes the next outcome of the descriptor: `EINTR` repeats the
loop, another error returns `-1`, a read of zero bytes leaves the loop, a read
of `m` bytes adds them.  A `read` never hands out more than the `n - t` bytes
asked for; what is left of a chunk stays in the descriptor (and the loop ends,
`t` having reached `n`). -/
def readnLoop (n : Nat) : Desc → Nat → List Nat → ReadnRes
  | [], t, a => ⟨t, a, some []⟩
  | o :: rest, t, a =>
    if t < n then
      match o with
      | .eintr => readnLoop n rest t a
      | .error => ⟨-1, a, some rest⟩
      | .eof => ⟨t, a, some rest⟩
      | .data bs =>
        if bs.length = 0 then ⟨t, a, some rest⟩
        else if bs.length ≤ n - t then readnLoop n rest (t + bs.length) (a ++ bs)
        else ⟨((t + (n - t) : Nat) : Int), a ++ bs.take (n - t),
              some (.data (bs.drop (n - t)) :: rest)⟩
    else ⟨t, a, some (o :: rest)⟩

/-- The function `readn(fd, av, n)`.  On `fd = -1` the first `read` fails with
`EBADF`. -/
def readn (fd : Option Desc) (n : Nat) : ReadnRes :=
  match fd with
  | none => if 0 < n then ⟨-1, [], none⟩ else ⟨0, [], none⟩
  | some d => readnLoop n d 0 []

/-! ## Comparators and insert -/

/-- The function `filedevinocmp`. -/
def filedevinocmp (a b : File) : Int :=
  let res := CMP a.dev b.dev
  if res ≠ 0 then res else CMP a.ino b.ino

/-- The function `filesetsizecmp`. -/
def filesetsizecmp (a b : Node) : Int := CMP a.size b.size

/-- The library function `memcmp` on the first `n` bytes: the sign of the
first difference.  Bytes that were never written are not modelled (the
program only compares windows that were read in full). -/
def memcmp : List Nat → List Nat → Nat → Int
  | x :: xs, y :: ys, n + 1 =>
    if x < y then -1 else if y < x then 1 else memcmp xs ys n
  | _, _, _ => 0

/-- The function `filesetdatacmp`: `memcmp` of the two heads' buffers over
the first head's `bufsiz`. -/
def filesetdatacmp (na nb : Node) : Int :=
  match na.head, nb.head with
  | fa :: _, fb :: _ => memcmp (fa.buf.getD []) (fb.buf.getD []) fa.bufsiz
  | _, _ => 0

/-- The list surgery of `insert`: walk while `filedevinocmp(file, *p) > 0`,
refuse an equal record (`errx(1, "same file")`), link `file` in before `*p`. -/
def insertList (file : File) : List File → Except Err (List File)
  | [] => .ok [file]
  | p :: rest =>
    if filedevinocmp file p > 0 then
      match insertList file rest with
      | .ok l => .ok (p :: l)
      | .error e => .error e
    else if filedevinocmp file p = 0 then .error .sameFile
    else .ok (file :: p :: rest)

/-- The function `insert(file, v)`. -/
def insert (file : File) (v : Node) : Except Err Node :=
  match insertList file v.head with
  | .ok l => .ok { v with head := l, n := v.n + 1 }
  | .error e => .error e

/-- The call `v = tsearch(set, &root, compar)` followed by
`if(*v != set) { free(set); insert(file, *v); }`, on a tree given as the
ascending list of its nodes: a node comparing equal to `key` receives `file`,
otherwise `key` becomes a node at its place in the order. -/
def tsearchInsert (compar : Node → Node → Int) (key : Node) (file : File) :
    List Node → Except Err (List Node)
  | [] => .ok [key]
  | x :: rest =>
    if compar key x = 0 then
      match insert file x with
      | .ok x1 => .ok (x1 :: rest)
      | .error e => .error e
    else if compar key x < 0 then .ok (key :: x :: rest)
    else
      match tsearchInsert compar key file rest with
      | .ok t => .ok (x :: t)
      | .error e => .error e

/-- The library function `twalk(root, action)` for an `action` that acts on
the `postorder` and `leaf` visits only: the nodes are visited in ascending
order; once the process has ended nothing more happens. -/
def twalk (action : Node → St → St) : List Node → St → St
  | [], st => st
  | nd :: rest, st =>
    let st1 := action nd st
    if st1.status = .running then twalk action rest st1 else st1

/-! ## scan -/

/-- A directory entry as `readdir` and `fstatat(..., AT_SYMLINK_NOFOLLOW)`
present it: a regular file with its `st_dev`, `st_ino`, `st_size`; a directory
with its own entries, `listable` telling whether `opendir` on it succeeds;
anything else (symbolic link, socket, device); an entry on which `fstatat`
fails. -/
inductive Ent where
  | reg (name : String) (dev ino size : Nat)
  | dir (name : String) (listable : Bool) (entries : List Ent)
  | other (name : String)
  | nostat (name : String)

/-- A command line argument: the path given, whether `opendir` on it
succeeds, and the entries `readdir` yields. -/
structure Arg where
  path : String
  listable : Bool
  entries : List Ent

/-- The test at the top of the loop of `scan`:
`d_name[0] == '.' && (d_name[1] == '\0' || (d_name[1] == '.' && d_name[2] == '\0'))`.
Reading at the end of the name yields the terminating NUL. -/
def isDotOrDotDot (d_name : String) : Bool :=
  let c := fun (i : Nat) => d_name.toList.getD i (Char.ofNat 0)
  c 0 == '.' && (c 1 == Char.ofNat 0 || (c 1 == '.' && c 2 == Char.ofNat 0))

/-- The path built by `asprintf(&path, "%s/%s", dir, dp->d_name)`. -/
def mkpath (dir d_name : String) : String := dir ++ "/" ++ d_name

/-- The regular-file branch of `scan`: a fresh `File` (no descriptor, no
buffer), a fresh `Node` of one member keyed by `st_size`, `tsearch` in the
size tree, `insert` into the node found when there is one. -/
def classify (path : String) (dev ino size : Nat) (root : List Node) :
    Except Err (List Node) :=
  let file : File := ⟨path, none, dev, ino, none, 0⟩
  tsearchInsert filesetsizecmp ⟨size, [file], 1⟩ file root

mutual
/-- One iteration of the `readdir` loop of `scan(dir)`. -/
def scanEntry (dir : String) : Ent → List Node → Except Err (List Node)
  | .reg name dev ino size, root =>
    if isDotOrDotDot name then .ok root
    else classify (mkpath dir name) dev ino size root
  | .dir name listable entries, root =>
    if isDotOrDotDot name then .ok root
    else if listable then scanLoop (mkpath dir name) entries root
    else .ok root
  | .other _, root => .ok root
  | .nostat name, root =>
    if isDotOrDotDot name then .ok root else .error .fstatat
/-- The `readdir` loop of `scan(dir)` over the entries still to come. -/
def scanLoop (dir : String) : List Ent → List Node → Except Err (List Node)
  | [], root => .ok root
  | e :: es, root =>
    match scanEntry dir e root with
    | .ok root1 => scanLoop dir es root1
    | .error err => .error err
end

/-- The function `scan(dir)` on a command line argument: a failed `opendir`
warns and returns. -/
def scan (a : Arg) (root : List Node) : Except Err (List Node) :=
  if a.listable then scanLoop a.path a.entries root else .ok root

/-- The loop `while(*++argv) scan(*argv)` of `main`. -/
def scanArgs : List Arg → List Node → Except Err (List Node)
  | [], root => .ok root
  | a :: as, root =>
    match scan a root with
    | .ok root1 => scanArgs as root1
    | .error err => .error err

/-! ## compare, compareblock, action -/

/-- The function `filefree(p)`; its argument may be `NULL`. -/
def filefree (p : Option File) (st : St) : St :=
  match p with
  | none => st
  | some f => { st with freed := st.freed ++ [f] }

/-- The last loop of the `size == 0` branch of `compareblock`: `puts` and
`filefree` for every member in list order. -/
def putsAll : List File → St → St
  | [], st => st
  | p :: rest, st =>
    putsAll rest (filefree (some p) { st with stdout := st.stdout ++ p.name ++ "\n" })

/-- The `size == 0` branch of `compareblock`: a newline unless this is the
first set, then the members. -/
def emit (set : Node) (st : St) : St :=
  let st1 : St :=
    if !st.firstset then { st with stdout := st.stdout ++ "\n" }
    else { st with firstset := false }
  let st2 := putsAll set.head st1
  { st2 with sets := st2.sets ++ [set.head] }

/-- The first loop of `compareblock`: every member gets `bufsiz` and its next
window through `readn`; a failed read and a short read end the process.  A
member that has a descriptor has a buffer, `compare` giving both. -/
def readWindows (size : Nat) : List File → St → St × List File
  | [], st => (st, [])
  | p :: rest, st =>
    let bufsiz := if size > blksize then blksize else size
    let res := readn p.fd bufsiz
    let st1 : St := { st with reads := st.reads ++ [p] }
    if res.r = -1 then ({ st1 with status := .fatal .read }, [])
    else if res.r < bufsiz then
      ({ st1 with status := .fatal (.unexpectedEof p.name) }, [])
    else
      let p1 : File := { p with bufsiz := bufsiz, buf := some res.bytes, fd := res.fd }
      let out := readWindows size rest st1
      (out.1, p1 :: out.2)

/-- The second loop of `compareblock`: every member, in list order, becomes a
node of remaining size `size - bufsiz` handed to `tsearch` under
`filesetdatacmp`, and joins the node found when there is one. -/
def regroup (size : Nat) : List File → List Node → Except Err (List Node)
  | [], newroot => .ok newroot
  | p :: q, newroot =>
    match tsearchInsert filesetdatacmp ⟨size - p.bufsiz, [p], 1⟩ p newroot with
    | .ok t => regroup size q t
    | .error e => .error e

/-- The function `newaction` with the `compareblock` it calls. -/
def newaction (cb : Node → St → St) (set : Node) (st : St) : St :=
  if set.n > 1 then cb set st else filefree set.head.head? st

/-- The function `compareblock`, given the number of refinement levels it may
still descend. -/
def compareblock : Nat → Node → St → St
  | fuel, set, st =>
    if set.size = 0 then emit set st
    else
      match fuel with
      | 0 => { st with status := .nofuel }
      | fuel1 + 1 =>
        let rd := readWindows set.size set.head st
        if rd.1.status = .running then
          match regroup set.size rd.2 [] with
          | .ok newroot => twalk (newaction (compareblock fuel1)) newroot rd.1
          | .error e => { rd.1 with status := .fatal e }
        else rd.1

/-- The number of windows of a file of `size` bytes. -/
def levels (size : Nat) : Nat := (size + blksize - 1) / blksize

/-- The loop of `compare`: `open` every member and give it a buffer of
`blksize` bytes.  A member whose `open` fails is unlinked
(`*p = (*p)->next`) and `continue` runs the loop increment `p = &(*p)->next`
on the member that took its place, which is therefore stepped over unopened;
when nothing took its place the increment and the loop test go through a null
pointer (`none`). -/
def openAll (w : World) : List File → Option (List File)
  | [] => some []
  | [p] =>
    match w p.name with
    | some d => some [{ p with fd := some d, buf := some [] }]
    | none => none
  | p :: q :: rest =>
    match w p.name with
    | some d =>
      match openAll w (q :: rest) with
      | some l => some ({ p with fd := some d, buf := some [] } :: l)
      | none => none
    | none =>
      match openAll w rest with
      | some l => some (q :: l)
      | none => none

/-- The function `compare(set)`. -/
def compare (w : World) (set : Node) (st : St) : St :=
  match openAll w set.head with
  | some l => compareblock (levels set.size) { set with head := l } st
  | none => { st with status := .crash }

/-- The function `action`. -/
def action (w : World) (set : Node) (st : St) : St :=
  if set.n > 1 then compare w set st else filefree set.head.head? st

/-- The function `main`: usage error without arguments, `scan` of every
argument, then `twalk(root, action)`. -/
def main (w : World) (args : List Arg) : St :=
  if args.isEmpty then { St.init with status := .fatal .usage }
  else
    match scanArgs args [] with
    | .ok root => twalk (action w) root St.init
    | .error e => { St.init with status := .fatal e }

/-! ## Vocabulary of the statements -/

/-- The order of `filedevinocmp`: device first, inode second. -/
def DevInoLt (a b : File) : Prop :=
  a.dev < b.dev ∨ (a.dev = b.dev ∧ a.ino < b.ino)

/-- A member list in strictly ascending (device, inode) order. -/
def SortedFiles (l : List File) : Prop := l.Pairwise DevInoLt

/-- The bytes a descriptor delivers up to its end of file, `none` when a read
error comes first. -/
def bytesOf : Desc → Option (List Nat)
  | [] => some []
  | .eintr :: d => bytesOf d
  | .error :: _ => none
  | .eof :: _ => some []
  | .data bs :: d =>
    if bs.length = 0 then some []
    else
      match bytesOf d with
      | some rest => some (bs ++ rest)
      | none => none

/-- The byte content of the file at a path, as a fresh `open` delivers it. -/
def content (w : World) (path : String) : Option (List Nat) :=
  match w path with
  | some d => bytesOf d
  | none => none

/-- The window length of a group of remaining size `size`:
`set->size > blksize ? blksize : set->size`. -/
def window (size : Nat) : Nat := if size > blksize then blksize else size

/-- A regular file of the scanned trees: path, identity and declared size. -/
structure Reg where
  path : String
  dev : Nat
  ino : Nat
  size : Nat
deriving DecidableEq

mutual
/-- The regular files below one directory entry of `dir`. -/
def regsEntry (dir : String) : Ent → List Reg
  | .reg name dev ino size =>
    if isDotOrDotDot name then [] else [⟨mkpath dir name, dev, ino, size⟩]
  | .dir name listable entries =>
    if isDotOrDotDot name then []
    else if listable then regsList (mkpath dir name) entries
    else []
  | .other _ => []
  | .nostat _ => []
/-- The regular files below the entries of `dir`: those reached through
directories that can be listed, never through `.` or `..`. -/
def regsList (dir : String) : List Ent → List Reg
  | [] => []
  | e :: es => regsEntry dir e ++ regsList dir es
end

/-- The regular files under the command line arguments. -/
def regsArgs : List Arg → List Reg
  | [] => []
  | a :: as => (if a.listable then regsList a.path a.entries else []) ++ regsArgs as

/-- Handing a list of regular files to the classifier one after the other. -/
def classifyAll : List Reg → List Node → Except Err (List Node)
  | [], root => .ok root
  | r :: rs, root =>
    match classify r.path r.dev r.ino r.size root with
    | .ok root1 => classifyAll rs root1
    | .error e => .error e

/-- The paths of a member list. -/
def names (l : List File) : List String := l.map File.name

/-- One set as the reporter writes it: every path followed by a newline. -/
def renderSet : List String → String
  | [] => ""
  | p :: rest => p ++ "\n" ++ renderSet rest

/-- The sets in emission order with one empty line between consecutive sets. -/
def renderSets : List (List String) → String
  | [] => ""
  | [s] => renderSet s
  | s :: t :: rest => renderSet s ++ "\n" ++ renderSets (t :: rest)

/-- A member after one successful pass of the first loop of `compareblock`
over a group of remaining size `size`. -/
def readStep (size : Nat) (p : File) : File :=
  { p with bufsiz := window size, buf := some (readn p.fd (window size)).bytes,
           fd := (readn p.fd (window size)).fd }

/-- The window a member holds: the bytes of its buffer. -/
def File.win (f : File) : List Nat := f.buf.getD []

/-- The window `filesetdatacmp` reads from a node: that of its first member. -/
def Node.win (nd : Node) : List Nat :=
  match nd.head with
  | f :: _ => f.win
  | [] => []

/-- What holds of the window tree while the second loop of `compareblock`
builds it at window length `k`: the nodes are in strictly ascending `memcmp`
order of their windows, no node is empty, and every member of a node holds a
full window equal to the node's. -/
def WinTree (k : Nat) (t : List Node) : Prop :=
  t.Pairwise (fun a b => memcmp a.win b.win k < 0) ∧
  ∀ nd ∈ t, nd.head ≠ [] ∧
    ∀ f ∈ nd.head, f.bufsiz = k ∧ f.win.length = k ∧ f.win = nd.win

/-- Two records of different identity. -/
def IdNe (a b : File) : Prop := ¬ (a.dev = b.dev ∧ a.ino = b.ino)

/-- What identifies a record through the pipeline: path and identity, the
fields no stage changes. -/
def File.key (f : File) : String × Nat × Nat := (f.name, f.dev, f.ino)

/-- A member after a successful `open` in `compare`. -/
def File.opened (d : Desc) (p : File) : File := { p with fd := some d, buf := some [] }

/-- The bytes of the file at a path, empty when it cannot be read. -/
def fullBytes (w : World) (path : String) : List Nat := (content w path).getD []

/-- A member `off` bytes into its file: its descriptor delivers the rest of
the file, `size` bytes. -/
def GoodAt (w : World) (off size : Nat) (f : File) : Prop :=
  ∃ d, f.fd = some d ∧ bytesOf d = some ((fullBytes w f.name).drop off) ∧
    (fullBytes w f.name).length = off + size

/-- A group `off` bytes into its files: every member is, and all members
agree on the bytes consumed so far. -/
def GoodGroup (w : World) (off : Nat) (set : Node) : Prop :=
  (∀ f ∈ set.head, GoodAt w off set.size f) ∧
  ∀ f ∈ set.head, ∀ g ∈ set.head,
    (fullBytes w f.name).take off = (fullBytes w g.name).take off

/-- The sets emitted after `base` and the records read all satisfy `A`. -/
def ProvInv (A : File → Prop) (base : List (List File)) (st : St) : Prop :=
  (∃ rest, st.sets = base ++ rest ∧ ∀ s ∈ rest, ∀ f ∈ s, A f) ∧ ∀ f ∈ st.reads, A f

mutual
/-- No `fstatat` fails on or below this entry, as far as `scan` goes. -/
def statOkEntry : Ent → Bool
  | .reg _ _ _ _ => true
  | .dir name listable entries =>
    isDotOrDotDot name || !listable || statOkList entries
  | .other _ => true
  | .nostat name => isDotOrDotDot name
/-- No `fstatat` fails on or below these entries, as far as `scan` goes. -/
def statOkList : List Ent → Bool
  | [] => true
  | e :: es => statOkEntry e && statOkList es
end

/-- No `fstatat` fails anywhere `scan` goes under the arguments. -/
def statOkArgs : List Arg → Bool
  | [] => true
  | a :: as => (!a.listable || statOkList a.entries) && statOkArgs as

/-- Any two members of `l` of different identity whose files hold the same
bytes are printed together in one of the sets `new`. -/
def PairsIn (w : World) (l : List File) (new : List (List File)) : Prop :=
  ∀ f ∈ l, ∀ g ∈ l, IdNe f g → fullBytes w f.name = fullBytes w g.name →
    ∃ s ∈ new, f.name ∈ names s ∧ g.name ∈ names s

/-- The member list `l` holds every scanned file that has the length of, and
agrees on the first `off` bytes with, one of its members. -/
def ClosedAt (w : World) (regs : List Reg) (off : Nat) (l : List File) : Prop :=
  ∀ f ∈ l, ∀ r ∈ regs,
    (fullBytes w r.path).length = (fullBytes w f.name).length →
    (fullBytes w r.path).take off = (fullBytes w f.name).take off →
    r.path ∈ names l

/-- The record `scan` builds for a regular file. -/
def fileOf (r : Reg) : File := ⟨r.path, none, r.dev, r.ino, none, 0⟩

/-- The text written so far is the rendering of the sets emitted so far, and
`firstset` still holds exactly when nothing was emitted. -/
def OutInv (st : St) : Prop :=
  st.stdout = renderSets (st.sets.map names) ∧ (st.firstset = true ↔ st.sets = [])

/-- What holds of the size tree while `scan` builds it: the nodes are in
strictly ascending size order, and every node's members are in strictly
ascending (device, inode) order, counted by `n`, at least one, not yet
opened. -/
def RootInv (root : List Node) : Prop :=
  root.Pairwise (fun a b => a.size < b.size) ∧
  ∀ nd ∈ root, SortedFiles nd.head ∧ nd.n = nd.head.length ∧ nd.head ≠ [] ∧
    ∀ f ∈ nd.head, f.fd = none ∧ f.buf = none

/-! ## Sample inputs -/

/-- A sample world: `r/a` and `r/b` hold the same three bytes (the second
delivered in two pieces around an interrupted call), `r/c` differs in its last
byte, `r/e1` and `r/d/e2` are empty, `r/u` holds seven bytes. -/
def exWorld : World := fun p =>
  if p = "r/a" then some [.data [1, 2, 3]]
  else if p = "r/b" then some [.data [1, 2], .eintr, .data [3]]
  else if p = "r/c" then some [.data [1, 2, 4]]
  else if p = "r/e1" then some []
  else if p = "r/d/e2" then some []
  else if p = "r/u" then some [.data [9, 9, 9, 9, 9, 9, 9]]
  else none

/-- A sample tree for `exWorld`, in the order `readdir` lists it. -/
def exArgs : List Arg :=
  [⟨"r", true,
    [.reg "a" 1 10 3, .reg "c" 1 12 3, .dir "d" true [.reg "e2" 1 5 0],
     .reg "b" 1 11 3, .reg "e1" 1 4 0, .reg "u" 1 99 7, .other "l"]⟩]

/-- Two arguments under which the same file (device 1, inode 10, three bytes)
is found twice. -/
def dupArgs : List Arg :=
  [⟨"r", true, [.reg "a" 1 10 3]⟩, ⟨"q", true, [.reg "a" 1 10 3]⟩]

/-- A tree of two empty files. -/
def zeroArgs2 : List Arg := [⟨"r", true, [.reg "a" 1 1 0, .reg "b" 1 2 0]⟩]

/-- A tree of three empty files. -/
def zeroArgs3 : List Arg :=
  [⟨"r", true, [.reg "a" 1 1 0, .reg "b" 1 2 0, .reg "c" 1 3 0]⟩]

/-- A tree of three files of one byte. -/
def oneArgs3 : List Arg :=
  [⟨"r", true, [.reg "a" 1 1 1, .reg "b" 1 2 1, .reg "c" 1 3 1]⟩]

/-- A world in which `r/a` cannot be opened, every other file is empty. -/
def noA0 : World := fun p => if p = "r/a" then none else some []

/-- A world in which `r/a` cannot be opened, every other file holds the byte 7. -/
def noA1 : World := fun p => if p = "r/a" then none else some [.data [7]]

/-- A world in which `r/c` cannot be opened, every other file holds the byte 7. -/
def noC1 : World := fun p => if p = "r/c" then none else some [.data [7]]

end Dups

namespace Dups

/-! ## Vocabulary of the later statements -/

/-- What a descriptor has in store for a reader that asks until the end: the
bytes that arrive before the first end of file or error (interrupted calls
aside), and whether it is an error that ends them. -/
def arrived : Desc → List Nat × Bool
  | [] => ([], false)
  | .eintr :: d => arrived d
  | .error :: _ => ([], true)
  | .eof :: _ => ([], false)
  | .data bs :: d =>
    if bs.length = 0 then ([], false)
    else (bs ++ (arrived d).1, (arrived d).2)

/-- All members of the nodes of a tree, node after node. -/
def members (t : List Node) : List File := (t.map Node.head).flatten

mutual
/-- One iteration of the `readdir` loop of `scan(dir)`, the regular-file
branch left open: `cls` stands for what is done with a regular file, given its
path, `st_dev`, `st_ino` and `st_size`. -/
def scanEntryWith {σ : Type} (cls : String → Nat → Nat → Nat → σ → Except Err σ)
    (dir : String) : Ent → σ → Except Err σ
  | .reg name dev ino size, s =>
    if isDotOrDotDot name then .ok s
    else cls (mkpath dir name) dev ino size s
  | .dir name listable entries, s =>
    if isDotOrDotDot name then .ok s
    else if listable then scanLoopWith cls (mkpath dir name) entries s
    else .ok s
  | .other _, s => .ok s
  | .nostat name, s =>
    if isDotOrDotDot name then .ok s else .error .fstatat
/-- The `readdir` loop of `scan(dir)`, the regular-file branch left open. -/
def scanLoopWith {σ : Type} (cls : String → Nat → Nat → Nat → σ → Except Err σ)
    (dir : String) : List Ent → σ → Except Err σ
  | [], s => .ok s
  | e :: es, s =>
    match scanEntryWith cls dir e s with
    | .ok s1 => scanLoopWith cls dir es s1
    | .error err => .error err
end

/-- Handing a list of regular files to `cls` one after the other. -/
def feedAll {σ : Type} (cls : String → Nat → Nat → Nat → σ → Except Err σ) :
    List Reg → σ → Except Err σ
  | [], s => .ok s
  | r :: rs, s =>
    match cls r.path r.dev r.ino r.size s with
    | .ok s1 => feedAll cls rs s1
    | .error e => .error e

/-- A classifier that only notes what it is handed. -/
def noteReg (path : String) (dev ino size : Nat) (log : List Reg) : Except Err (List Reg) :=
  .ok (log ++ [⟨path, dev, ino, size⟩])

/-- A regular file reachable from the entries of `dir`: an entry of `dir`
itself, or reachable from the entries of a sub-directory that can be listed;
never `.` or `..`, never through anything but a directory. -/
inductive Reaches : String → List Ent → Reg → Prop where
  | file {dir : String} {es : List Ent} {name : String} {dev ino size : Nat} :
      Ent.reg name dev ino size ∈ es → isDotOrDotDot name = false →
      Reaches dir es ⟨mkpath dir name, dev, ino, size⟩
  | sub {dir : String} {es : List Ent} {name : String} {entries : List Ent} {r : Reg} :
      Ent.dir name true entries ∈ es → isDotOrDotDot name = false →
      Reaches (mkpath dir name) entries r → Reaches dir es r

/-- The entries of one directory as two runs of `readdir` may list them: the
same entries in another order, at this level and, for the entries that are
directories, below. -/
inductive Reordered : List Ent → List Ent → Prop where
  | nil : Reordered [] []
  | cons (e : Ent) {es es1 : List Ent} :
      Reordered es es1 → Reordered (e :: es) (e :: es1)
  | dir (name : String) (listable : Bool) {sub sub1 es es1 : List Ent} :
      Reordered sub sub1 → Reordered es es1 →
      Reordered (.dir name listable sub :: es) (.dir name listable sub1 :: es1)
  | swap (a b : Ent) (es : List Ent) : Reordered (a :: b :: es) (b :: a :: es)
  | trans {x y z : List Ent} : Reordered x y → Reordered y z → Reordered x z

/-- The lexicographic order of byte strings, bytes compared as numbers. -/
def lexLt : List Nat → List Nat → Prop
  | [], [] => False
  | [], _ :: _ => True
  | _ :: _, [] => False
  | x :: xs, y :: ys => x < y ∨ (x = y ∧ lexLt xs ys)

/-- The order in which contents are emitted: the shorter first, of two of one
length the lexicographically smaller first. -/
def ContentLt (a b : List Nat) : Prop :=
  a.length < b.length ∨ (a.length = b.length ∧ lexLt a b)

/-- Every member of the first set holds a content that comes before that of
every member of the second. -/
def SetLt (w : World) (s1 s2 : List File) : Prop :=
  ∀ f ∈ s1, ∀ g ∈ s2, ContentLt (fullBytes w f.name) (fullBytes w g.name)

/-- The sets `new` come from the member list `l`: each holds at least two
members, all of them going by the path of a member of `l`, and they are in
emission order. -/
def OrderedFrom (w : World) (l : List File) (new : List (List File)) : Prop :=
  new.Pairwise (SetLt w) ∧
  ∀ s ∈ new, 2 ≤ s.length ∧ ∀ f ∈ s, ∃ f0 ∈ l, f.name = f0.name

/-- The same command line over a tree whose directories are enumerated in
another order. -/
def ReorderedArgs : List Arg → List Arg → Prop
  | [], [] => True
  | a :: as, b :: bs =>
    a.path = b.path ∧ a.listable = b.listable ∧ Reordered a.entries b.entries ∧
      ReorderedArgs as bs
  | _, _ => False

/-- The sample tree with its entries listed in another order. -/
def exArgsReordered : List Arg :=
  [⟨"r", true,
    [.reg "c" 1 12 3, .reg "a" 1 10 3, .dir "d" true [.reg "e2" 1 5 0],
     .reg "b" 1 11 3, .reg "e1" 1 4 0, .reg "u" 1 99 7, .other "l"]⟩]

/-- The class of three bytes of the sample tree as `compare` hands it to
`compareblock` in the sample world: all three members opened. -/
def exGroup : Node :=
  ⟨3, [⟨"r/a", some [.data [1, 2, 3]], 1, 10, some [], 0⟩,
       ⟨"r/b", some [.data [1, 2], .eintr, .data [3]], 1, 11, some [], 0⟩,
       ⟨"r/c", some [.data [1, 2, 4]], 1, 12, some [], 0⟩], 3⟩

/-- A second sample world: `r/a` and `r/b` hold the bytes 5 2, `r/c` and `r/d`
the bytes 5 1, `r/e` and `r/f` the one byte 9. -/
def ordWorld : World := fun p =>
  if p = "r/a" then some [.data [5, 2]]
  else if p = "r/b" then some [.data [5, 2]]
  else if p = "r/c" then some [.data [5, 1]]
  else if p = "r/d" then some [.data [5, 1]]
  else if p = "r/e" then some [.data [9]]
  else if p = "r/f" then some [.data [9]]
  else none

/-- A sample tree for `ordWorld`, in the order `readdir` lists it. -/
def ordArgs : List Arg :=
  [⟨"r", true,
    [.reg "a" 1 1 2, .reg "b" 1 2 2, .reg "c" 1 3 2, .reg "d" 1 4 2,
     .reg "e" 1 5 1, .reg "f" 1 6 1]⟩]

end Dups

namespace Dups

theorem CMP_eq_zero (a b : Nat) : CMP a b = 0 ↔ a = b := by
  unfold CMP; split_ifs <;> omega

theorem CMP_neg (a b : Nat) : CMP a b < 0 ↔ a < b := by
  unfold CMP; split_ifs <;> omega

theorem CMP_pos (a b : Nat) : 0 < CMP a b ↔ b < a := by
  unfold CMP; split_ifs <;> omega

theorem filedevinocmp_neg (a b : File) : filedevinocmp a b < 0 ↔ DevInoLt a b := by
  unfold filedevinocmp DevInoLt
  simp only []
  have h1 := CMP_eq_zero a.dev b.dev
  have h2 := CMP_neg a.dev b.dev
  have h3 := CMP_pos a.dev b.dev
  have h4 := CMP_neg a.ino b.ino
  split_ifs with h <;> constructor <;> intro h5 <;> omega

theorem filedevinocmp_pos (a b : File) : 0 < filedevinocmp a b ↔ DevInoLt b a := by
  unfold filedevinocmp DevInoLt
  simp only []
  have h1 := CMP_eq_zero a.dev b.dev
  have h2 := CMP_neg a.dev b.dev
  have h3 := CMP_pos a.dev b.dev
  have h4 := CMP_pos a.ino b.ino
  split_ifs with h <;> constructor <;> intro h5 <;> omega

theorem filedevinocmp_zero (a b : File) :
    filedevinocmp a b = 0 ↔ a.dev = b.dev ∧ a.ino = b.ino := by
  unfold filedevinocmp
  simp only []
  have h1 := CMP_eq_zero a.dev b.dev
  have h4 := CMP_eq_zero a.ino b.ino
  split_ifs with h <;> constructor <;> intro h5 <;> omega

theorem DevInoLt.trans {a b c : File} (h1 : DevInoLt a b) (h2 : DevInoLt b c) :
    DevInoLt a c := by
  unfold DevInoLt at *; omega

theorem DevInoLt.ne_id {a b : File} (h : DevInoLt a b) :
    ¬ (a.dev = b.dev ∧ a.ino = b.ino) := by
  unfold DevInoLt at *; omega

end Dups

namespace Dups

/-! ## insert -/

theorem insertList_split (f : File) :
    ∀ (l l1 : List File), insertList f l = .ok l1 →
      ∃ a b, l = a ++ b ∧ l1 = a ++ f :: b ∧ (∀ x ∈ a, DevInoLt x f) ∧
        (∀ y, b.head? = some y → DevInoLt f y) := by
  intro l
  induction l with
  | nil =>
    intro l1 h
    simp only [insertList, Except.ok.injEq] at h
    exact ⟨[], [], rfl, by simp [← h], by simp, by simp⟩
  | cons p rest ih =>
    intro l1 h
    unfold insertList at h
    split_ifs at h with h1 h2
    · cases hr : insertList f rest with
      | error e => simp [hr] at h
      | ok l2 =>
        simp only [hr, Except.ok.injEq] at h
        obtain ⟨a, b, e1, e2, h3, h4⟩ := ih l2 hr
        refine ⟨p :: a, b, by simp [e1], by simp [← h, e2], ?_, h4⟩
        intro x hx
        rcases List.mem_cons.mp hx with hx | hx
        · subst hx; exact (filedevinocmp_pos f x).mp h1
        · exact h3 x hx
    · simp only [Except.ok.injEq] at h
      refine ⟨[], p :: rest, rfl, by simp [← h], by simp, ?_⟩
      intro y hy
      simp only [List.head?_cons, Option.some.injEq] at hy
      subst hy
      exact (filedevinocmp_neg f p).mp (by omega)

theorem insertList_error (f : File) :
    ∀ (l : List File) (e : Err), insertList f l = .error e →
      e = .sameFile ∧ ∃ p ∈ l, f.dev = p.dev ∧ f.ino = p.ino := by
  intro l
  induction l with
  | nil => intro e h; simp [insertList] at h
  | cons p rest ih =>
    intro e h
    unfold insertList at h
    split_ifs at h with h1 h2
    · cases hr : insertList f rest with
      | error e1 =>
        simp only [hr, Except.error.injEq] at h
        obtain ⟨h3, q, hq, h4⟩ := ih e1 hr
        exact ⟨by rw [← h, h3], q, List.mem_cons_of_mem _ hq, h4⟩
      | ok l2 => simp [hr] at h
    · simp only [Except.error.injEq] at h
      exact ⟨h.symm, p, List.mem_cons_self _ _, (filedevinocmp_zero f p).mp h2⟩

theorem SortedFiles.head_lt {f y : File} {b : List File} (hs : SortedFiles b)
    (h : ∀ z, b.head? = some z → DevInoLt f z) (hy : y ∈ b) : DevInoLt f y := by
  cases b with
  | nil => simp at hy
  | cons z t =>
    have hz := h z rfl
    rcases List.mem_cons.mp hy with hy | hy
    · subst hy; exact hz
    · exact hz.trans ((List.pairwise_cons.mp hs).1 y hy)

theorem insertList_sorted {f : File} {l l1 : List File} (hs : SortedFiles l)
    (h : insertList f l = .ok l1) : SortedFiles l1 := by
  obtain ⟨a, b, e1, e2, h3, h4⟩ := insertList_split f l l1 h
  subst e1 e2
  unfold SortedFiles at *
  rw [List.pairwise_append] at hs ⊢
  obtain ⟨ha, hb, hab⟩ := hs
  refine ⟨ha, ?_, ?_⟩
  · rw [List.pairwise_cons]
    exact ⟨fun y hy => SortedFiles.head_lt hb h4 hy, hb⟩
  · intro x hx y hy
    rcases List.mem_cons.mp hy with hy | hy
    · subst hy; exact h3 x hx
    · exact hab x hx y hy

theorem insertList_perm {f : File} {l l1 : List File}
    (h : insertList f l = .ok l1) : l1.Perm (f :: l) := by
  obtain ⟨a, b, e1, e2, _, _⟩ := insertList_split f l l1 h
  subst e1 e2
  exact List.perm_middle

theorem insertList_mem {f : File} {l l1 : List File}
    (h : insertList f l = .ok l1) (x : File) : x ∈ l1 ↔ x = f ∨ x ∈ l := by
  rw [(insertList_perm h).mem_iff, List.mem_cons]

theorem insertList_length {f : File} {l l1 : List File}
    (h : insertList f l = .ok l1) : l1.length = l.length + 1 := by
  rw [(insertList_perm h).length_eq, List.length_cons]

/-- On a sorted list `insert` refuses exactly the records whose identity is
already present. -/
theorem insertList_same (f : File) :
    ∀ (l : List File), SortedFiles l → (∃ p ∈ l, f.dev = p.dev ∧ f.ino = p.ino) →
      insertList f l = .error .sameFile := by
  intro l
  induction l with
  | nil => intro _ h; simp at h
  | cons p rest ih =>
    intro hs h
    obtain ⟨q, hq, hid⟩ := h
    have hs1 := List.pairwise_cons.mp hs
    unfold insertList
    split_ifs with h1 h2
    · have hpf := (filedevinocmp_pos f p).mp h1
      rcases List.mem_cons.mp hq with hq | hq
      · subst hq; exact absurd ⟨hid.1.symm, hid.2.symm⟩ hpf.ne_id
      · rw [ih hs1.2 ⟨q, hq, hid⟩]
    · rfl
    · exfalso
      have hfp : DevInoLt f p := (filedevinocmp_neg f p).mp (by omega)
      rcases List.mem_cons.mp hq with hq | hq
      · subst hq; exact hfp.ne_id hid
      · exact (hfp.trans (hs1.1 q hq)).ne_id hid

theorem insertList_ok_of_fresh (f : File) (l : List File)
    (h : ∀ p ∈ l, ¬ (f.dev = p.dev ∧ f.ino = p.ino)) :
    ∃ l1, insertList f l = .ok l1 := by
  cases hr : insertList f l with
  | ok l1 => exact ⟨l1, rfl⟩
  | error e =>
    obtain ⟨_, p, hp, hid⟩ := insertList_error f l e hr
    exact absurd hid (h p hp)

end Dups

namespace Dups

/-! ## tsearch -/

/-- Where `tsearch` ends up: past the nodes below the key, then either on a
node equal to the key, which takes the file, or in front of the first greater
node. -/
theorem tsearchInsert_split (compar : Node → Node → Int) (key : Node) (file : File) :
    ∀ (t t1 : List Node), tsearchInsert compar key file t = .ok t1 →
      ∃ a b, t = a ++ b ∧ (∀ x ∈ a, 0 < compar key x) ∧
        ((∃ x x1 b1, b = x :: b1 ∧ compar key x = 0 ∧ insert file x = .ok x1 ∧
            t1 = a ++ x1 :: b1) ∨
         ((∀ y, b.head? = some y → compar key y < 0) ∧ t1 = a ++ key :: b)) := by
  intro t
  induction t with
  | nil =>
    intro t1 h
    simp only [tsearchInsert, Except.ok.injEq] at h
    exact ⟨[], [], rfl, by simp, Or.inr ⟨by simp, by simp [← h]⟩⟩
  | cons x rest ih =>
    intro t1 h
    unfold tsearchInsert at h
    split_ifs at h with h1 h2
    · cases hr : insert file x with
      | error e => simp [hr] at h
      | ok x1 =>
        simp only [hr, Except.ok.injEq] at h
        exact ⟨[], x :: rest, rfl, by simp, Or.inl ⟨x, x1, rest, rfl, h1, hr, by simp [← h]⟩⟩
    · simp only [Except.ok.injEq] at h
      refine ⟨[], x :: rest, rfl, by simp, Or.inr ⟨?_, by simp [← h]⟩⟩
      intro y hy
      simp only [List.head?_cons, Option.some.injEq] at hy
      subst hy; exact h2
    · cases hr : tsearchInsert compar key file rest with
      | error e => simp [hr] at h
      | ok t2 =>
        simp only [hr, Except.ok.injEq] at h
        obtain ⟨a, b, e1, h3, h4⟩ := ih t2 hr
        refine ⟨x :: a, b, by simp [e1], ?_, ?_⟩
        · intro y hy
          rcases List.mem_cons.mp hy with hy | hy
          · subst hy; omega
          · exact h3 y hy
        · rcases h4 with ⟨y, y1, b1, e2, h5, h6, e3⟩ | ⟨h5, e3⟩
          · exact Or.inl ⟨y, y1, b1, e2, h5, h6, by simp [← h, e3]⟩
          · exact Or.inr ⟨h5, by simp [← h, e3]⟩

theorem tsearchInsert_error (compar : Node → Node → Int) (key : Node) (file : File) :
    ∀ (t : List Node) (e : Err), tsearchInsert compar key file t = .error e →
      ∃ x ∈ t, compar key x = 0 ∧ insert file x = .error e := by
  intro t
  induction t with
  | nil => intro e h; simp [tsearchInsert] at h
  | cons x rest ih =>
    intro e h
    unfold tsearchInsert at h
    split_ifs at h with h1 h2
    · cases hr : insert file x with
      | error e1 =>
        simp only [hr, Except.error.injEq] at h
        exact ⟨x, List.mem_cons_self _ _, h1, by rw [hr, h]⟩
      | ok x1 => simp [hr] at h
    · cases hr : tsearchInsert compar key file rest with
      | error e1 =>
        simp only [hr, Except.error.injEq] at h
        obtain ⟨y, hy, h3⟩ := ih e1 hr
        exact ⟨y, List.mem_cons_of_mem _ hy, by rw [← h]; exact h3⟩
      | ok t2 => simp [hr] at h

/-- A property of all nodes survives `tsearch` when the key has it and
`insert` into a node equal to the key keeps it. -/
theorem tsearchInsert_forall (P : Node → Prop) {compar : Node → Node → Int}
    {key : Node} {file : File} {t t1 : List Node}
    (h : tsearchInsert compar key file t = .ok t1)
    (ht : ∀ nd ∈ t, P nd) (hk : P key)
    (hins : ∀ x ∈ t, ∀ x1, compar key x = 0 → insert file x = .ok x1 → P x1) :
    ∀ nd ∈ t1, P nd := by
  obtain ⟨a, b, e1, _, h4⟩ := tsearchInsert_split compar key file t t1 h
  subst e1
  intro nd hnd
  rcases h4 with ⟨y, y1, b1, e2, h5, h6, e3⟩ | ⟨_, e3⟩
  · subst e2 e3
    simp only [List.mem_append, List.mem_cons] at hnd ht hins
    rcases hnd with hnd | hnd | hnd
    · exact ht nd (Or.inl hnd)
    · subst hnd; exact hins y (Or.inr (Or.inl rfl)) nd h5 h6
    · exact ht nd (Or.inr (Or.inr hnd))
  · subst e3
    simp only [List.mem_append, List.mem_cons] at hnd ht
    rcases hnd with hnd | hnd | hnd
    · exact ht nd (Or.inl hnd)
    · subst hnd; exact hk
    · exact ht nd (Or.inr hnd)

/-- The members of the tree after `tsearch` and `insert`: the old ones and the
new file, each still in a node. -/
theorem tsearchInsert_mem {compar : Node → Node → Int} {key : Node} {file : File}
    {t t1 : List Node} (hk : key.head = [file])
    (h : tsearchInsert compar key file t = .ok t1) :
    (∀ nd ∈ t1, ∀ f ∈ nd.head, f = file ∨ ∃ nd0 ∈ t, f ∈ nd0.head) ∧
    (∃ nd ∈ t1, file ∈ nd.head) ∧
    (∀ nd0 ∈ t, ∀ f ∈ nd0.head, ∃ nd ∈ t1, f ∈ nd.head) := by
  obtain ⟨a, b, e1, _, h4⟩ := tsearchInsert_split compar key file t t1 h
  subst e1
  rcases h4 with ⟨x, x1, b1, e2, h5, h6, e3⟩ | ⟨h5, e3⟩
  · subst e2 e3
    have h7 : insertList file x.head = .ok x1.head := by
      unfold insert at h6
      cases hr : insertList file x.head with
      | error e => simp [hr] at h6
      | ok l => simp only [hr, Except.ok.injEq] at h6; subst h6; rfl
    refine ⟨?_, ⟨x1, by simp, (insertList_mem h7 _).mpr (Or.inl rfl)⟩, ?_⟩
    · intro nd hnd f hf
      simp only [List.mem_append, List.mem_cons] at hnd
      rcases hnd with hnd | hnd | hnd
      · exact Or.inr ⟨nd, by simp [hnd], hf⟩
      · subst hnd
        rcases (insertList_mem h7 f).mp hf with hf | hf
        · exact Or.inl hf
        · exact Or.inr ⟨x, by simp, hf⟩
      · exact Or.inr ⟨nd, by simp [hnd], hf⟩
    · intro nd0 hnd0 f hf
      simp only [List.mem_append, List.mem_cons] at hnd0
      rcases hnd0 with hnd | hnd | hnd
      · exact ⟨nd0, by simp [hnd], hf⟩
      · subst hnd
        exact ⟨x1, by simp, (insertList_mem h7 f).mpr (Or.inr hf)⟩
      · exact ⟨nd0, by simp [hnd], hf⟩
  · subst e3
    refine ⟨?_, ⟨key, by simp, by simp [hk]⟩, ?_⟩
    · intro nd hnd f hf
      simp only [List.mem_append, List.mem_cons] at hnd
      rcases hnd with hnd | hnd | hnd
      · exact Or.inr ⟨nd, by simp [hnd], hf⟩
      · subst hnd
        rw [hk] at hf
        simp only [List.mem_singleton] at hf
        exact Or.inl hf
      · exact Or.inr ⟨nd, by simp [hnd], hf⟩
    · intro nd0 hnd0 f hf
      simp only [List.mem_append] at hnd0
      exact ⟨nd0, by simp only [List.mem_append, List.mem_cons]; tauto, hf⟩

theorem insert_ok {file : File} {v v1 : Node} (h : insert file v = .ok v1) :
    insertList file v.head = .ok v1.head ∧ v1.size = v.size ∧ v1.n = v.n + 1 := by
  unfold insert at h
  cases hr : insertList file v.head with
  | error e => simp [hr] at h
  | ok l =>
    simp only [hr, Except.ok.injEq] at h
    subst h
    exact ⟨rfl, rfl, rfl⟩

theorem insert_error {file : File} {v : Node} {e : Err} (h : insert file v = .error e) :
    insertList file v.head = .error e := by
  unfold insert at h
  cases hr : insertList file v.head with
  | error e1 => simp only [hr, Except.error.injEq] at h; rw [h]
  | ok l => simp [hr] at h

/-! ## twalk and the state -/

theorem twalk_inv {Inv : St → Prop} {act : Node → St → St} (P : Node → Prop)
    (h : ∀ nd st, P nd → Inv st → Inv (act nd st)) :
    ∀ (nodes : List Node), (∀ nd ∈ nodes, P nd) → ∀ st, Inv st → Inv (twalk act nodes st) := by
  intro nodes
  induction nodes with
  | nil => intro _ st hst; exact hst
  | cons nd rest ih =>
    intro hP st hst
    unfold twalk
    have h1 := h nd st (hP nd (List.mem_cons_self _ _)) hst
    simp only []
    split_ifs
    · exact ih (fun x hx => hP x (List.mem_cons_of_mem _ hx)) _ h1
    · exact h1

@[simp] theorem filefree_sets (p : Option File) (st : St) : (filefree p st).sets = st.sets := by
  cases p <;> rfl

@[simp] theorem filefree_stdout (p : Option File) (st : St) :
    (filefree p st).stdout = st.stdout := by
  cases p <;> rfl

@[simp] theorem filefree_firstset (p : Option File) (st : St) :
    (filefree p st).firstset = st.firstset := by
  cases p <;> rfl

@[simp] theorem filefree_reads (p : Option File) (st : St) :
    (filefree p st).reads = st.reads := by
  cases p <;> rfl

@[simp] theorem filefree_status (p : Option File) (st : St) :
    (filefree p st).status = st.status := by
  cases p <;> rfl

theorem putsAll_fields : ∀ (l : List File) (st : St),
    (putsAll l st).sets = st.sets ∧ (putsAll l st).firstset = st.firstset ∧
    (putsAll l st).reads = st.reads ∧ (putsAll l st).status = st.status ∧
    (putsAll l st).stdout = st.stdout ++ renderSet (names l) := by
  intro l
  induction l with
  | nil => intro st; simp [putsAll, renderSet, names]
  | cons p rest ih =>
    intro st
    unfold putsAll
    obtain ⟨h1, h2, h3, h4, h5⟩ := ih (filefree (some p) { st with stdout := st.stdout ++ p.name ++ "\n" })
    refine ⟨by simp [h1], by simp [h2], by simp [h3], by simp [h4], ?_⟩
    rw [h5]
    simp [names, renderSet, String.append_assoc]

theorem emit_sets (set : Node) (st : St) : (emit set st).sets = st.sets ++ [set.head] := by
  unfold emit
  simp only []
  rw [(putsAll_fields _ _).1]
  split_ifs <;> rfl

theorem emit_reads (set : Node) (st : St) : (emit set st).reads = st.reads := by
  unfold emit
  simp only []
  rw [(putsAll_fields _ _).2.2.1]
  split_ifs <;> rfl

theorem emit_status (set : Node) (st : St) : (emit set st).status = st.status := by
  unfold emit
  simp only []
  rw [(putsAll_fields _ _).2.2.2.1]
  split_ifs <;> rfl

theorem emit_firstset (set : Node) (st : St) : (emit set st).firstset = false := by
  unfold emit
  simp only []
  rw [(putsAll_fields _ _).2.1]
  split_ifs with h
  · simpa using h
  · rfl

theorem emit_stdout (set : Node) (st : St) :
    (emit set st).stdout =
      (if st.firstset then st.stdout else st.stdout ++ "\n") ++ renderSet (names set.head) := by
  unfold emit
  simp only []
  rw [(putsAll_fields _ _).2.2.2.2]
  cases st.firstset <;> simp

theorem readWindows_cons (size : Nat) (p : File) (rest : List File) (st : St) :
    readWindows size (p :: rest) st =
      if (readn p.fd (window size)).r = -1 then
        ({ st with reads := st.reads ++ [p], status := .fatal .read }, [])
      else if (readn p.fd (window size)).r < (window size : Nat) then
        ({ st with reads := st.reads ++ [p], status := .fatal (.unexpectedEof p.name) }, [])
      else
        ((readWindows size rest { st with reads := st.reads ++ [p] }).1,
         readStep size p :: (readWindows size rest { st with reads := st.reads ++ [p] }).2) :=
  rfl

theorem readWindows_fields (size : Nat) : ∀ (l : List File) (st : St),
    (readWindows size l st).1.sets = st.sets ∧
    (readWindows size l st).1.firstset = st.firstset ∧
    (readWindows size l st).1.stdout = st.stdout ∧
    (readWindows size l st).1.freed = st.freed := by
  intro l
  induction l with
  | nil => intro st; simp [readWindows]
  | cons p rest ih =>
    intro st
    rw [readWindows_cons]
    split_ifs
    · simp
    · simp
    · obtain ⟨h1, h2, h3, h4⟩ := ih { st with reads := st.reads ++ [p] }
      exact ⟨h1, h2, h3, h4⟩

/-- The induction over the refinement levels, for a property `Inv` of the
state that every step keeps while the groups satisfy `Pre`. -/
theorem compareblock_inv (Pre : Node → Prop) (Inv : St → Prop)
    (hemit : ∀ set st, Pre set → set.size = 0 → Inv st → Inv (emit set st))
    (hstat : ∀ st s, Inv st → Inv { st with status := s })
    (hfree : ∀ p st, Inv st → Inv (filefree p st))
    (hread : ∀ set st, Pre set → set.size ≠ 0 → Inv st →
      Inv (readWindows set.size set.head st).1)
    (hsub : ∀ set st newroot, Pre set → set.size ≠ 0 →
      (readWindows set.size set.head st).1.status = .running →
      regroup set.size (readWindows set.size set.head st).2 [] = .ok newroot →
      ∀ nd ∈ newroot, Pre nd) :
    ∀ (fuel : Nat) (set : Node) (st : St), Pre set → Inv st →
      Inv (compareblock fuel set st) := by
  intro fuel
  induction fuel with
  | zero =>
    intro set st hp hi
    unfold compareblock
    split_ifs with h0
    · exact hemit set st hp h0 hi
    · exact hstat st _ hi
  | succ fuel ih =>
    intro set st hp hi
    unfold compareblock
    split_ifs with h0
    · exact hemit set st hp h0 hi
    · simp only []
      have hr := hread set st hp h0 hi
      split_ifs with hrun
      · cases hg : regroup set.size (readWindows set.size set.head st).2 [] with
        | error e => exact hstat _ _ hr
        | ok newroot =>
          simp only []
          refine twalk_inv Pre ?_ newroot (hsub set st newroot hp h0 hrun hg) _ hr
          intro nd st1 hnd hst1
          unfold newaction
          split_ifs
          · exact ih nd st1 hnd hst1
          · exact hfree _ _ hst1
      · exact hr

end Dups

namespace Dups

/-! ## The text on standard output -/

theorem renderSets_snoc (s : List String) :
    ∀ (l : List (List String)),
      renderSets (l ++ [s]) =
        if l = [] then renderSet s else renderSets l ++ "\n" ++ renderSet s := by
  intro l
  induction l with
  | nil => simp [renderSets]
  | cons a rest ih =>
    cases rest with
    | nil => simp [renderSets]
    | cons b rest1 =>
      have h1 : (a :: b :: rest1) ++ [s] = a :: b :: (rest1 ++ [s]) := rfl
      rw [h1, renderSets]
      have h2 : b :: (rest1 ++ [s]) = (b :: rest1) ++ [s] := rfl
      rw [h2, ih]
      simp [renderSets, String.append_assoc]

theorem OutInv_emit (set : Node) (st : St) (h : OutInv st) : OutInv (emit set st) := by
  obtain ⟨h1, h2⟩ := h
  refine ⟨?_, ?_⟩
  · rw [emit_stdout, emit_sets, List.map_append, List.map_singleton, renderSets_snoc, h1]
    by_cases hs : st.sets = []
    · simp [hs, h2.mpr hs, renderSets]
    · have hf : st.firstset = false := by
        cases hfs : st.firstset with
        | false => rfl
        | true => exact absurd (h2.mp hfs) hs
      simp [hs, hf]
  · rw [emit_firstset, emit_sets]
    simp

theorem OutInv_compareblock (fuel : Nat) (set : Node) (st : St) (h : OutInv st) :
    OutInv (compareblock fuel set st) := by
  refine compareblock_inv (fun _ => True) OutInv ?_ ?_ ?_ ?_ ?_ fuel set st trivial h
  · intro set st _ _ hi; exact OutInv_emit set st hi
  · intro st s hi; exact hi
  · intro p st hi
    unfold OutInv at *
    simpa using hi
  · intro set st _ _ hi
    obtain ⟨h1, h2, h3, _⟩ := readWindows_fields set.size set.head st
    unfold OutInv at *
    rw [h1, h2, h3]; exact hi
  · intros; trivial

theorem OutInv_action (w : World) (set : Node) (st : St) (h : OutInv st) :
    OutInv (action w set st) := by
  unfold action
  split_ifs
  · unfold compare
    cases openAll w set.head with
    | none => exact h
    | some l => exact OutInv_compareblock _ _ _ h
  · unfold OutInv at *
    simpa using h

theorem OutInv_main (w : World) (args : List Arg) : OutInv (main w args) := by
  have h0 : OutInv St.init := by
    unfold OutInv St.init; simp [renderSets]
  unfold main
  split_ifs
  · exact h0
  · cases scanArgs args [] with
    | error e => exact h0
    | ok root =>
      exact twalk_inv (fun _ => True) (fun nd st _ hi => OutInv_action w nd st hi) root
        (fun _ _ => trivial) _ h0

/-- C9: for every run, the text written to standard output is the emitted sets
in emission order, each set rendered as its member paths one per line (each
followed by a newline), with exactly one empty line between consecutive sets,
no empty line before the first set and none after the last. -/
theorem output_format (w : World) (args : List Arg) :
    (main w args).stdout = renderSets ((main w args).sets.map names) :=
  (OutInv_main w args).1

end Dups

namespace Dups

/-! ## scan -/

theorem classifyAll_append : ∀ (xs ys : List Reg) (root : List Node),
    classifyAll (xs ++ ys) root =
      match classifyAll xs root with
      | .ok root1 => classifyAll ys root1
      | .error e => .error e := by
  intro xs
  induction xs with
  | nil => intro ys root; rfl
  | cons r rs ih =>
    intro ys root
    simp only [List.cons_append, classifyAll]
    cases classify r.path r.dev r.ino r.size root with
    | error e => rfl
    | ok root1 => exact ih ys root1

mutual
theorem scanEntry_ok : ∀ (e : Ent) (dir : String) (root root1 : List Node),
    scanEntry dir e root = .ok root1 → classifyAll (regsEntry dir e) root = .ok root1
  | .reg name dev ino size, dir, root, root1, h => by
    unfold scanEntry at h
    unfold regsEntry
    split_ifs at h ⊢ with h1
    · exact h
    · simp only [classifyAll]
      rw [h]
  | .dir name listable entries, dir, root, root1, h => by
    unfold scanEntry at h
    unfold regsEntry
    split_ifs at h ⊢ with h1 h2
    · exact h
    · exact scanLoop_ok entries (mkpath dir name) root root1 h
    · exact h
  | .other name, dir, root, root1, h => by
    unfold scanEntry at h
    unfold regsEntry
    exact h
  | .nostat name, dir, root, root1, h => by
    unfold scanEntry at h
    unfold regsEntry
    split_ifs at h
    exact h
theorem scanLoop_ok : ∀ (es : List Ent) (dir : String) (root root1 : List Node),
    scanLoop dir es root = .ok root1 → classifyAll (regsList dir es) root = .ok root1
  | [], dir, root, root1, h => by
    unfold scanLoop at h
    unfold regsList
    exact h
  | e :: es, dir, root, root1, h => by
    unfold scanLoop at h
    unfold regsList
    rw [classifyAll_append]
    cases hr : scanEntry dir e root with
    | error err => simp [hr] at h
    | ok root2 =>
      simp only [hr] at h
      rw [scanEntry_ok e dir root root2 hr]
      exact scanLoop_ok es dir root2 root1 h
end

theorem scanArgs_ok : ∀ (args : List Arg) (root root1 : List Node),
    scanArgs args root = .ok root1 → classifyAll (regsArgs args) root = .ok root1 := by
  intro args
  induction args with
  | nil => intro root root1 h; exact h
  | cons a as ih =>
    intro root root1 h
    unfold scanArgs at h
    unfold regsArgs
    rw [classifyAll_append]
    cases hr : scan a root with
    | error err => simp [hr] at h
    | ok root2 =>
      simp only [hr] at h
      unfold scan at hr
      split_ifs at hr ⊢ with h1
      · rw [scanLoop_ok _ _ _ _ hr]
        exact ih root2 root1 h
      · simp only [classifyAll]
        simp only [Except.ok.injEq] at hr
        subst hr
        exact ih root root1 h

end Dups

namespace Dups

theorem filesetsizecmp_zero (a b : Node) : filesetsizecmp a b = 0 ↔ a.size = b.size :=
  CMP_eq_zero _ _

theorem filesetsizecmp_neg (a b : Node) : filesetsizecmp a b < 0 ↔ a.size < b.size :=
  CMP_neg _ _

theorem filesetsizecmp_pos (a b : Node) : 0 < filesetsizecmp a b ↔ b.size < a.size :=
  CMP_pos _ _

theorem classify_RootInv {path : String} {dev ino size : Nat} {root root1 : List Node}
    (hr : RootInv root) (h : classify path dev ino size root = .ok root1) :
    RootInv root1 := by
  unfold classify at h
  simp only [] at h
  obtain ⟨a, b, e1, ha, h4⟩ := tsearchInsert_split _ _ _ _ _ h
  obtain ⟨hp, hn⟩ := hr
  subst e1
  rw [List.pairwise_append] at hp
  obtain ⟨hpa, hpb, hab⟩ := hp
  rcases h4 with ⟨x, x1, b1, e2, h5, h6, e3⟩ | ⟨h5, e3⟩
  · subst e2 e3
    obtain ⟨h7, h8, h9⟩ := insert_ok h6
    have hx := hn x (by simp)
    constructor
    · rw [List.pairwise_append]
      refine ⟨hpa, ?_, ?_⟩
      · rw [List.pairwise_cons] at hpb ⊢
        exact ⟨fun y hy => by rw [h8]; exact hpb.1 y hy, hpb.2⟩
      · intro y hy z hz
        rcases List.mem_cons.mp hz with hz | hz
        · subst hz; rw [h8]; exact hab y hy x (List.mem_cons_self _ _)
        · exact hab y hy z (List.mem_cons_of_mem _ hz)
    · intro nd hnd
      simp only [List.mem_append, List.mem_cons] at hnd
      rcases hnd with hnd | hnd | hnd
      · exact hn nd (by simp [hnd])
      · subst hnd
        refine ⟨insertList_sorted hx.1 h7, ?_, ?_, ?_⟩
        · rw [h9, insertList_length h7, hx.2.1]
        · intro hnil
          have := insertList_length h7
          rw [hnil] at this
          simp at this
        · intro f hf
          rcases (insertList_mem h7 f).mp hf with hf | hf
          · subst hf; exact ⟨rfl, rfl⟩
          · exact hx.2.2.2 f hf
      · exact hn nd (by simp [hnd])
  · subst e3
    constructor
    · rw [List.pairwise_append]
      refine ⟨hpa, ?_, ?_⟩
      · rw [List.pairwise_cons]
        refine ⟨?_, hpb⟩
        intro y hy
        cases b with
        | nil => simp at hy
        | cons z t =>
          have hz := (filesetsizecmp_neg _ _).mp (h5 z rfl)
          rcases List.mem_cons.mp hy with hy | hy
          · subst hy; exact hz
          · exact lt_trans hz ((List.pairwise_cons.mp hpb).1 y hy)
      · intro y hy z hz
        rcases List.mem_cons.mp hz with hz | hz
        · subst hz; exact (filesetsizecmp_pos _ _).mp (ha y hy)
        · exact hab y hy z hz
    · intro nd hnd
      simp only [List.mem_append, List.mem_cons] at hnd
      rcases hnd with hnd | hnd | hnd
      · exact hn nd (by simp [hnd])
      · subst hnd
        refine ⟨by simp [SortedFiles], rfl, by simp, ?_⟩
        intro f hf
        simp only [List.mem_singleton] at hf
        subst hf; exact ⟨rfl, rfl⟩
      · exact hn nd (by simp [hnd])

/-- The members of the size tree after one more regular file. -/
theorem classify_mem {path : String} {dev ino size : Nat} {root root1 : List Node}
    (h : classify path dev ino size root = .ok root1) :
    (∀ nd ∈ root1, ∀ f ∈ nd.head,
        (f = fileOf ⟨path, dev, ino, size⟩ ∧ nd.size = size) ∨
        ∃ nd0 ∈ root, nd0.size = nd.size ∧ f ∈ nd0.head) ∧
    (∃ nd ∈ root1, nd.size = size ∧ fileOf ⟨path, dev, ino, size⟩ ∈ nd.head) ∧
    (∀ nd0 ∈ root, ∀ f ∈ nd0.head, ∃ nd ∈ root1, nd.size = nd0.size ∧ f ∈ nd.head) := by
  unfold classify at h
  simp only [] at h
  obtain ⟨a, b, e1, ha, h4⟩ := tsearchInsert_split _ _ _ _ _ h
  subst e1
  rcases h4 with ⟨x, x1, b1, e2, h5, h6, e3⟩ | ⟨h5, e3⟩
  · subst e2 e3
    obtain ⟨h7, h8, h9⟩ := insert_ok h6
    have hsz : size = x.size := (filesetsizecmp_zero _ _).mp h5
    refine ⟨?_, ⟨x1, by simp, by rw [h8, hsz], (insertList_mem h7 _).mpr (Or.inl rfl)⟩, ?_⟩
    · intro nd hnd f hf
      simp only [List.mem_append, List.mem_cons] at hnd
      rcases hnd with hnd | hnd | hnd
      · exact Or.inr ⟨nd, by simp [hnd], rfl, hf⟩
      · subst hnd
        rcases (insertList_mem h7 f).mp hf with hf | hf
        · exact Or.inl ⟨hf, by rw [h8, hsz]⟩
        · exact Or.inr ⟨x, by simp, h8.symm, hf⟩
      · exact Or.inr ⟨nd, by simp [hnd], rfl, hf⟩
    · intro nd0 hnd0 f hf
      simp only [List.mem_append, List.mem_cons] at hnd0
      rcases hnd0 with hnd | hnd | hnd
      · exact ⟨nd0, by simp [hnd], rfl, hf⟩
      · subst hnd
        exact ⟨x1, by simp, h8, (insertList_mem h7 f).mpr (Or.inr hf)⟩
      · exact ⟨nd0, by simp [hnd], rfl, hf⟩
  · subst e3
    refine ⟨?_, ⟨⟨size, [⟨path, none, dev, ino, none, 0⟩], 1⟩, by simp, rfl,
      by simp [fileOf]⟩, ?_⟩
    · intro nd hnd f hf
      simp only [List.mem_append, List.mem_cons] at hnd
      rcases hnd with hnd | hnd | hnd
      · exact Or.inr ⟨nd, by simp [hnd], rfl, hf⟩
      · subst hnd
        simp only [List.mem_singleton] at hf
        exact Or.inl ⟨by rw [hf]; rfl, rfl⟩
      · exact Or.inr ⟨nd, by simp [hnd], rfl, hf⟩
    · intro nd0 hnd0 f hf
      simp only [List.mem_append] at hnd0
      exact ⟨nd0, by simp only [List.mem_append, List.mem_cons]; tauto, rfl, hf⟩

theorem classify_error {path : String} {dev ino size : Nat} {root : List Node} {e : Err}
    (h : classify path dev ino size root = .error e) :
    e = .sameFile ∧ ∃ nd ∈ root, nd.size = size ∧ ∃ p ∈ nd.head, p.dev = dev ∧ p.ino = ino := by
  unfold classify at h
  simp only [] at h
  obtain ⟨x, hx, h1, h2⟩ := tsearchInsert_error _ _ _ _ _ h
  obtain ⟨h3, p, hp, h4⟩ := insertList_error _ _ _ (insert_error h2)
  exact ⟨h3, x, hx, ((filesetsizecmp_zero _ _).mp h1).symm, p, hp, h4.1.symm, h4.2.symm⟩

/-- In a size tree built by `scan`, a regular file whose identity is already
in the class of its size is refused. -/
theorem classify_same (path : String) (dev ino size : Nat) :
    ∀ (root : List Node), RootInv root →
      (∃ nd ∈ root, nd.size = size ∧ ∃ p ∈ nd.head, p.dev = dev ∧ p.ino = ino) →
      classify path dev ino size root = .error .sameFile := by
  intro root
  induction root with
  | nil => intro _ h; simp at h
  | cons x rest ih =>
    intro hr h
    obtain ⟨nd, hnd, hsz, p, hp, hid⟩ := h
    obtain ⟨hpw, hn⟩ := hr
    have hpw1 := List.pairwise_cons.mp hpw
    have hrest : RootInv rest := ⟨hpw1.2, fun y hy => hn y (List.mem_cons_of_mem _ hy)⟩
    unfold classify
    simp only []
    unfold tsearchInsert
    have hc0 := filesetsizecmp_zero ⟨size, [⟨path, none, dev, ino, none, 0⟩], 1⟩ x
    have hc1 := filesetsizecmp_neg ⟨size, [⟨path, none, dev, ino, none, 0⟩], 1⟩ x
    simp only [] at hc0 hc1
    split_ifs with h1 h2
    · have hxe : nd = x := by
        rcases List.mem_cons.mp hnd with hnd | hnd
        · exact hnd
        · have := hpw1.1 nd hnd
          have := hc0.mp h1
          omega
      subst hxe
      have : insertList ⟨path, none, dev, ino, none, 0⟩ nd.head = .error .sameFile :=
        insertList_same _ _ (hn nd (List.mem_cons_self _ _)).1 ⟨p, hp, hid.1.symm, hid.2.symm⟩
      simp [insert, this]
    · exfalso
      have h3 := hc1.mp h2
      rcases List.mem_cons.mp hnd with hnd | hnd
      · subst hnd; omega
      · have := hpw1.1 nd hnd
        omega
    · have hnd1 : nd ∈ rest := by
        rcases List.mem_cons.mp hnd with hnd | hnd
        · subst hnd; exact absurd (hc0.mpr hsz.symm) h1
        · exact hnd
      have := ih hrest ⟨nd, hnd1, hsz, p, hp, hid⟩
      unfold classify at this
      simp only [] at this
      rw [this]

theorem classifyAll_RootInv : ∀ (rs : List Reg) (root root1 : List Node),
    RootInv root → classifyAll rs root = .ok root1 → RootInv root1 := by
  intro rs
  induction rs with
  | nil =>
    intro root root1 hr h
    simp only [classifyAll, Except.ok.injEq] at h
    subst h; exact hr
  | cons r rs ih =>
    intro root root1 hr h
    unfold classifyAll at h
    cases hc : classify r.path r.dev r.ino r.size root with
    | error e => simp [hc] at h
    | ok root2 =>
      simp only [hc] at h
      exact ih root2 root1 (classify_RootInv hr hc) h

/-- Every member of a class of the final size tree is a scanned regular file
of that size (or was in the tree before). -/
theorem classifyAll_sound : ∀ (rs : List Reg) (root root1 : List Node),
    classifyAll rs root = .ok root1 →
    ∀ nd ∈ root1, ∀ f ∈ nd.head,
      (∃ r ∈ rs, r.size = nd.size ∧ f = fileOf r) ∨
      ∃ nd0 ∈ root, nd0.size = nd.size ∧ f ∈ nd0.head := by
  intro rs
  induction rs with
  | nil =>
    intro root root1 h nd hnd f hf
    simp only [classifyAll, Except.ok.injEq] at h
    subst h
    exact Or.inr ⟨nd, hnd, rfl, hf⟩
  | cons r rs ih =>
    intro root root1 h nd hnd f hf
    unfold classifyAll at h
    cases hc : classify r.path r.dev r.ino r.size root with
    | error e => simp [hc] at h
    | ok root2 =>
      simp only [hc] at h
      rcases ih root2 root1 h nd hnd f hf with ⟨r1, hr1, h1, h2⟩ | ⟨nd0, hnd0, h1, h2⟩
      · exact Or.inl ⟨r1, List.mem_cons_of_mem _ hr1, h1, h2⟩
      · rcases (classify_mem hc).1 nd0 hnd0 f h2 with ⟨h3, h4⟩ | ⟨nd1, hnd1, h3, h4⟩
        · exact Or.inl ⟨r, List.mem_cons_self _ _, by rw [← h1, h4], h3⟩
        · exact Or.inr ⟨nd1, hnd1, by rw [h3, h1], h4⟩

/-- Every scanned regular file is a member of the class of its size in the
final size tree. -/
theorem classifyAll_complete : ∀ (rs : List Reg) (root root1 : List Node),
    classifyAll rs root = .ok root1 →
    (∀ r ∈ rs, ∃ nd ∈ root1, nd.size = r.size ∧ fileOf r ∈ nd.head) ∧
    (∀ nd0 ∈ root, ∀ f ∈ nd0.head, ∃ nd ∈ root1, nd.size = nd0.size ∧ f ∈ nd.head) := by
  intro rs
  induction rs with
  | nil =>
    intro root root1 h
    simp only [classifyAll, Except.ok.injEq] at h
    subst h
    exact ⟨by simp, fun nd0 hnd0 f hf => ⟨nd0, hnd0, rfl, hf⟩⟩
  | cons r rs ih =>
    intro root root1 h
    unfold classifyAll at h
    cases hc : classify r.path r.dev r.ino r.size root with
    | error e => simp [hc] at h
    | ok root2 =>
      simp only [hc] at h
      obtain ⟨h1, h2⟩ := ih root2 root1 h
      obtain ⟨_, ⟨nd2, hnd2, h3, h4⟩, h5⟩ := classify_mem hc
      constructor
      · intro r1 hr1
        rcases List.mem_cons.mp hr1 with hr1 | hr1
        · subst hr1
          obtain ⟨nd, hnd, h6, h7⟩ := h2 nd2 hnd2 _ h4
          exact ⟨nd, hnd, by rw [h6, h3], h7⟩
        · exact h1 r1 hr1
      · intro nd0 hnd0 f hf
        obtain ⟨nd1, hnd1, h6, h7⟩ := h5 nd0 hnd0 f hf
        obtain ⟨nd, hnd, h8, h9⟩ := h2 nd1 hnd1 f h7
        exact ⟨nd, hnd, by rw [h8, h6], h9⟩

theorem RootInv_nil : RootInv [] := by
  unfold RootInv; simp

/-- The size tree of a completed scan. -/
theorem scanArgs_root {args : List Arg} {root : List Node}
    (h : scanArgs args [] = .ok root) :
    RootInv root ∧
    (∀ nd ∈ root, ∀ f ∈ nd.head, ∃ r ∈ regsArgs args, r.size = nd.size ∧ f = fileOf r) ∧
    (∀ r ∈ regsArgs args, ∃ nd ∈ root, nd.size = r.size ∧ fileOf r ∈ nd.head) := by
  have h1 := scanArgs_ok args [] root h
  refine ⟨classifyAll_RootInv _ _ _ RootInv_nil h1, ?_, (classifyAll_complete _ _ _ h1).1⟩
  intro nd hnd f hf
  rcases classifyAll_sound _ _ _ h1 nd hnd f hf with h2 | ⟨nd0, hnd0, _⟩
  · exact h2
  · simp at hnd0

end Dups

namespace Dups

/-! ## readn -/

/-- The return value of the loop of `readn` is `-1` or the number of bytes
stored, which never exceeds `n`. -/
theorem readnLoop_len (n : Nat) : ∀ (d : Desc) (t : Nat) (a : List Nat),
    t = a.length → t ≤ n →
    (readnLoop n d t a).r = -1 ∨
      ((readnLoop n d t a).r = (readnLoop n d t a).bytes.length ∧
       (readnLoop n d t a).bytes.length ≤ n) := by
  intro d
  induction d with
  | nil => intro t a ht hn; right; simp [readnLoop, ht]; omega
  | cons o rest ih =>
    intro t a ht hn
    unfold readnLoop
    split_ifs with h1
    · cases o with
      | eintr => exact ih t a ht hn
      | error => left; rfl
      | eof => right; simp [ht]; omega
      | data bs =>
        simp only []
        split_ifs with h2 h3
        · right; simp [ht]; omega
        · exact ih _ _ (by simp [ht]) (by omega)
        · right
          simp only [List.length_append, List.length_take]
          constructor
          · rw [ht]; push_cast; omega
          · omega
    · right; simp [ht]; omega

theorem readn_len (fd : Option Desc) (n : Nat) :
    (readn fd n).r = -1 ∨
      ((readn fd n).r = (readn fd n).bytes.length ∧ (readn fd n).bytes.length ≤ n) := by
  unfold readn
  cases fd with
  | none =>
    simp only []
    split_ifs
    · left; rfl
    · right; simp
  | some d => exact readnLoop_len n d 0 [] rfl (Nat.zero_le _)

/-- A read that is neither failed nor short has filled the window. -/
theorem readn_full {fd : Option Desc} {n : Nat} (h1 : ¬ (readn fd n).r = -1)
    (h2 : ¬ (readn fd n).r < (n : Nat)) : (readn fd n).bytes.length = n := by
  rcases readn_len fd n with h | ⟨h3, h4⟩
  · exact absurd h h1
  · rw [h3] at h2
    omega

/-- On a descriptor that delivers `bs` before its end of file, `readn` of at
most that many bytes returns `n`, stores the first `n` bytes, and leaves a
descriptor that delivers the rest: short reads and `EINTR` do not matter. -/
theorem readnLoop_bytes (n : Nat) : ∀ (d : Desc) (t : Nat) (a bs : List Nat),
    bytesOf d = some bs → t ≤ n → n - t ≤ bs.length →
    (readnLoop n d t a).r = n ∧ (readnLoop n d t a).bytes = a ++ bs.take (n - t) ∧
    ∃ d1, (readnLoop n d t a).fd = some d1 ∧ bytesOf d1 = some (bs.drop (n - t)) := by
  intro d
  induction d with
  | nil =>
    intro t a bs hb ht hn
    simp only [bytesOf, Option.some.injEq] at hb
    subst hb
    simp only [List.length_nil, Nat.le_zero_eq] at hn
    have : t = n := by omega
    subst this
    simp [readnLoop, bytesOf]
  | cons o rest ih =>
    intro t a bs hb ht hn
    unfold readnLoop
    split_ifs with h1
    · cases o with
      | eintr => exact ih t a bs (by simpa [bytesOf] using hb) ht hn
      | error => simp [bytesOf] at hb
      | eof =>
        simp only [bytesOf, Option.some.injEq] at hb
        subst hb
        simp at hn; omega
      | data c =>
        simp only []
        unfold bytesOf at hb
        split_ifs at hb with h2
        · simp only [Option.some.injEq] at hb
          subst hb
          simp at hn; omega
        · cases hr : bytesOf rest with
          | none => simp [hr] at hb
          | some bs1 =>
            simp only [hr, Option.some.injEq] at hb
            subst hb
            rw [if_neg h2]
            split_ifs with h3
            · obtain ⟨e1, e2, d1, e3, e4⟩ :=
                ih (t + c.length) (a ++ c) bs1 hr (by omega)
                  (by simp only [List.length_append] at hn; omega)
              refine ⟨e1, ?_, d1, e3, ?_⟩
              · rw [e2, List.take_append_eq_append_take, List.take_of_length_le h3,
                  List.append_assoc]
                congr 2
                congr 1
                omega
              · rw [e4, List.drop_append_eq_append_drop, List.drop_of_length_le h3,
                  List.nil_append]
                congr 2
                omega
            · refine ⟨by simp only []; congr 1; omega, ?_, _, rfl, ?_⟩
              · simp only []
                rw [List.take_append_eq_append_take]
                have : n - t - c.length = 0 := by omega
                rw [this, List.take_zero, List.append_nil]
              · have hne : ¬ (c.drop (n - t)).length = 0 := by
                  simp only [List.length_drop]; omega
                unfold bytesOf
                rw [if_neg hne, hr]
                simp only [Option.some.injEq]
                rw [List.drop_append_eq_append_drop]
                have : n - t - c.length = 0 := by omega
                rw [this, List.drop_zero]
    · have : n - t = 0 := by omega
      rw [this]
      refine ⟨by simp only []; congr 1; omega, by simp, _, rfl, by simpa using hb⟩

theorem readn_bytes {d : Desc} {bs : List Nat} {n : Nat}
    (hb : bytesOf d = some bs) (hn : n ≤ bs.length) :
    (readn (some d) n).r = n ∧ (readn (some d) n).bytes = bs.take n ∧
    ∃ d1, (readn (some d) n).fd = some d1 ∧ bytesOf d1 = some (bs.drop n) := by
  have := readnLoop_bytes n d 0 [] bs hb (Nat.zero_le _) (by simpa using hn)
  simpa [readn] using this

/-! ## memcmp -/

theorem memcmp_eq_zero : ∀ (a b : List Nat) (k : Nat), a.length = k → b.length = k →
    (memcmp a b k = 0 ↔ a = b) := by
  intro a
  induction a with
  | nil =>
    intro b k ha hb
    simp only [List.length_nil] at ha
    subst ha
    have : b = [] := List.length_eq_zero.mp hb
    subst this
    simp [memcmp]
  | cons x xs ih =>
    intro b k ha hb
    cases b with
    | nil => simp only [List.length_nil] at hb; subst hb; simp at ha
    | cons y ys =>
      cases k with
      | zero => simp at ha
      | succ k =>
        simp only [List.length_cons, Nat.add_right_cancel_iff] at ha hb
        unfold memcmp
        split_ifs with h1 h2
        · simp; omega
        · simp; omega
        · rw [ih ys k ha hb]
          have : x = y := by omega
          simp [this]

theorem memcmp_swap : ∀ (a b : List Nat) (k : Nat), memcmp b a k = - memcmp a b k := by
  intro a
  induction a with
  | nil => intro b k; cases b <;> cases k <;> simp [memcmp]
  | cons x xs ih =>
    intro b k
    cases b with
    | nil => cases k <;> simp [memcmp]
    | cons y ys =>
      cases k with
      | zero => simp [memcmp]
      | succ k =>
        unfold memcmp
        split_ifs <;> first | omega | simp | exact ih ys k

theorem memcmp_trans : ∀ (a b c : List Nat) (k : Nat),
    a.length = k → b.length = k → c.length = k →
    memcmp a b k < 0 → memcmp b c k < 0 → memcmp a c k < 0 := by
  intro a
  induction a with
  | nil => intro b c k ha _ _ h1 _; simp [memcmp] at h1
  | cons x xs ih =>
    intro b c k ha hb hc h1 h2
    cases k with
    | zero => simp at ha
    | succ k =>
      cases b with
      | nil => simp at hb
      | cons y ys =>
        cases c with
        | nil => simp at hc
        | cons z zs =>
          simp only [List.length_cons, Nat.add_right_cancel_iff] at ha hb hc
          unfold memcmp at h1 h2 ⊢
          split_ifs at h1 h2 ⊢ <;> first | omega | exact ih ys zs k ha hb hc h1 h2

end Dups

namespace Dups

/-! ## The read loop of compareblock -/

/-- A member whose next window arrives in full. -/
theorem readWindows_running (size : Nat) : ∀ (l : List File) (st : St),
    (readWindows size l st).1.status = .running →
    st.status = .running ∧ (readWindows size l st).2 = l.map (readStep size) ∧
    (readWindows size l st).1.reads = st.reads ++ l ∧
    ∀ p ∈ l, ¬ (readn p.fd (window size)).r = -1 ∧
      ¬ (readn p.fd (window size)).r < (window size : Nat) := by
  intro l
  induction l with
  | nil => intro st h; simpa [readWindows] using h
  | cons p rest ih =>
    intro st h
    rw [readWindows_cons] at h ⊢
    by_cases h1 : (readn p.fd (window size)).r = -1
    · rw [if_pos h1] at h; simp at h
    · rw [if_neg h1] at h ⊢
      by_cases h2 : (readn p.fd (window size)).r < (window size : Nat)
      · rw [if_pos h2] at h; simp at h
      · rw [if_neg h2] at h ⊢
        obtain ⟨e1, e2, e3, e4⟩ := ih _ h
        refine ⟨e1, by simp [e2], by simp [e3], ?_⟩
        intro q hq
        rcases List.mem_cons.mp hq with hq | hq
        · subst hq; exact ⟨h1, h2⟩
        · exact e4 q hq

theorem readWindows_ok (size : Nat) : ∀ (l : List File) (st : St),
    st.status = .running →
    (∀ p ∈ l, ¬ (readn p.fd (window size)).r = -1 ∧
      ¬ (readn p.fd (window size)).r < (window size : Nat)) →
    (readWindows size l st).1.status = .running := by
  intro l
  induction l with
  | nil => intro st h _; simpa [readWindows] using h
  | cons p rest ih =>
    intro st h hp
    rw [readWindows_cons]
    have := hp p (List.mem_cons_self _ _)
    rw [if_neg this.1, if_neg this.2]
    exact ih _ h (fun q hq => hp q (List.mem_cons_of_mem _ hq))

/-- A failed or short read on some member ends the process in the read loop. -/
theorem readWindows_fatal (size : Nat) : ∀ (l : List File) (st : St),
    (∃ p ∈ l, (readn p.fd (window size)).r = -1 ∨
      (readn p.fd (window size)).r < (window size : Nat)) →
    ∃ e, (readWindows size l st).1.status = .fatal e ∧
      (e = .read ∨ ∃ q ∈ l, e = .unexpectedEof q.name) := by
  intro l
  induction l with
  | nil => intro st h; simp at h
  | cons p rest ih =>
    intro st h
    rw [readWindows_cons]
    split_ifs with h1 h2
    · exact ⟨.read, rfl, Or.inl rfl⟩
    · exact ⟨.unexpectedEof p.name, rfl, Or.inr ⟨p, List.mem_cons_self _ _, rfl⟩⟩
    · obtain ⟨q, hq, h3⟩ := h
      rcases List.mem_cons.mp hq with hq | hq
      · subst hq
        rcases h3 with h3 | h3
        · exact absurd h3 h1
        · exact absurd h3 h2
      · obtain ⟨e, e1, e2⟩ := ih { st with reads := st.reads ++ [p] } ⟨q, hq, h3⟩
        refine ⟨e, e1, ?_⟩
        rcases e2 with e2 | ⟨q1, hq1, e2⟩
        · exact Or.inl e2
        · exact Or.inr ⟨q1, List.mem_cons_of_mem _ hq1, e2⟩

theorem readWindows_reads (size : Nat) : ∀ (l : List File) (st : St),
    ∀ f ∈ (readWindows size l st).1.reads, f ∈ st.reads ∨ f ∈ l := by
  intro l
  induction l with
  | nil => intro st f hf; left; simpa [readWindows] using hf
  | cons p rest ih =>
    intro st f hf
    rw [readWindows_cons] at hf
    split_ifs at hf with h1 h2
    · simp only [List.mem_append, List.mem_singleton] at hf
      rcases hf with hf | hf
      · exact Or.inl hf
      · right; simp [hf]
    · simp only [List.mem_append, List.mem_singleton] at hf
      rcases hf with hf | hf
      · exact Or.inl hf
      · right; simp [hf]
    · rcases ih _ f hf with hf | hf
      · simp only [List.mem_append, List.mem_singleton] at hf
        rcases hf with hf | hf
        · exact Or.inl hf
        · right; simp [hf]
      · right; exact List.mem_cons_of_mem _ hf

theorem readStep_fields (size : Nat) (p : File) :
    (readStep size p).name = p.name ∧ (readStep size p).dev = p.dev ∧
    (readStep size p).ino = p.ino ∧ (readStep size p).bufsiz = window size ∧
    (readStep size p).win = (readn p.fd (window size)).bytes ∧
    (readStep size p).fd = (readn p.fd (window size)).fd :=
  ⟨rfl, rfl, rfl, rfl, rfl, rfl⟩

theorem SortedFiles_map_readStep (size : Nat) {l : List File} (h : SortedFiles l) :
    SortedFiles (l.map (readStep size)) := by
  unfold SortedFiles at *
  rw [List.pairwise_map]
  exact h.imp (fun hab => hab)

end Dups

namespace Dups

/-! ## The regrouping loop of compareblock -/

theorem pairwise_middle {α : Type} (R : α → α → Prop) (a b : List α) (x : α) :
    (a ++ x :: b).Pairwise R ↔
      a.Pairwise R ∧ b.Pairwise R ∧ (∀ y ∈ a, R y x) ∧ (∀ z ∈ b, R x z) ∧
        ∀ y ∈ a, ∀ z ∈ b, R y z := by
  rw [List.pairwise_append, List.pairwise_cons]
  constructor
  · rintro ⟨h1, ⟨h2, h3⟩, h4⟩
    exact ⟨h1, h3, fun y hy => h4 y hy x (List.mem_cons_self _ _), h2,
      fun y hy z hz => h4 y hy z (List.mem_cons_of_mem _ hz)⟩
  · rintro ⟨h1, h2, h3, h4, h5⟩
    refine ⟨h1, ⟨h4, h2⟩, ?_⟩
    intro y hy z hz
    rcases List.mem_cons.mp hz with hz | hz
    · subst hz; exact h3 y hy
    · exact h5 y hy z hz

theorem regroup_forall (P : Node → Prop) (size : Nat) :
    ∀ (l : List File) (t t1 : List Node), regroup size l t = .ok t1 →
    (∀ nd ∈ t, P nd) → (∀ p ∈ l, P ⟨size - p.bufsiz, [p], 1⟩) →
    (∀ p ∈ l, ∀ x x1, P x → filesetdatacmp ⟨size - p.bufsiz, [p], 1⟩ x = 0 →
      insert p x = .ok x1 → P x1) →
    ∀ nd ∈ t1, P nd := by
  intro l
  induction l with
  | nil =>
    intro t t1 h ht _ _
    simp only [regroup, Except.ok.injEq] at h
    subst h; exact ht
  | cons p q ih =>
    intro t t1 h ht hk hins
    unfold regroup at h
    cases hr : tsearchInsert filesetdatacmp ⟨size - p.bufsiz, [p], 1⟩ p t with
    | error e => simp [hr] at h
    | ok t2 =>
      simp only [hr] at h
      refine ih t2 t1 h ?_ (fun x hx => hk x (List.mem_cons_of_mem _ hx))
        (fun x hx => hins x (List.mem_cons_of_mem _ hx))
      exact tsearchInsert_forall P hr ht (hk p (List.mem_cons_self _ _))
        (fun x hx x1 h0 hi => hins p (List.mem_cons_self _ _) x x1 (ht x hx) h0 hi)

/-- The regrouping loop moves every member into exactly the nodes of the new
tree: nothing is lost and nothing comes from elsewhere. -/
theorem regroup_mem (size : Nat) :
    ∀ (l : List File) (t t1 : List Node), regroup size l t = .ok t1 →
    (∀ nd ∈ t1, ∀ f ∈ nd.head, f ∈ l ∨ ∃ nd0 ∈ t, f ∈ nd0.head) ∧
    (∀ f ∈ l, ∃ nd ∈ t1, f ∈ nd.head) ∧
    (∀ nd0 ∈ t, ∀ f ∈ nd0.head, ∃ nd ∈ t1, f ∈ nd.head) := by
  intro l
  induction l with
  | nil =>
    intro t t1 h
    simp only [regroup, Except.ok.injEq] at h
    subst h
    exact ⟨fun nd hnd f hf => Or.inr ⟨nd, hnd, hf⟩, by simp,
      fun nd0 hnd0 f hf => ⟨nd0, hnd0, hf⟩⟩
  | cons p q ih =>
    intro t t1 h
    unfold regroup at h
    cases hr : tsearchInsert filesetdatacmp ⟨size - p.bufsiz, [p], 1⟩ p t with
    | error e => simp [hr] at h
    | ok t2 =>
      simp only [hr] at h
      obtain ⟨h1, h2, h3⟩ := ih t2 t1 h
      obtain ⟨h4, ⟨nd2, hnd2, h5⟩, h6⟩ := tsearchInsert_mem rfl hr
      refine ⟨?_, ?_, ?_⟩
      · intro nd hnd f hf
        rcases h1 nd hnd f hf with h7 | ⟨nd0, hnd0, h7⟩
        · exact Or.inl (List.mem_cons_of_mem _ h7)
        · rcases h4 nd0 hnd0 f h7 with h8 | h8
          · left; rw [h8]; exact List.mem_cons_self _ _
          · exact Or.inr h8
      · intro f hf
        rcases List.mem_cons.mp hf with hf | hf
        · subst hf; exact h3 nd2 hnd2 f h5
        · exact h2 f hf
      · intro nd0 hnd0 f hf
        obtain ⟨nd1, hnd1, h7⟩ := h6 nd0 hnd0 f hf
        exact h3 nd1 hnd1 f h7

/-- With pairwise different identities the regrouping loop never meets
`errx(1, "same file")`. -/
theorem regroup_ok (size : Nat) :
    ∀ (l : List File) (t : List Node), l.Pairwise IdNe →
    (∀ nd ∈ t, ∀ f ∈ nd.head, ∀ p ∈ l, IdNe p f) →
    ∃ t1, regroup size l t = .ok t1 := by
  intro l
  induction l with
  | nil => intro t _ _; exact ⟨t, rfl⟩
  | cons p q ih =>
    intro t hl ht
    unfold regroup
    have hl1 := List.pairwise_cons.mp hl
    cases hr : tsearchInsert filesetdatacmp ⟨size - p.bufsiz, [p], 1⟩ p t with
    | error e =>
      exfalso
      obtain ⟨x, hx, _, h2⟩ := tsearchInsert_error _ _ _ _ _ hr
      obtain ⟨_, f, hf, hid⟩ := insertList_error _ _ _ (insert_error h2)
      exact ht x hx f hf p (List.mem_cons_self _ _) hid
    | ok t2 =>
      simp only []
      refine ih t2 hl1.2 ?_
      intro nd hnd f hf p1 hp1
      rcases (tsearchInsert_mem rfl hr).1 nd hnd f hf with h3 | ⟨nd0, hnd0, h3⟩
      · subst h3
        intro hid
        exact hl1.1 p1 hp1 ⟨hid.1.symm, hid.2.symm⟩
      · exact ht nd0 hnd0 f h3 p1 (List.mem_cons_of_mem _ hp1)

theorem filesetdatacmp_key (s n : Nat) (p : File) (x : Node) (hx : x.head ≠ []) :
    filesetdatacmp ⟨s, [p], n⟩ x = memcmp p.win x.win p.bufsiz := by
  unfold filesetdatacmp Node.win File.win
  cases hh : x.head with
  | nil => exact absurd hh hx
  | cons f rest => rfl

theorem Node.win_mem {nd : Node} (h : nd.head ≠ []) : ∃ f ∈ nd.head, nd.win = f.win := by
  unfold Node.win
  cases hh : nd.head with
  | nil => exact absurd hh h
  | cons f rest => exact ⟨f, List.mem_cons_self _ _, rfl⟩

theorem WinTree.len {k : Nat} {t : List Node} (h : WinTree k t) {nd : Node}
    (hnd : nd ∈ t) : nd.win.length = k := by
  obtain ⟨h1, h2⟩ := h.2 nd hnd
  obtain ⟨f, hf, e⟩ := Node.win_mem h1
  rw [e]; exact (h2 f hf).2.1

/-- One `tsearch` and `insert` keeps the window tree in order. -/
theorem WinTree_step {k s : Nat} {p : File} {t t1 : List Node} (ht : WinTree k t)
    (hb : p.bufsiz = k) (hl : p.win.length = k)
    (h : tsearchInsert filesetdatacmp ⟨s, [p], 1⟩ p t = .ok t1) : WinTree k t1 := by
  obtain ⟨a, b, e1, ha, h4⟩ := tsearchInsert_split _ _ _ _ _ h
  subst e1
  have hlen : ∀ nd ∈ a ++ b, nd.win.length = k := fun nd hnd => ht.len hnd
  obtain ⟨hpw, hn⟩ := ht
  have hcmp : ∀ x ∈ a ++ b, filesetdatacmp ⟨s, [p], 1⟩ x = memcmp p.win x.win k := by
    intro x hx
    rw [filesetdatacmp_key s 1 p x (hn x hx).1, hb]
  have ha1 : ∀ y ∈ a, memcmp y.win p.win k < 0 := by
    intro y hy
    have h1 := ha y hy
    rw [hcmp y (by simp [hy]), memcmp_swap y.win p.win k] at h1
    omega
  rcases h4 with ⟨x, x1, b1, e2, h5, h6, e3⟩ | ⟨h5, e3⟩
  · subst e2 e3
    obtain ⟨h7, _, _⟩ := insert_ok h6
    have hx := hn x (by simp)
    rw [hcmp x (by simp)] at h5
    have hpx : p.win = x.win := (memcmp_eq_zero _ _ k hl (hlen x (by simp))).mp h5
    have hmem : ∀ f ∈ x1.head, f.bufsiz = k ∧ f.win.length = k ∧ f.win = x.win := by
      intro f hf
      rcases (insertList_mem h7 f).mp hf with hf | hf
      · subst hf; exact ⟨hb, hl, hpx⟩
      · exact hx.2 f hf
    have hne : x1.head ≠ [] := by
      intro hnil
      have := insertList_length h7
      rw [hnil] at this
      simp at this
    have hwin : x1.win = x.win := by
      obtain ⟨f, hf, e⟩ := Node.win_mem hne
      rw [e]; exact (hmem f hf).2.2
    constructor
    · rw [pairwise_middle] at hpw ⊢
      obtain ⟨p1, p2, p3, p4, p5⟩ := hpw
      refine ⟨p1, p2, ?_, ?_, p5⟩
      · intro y hy; rw [hwin]; exact p3 y hy
      · intro z hz; rw [hwin]; exact p4 z hz
    · intro nd hnd
      simp only [List.mem_append, List.mem_cons] at hnd
      rcases hnd with hnd | hnd | hnd
      · exact hn nd (by simp [hnd])
      · subst hnd
        exact ⟨hne, fun f hf => by rw [hwin]; exact hmem f hf⟩
      · exact hn nd (by simp [hnd])
  · subst e3
    have hkw : Node.win ⟨s, [p], 1⟩ = p.win := rfl
    constructor
    · rw [pairwise_middle]
      rw [List.pairwise_append] at hpw
      obtain ⟨p1, p2, p3⟩ := hpw
      refine ⟨p1, p2, ?_, ?_, p3⟩
      · intro y hy; rw [hkw]; exact ha1 y hy
      · intro z hz
        rw [hkw]
        cases b with
        | nil => simp at hz
        | cons z0 b1 =>
          have hz0 := h5 z0 rfl
          rw [hcmp z0 (by simp)] at hz0
          rcases List.mem_cons.mp hz with hz | hz
          · subst hz; exact hz0
          · exact memcmp_trans _ _ _ k hl (hlen z0 (by simp))
              (hlen z (by simp [hz])) hz0 ((List.pairwise_cons.mp p2).1 z hz)
    · intro nd hnd
      simp only [List.mem_append, List.mem_cons] at hnd
      rcases hnd with hnd | hnd | hnd
      · exact hn nd (by simp [hnd])
      · subst hnd
        refine ⟨by simp, ?_⟩
        intro f hf
        simp only [List.mem_singleton] at hf
        subst hf
        exact ⟨hb, hl, rfl⟩
      · exact hn nd (by simp [hnd])

theorem regroup_WinTree (size k : Nat) :
    ∀ (l : List File) (t t1 : List Node), WinTree k t →
    (∀ p ∈ l, p.bufsiz = k ∧ p.win.length = k) →
    regroup size l t = .ok t1 → WinTree k t1 := by
  intro l
  induction l with
  | nil =>
    intro t t1 ht _ h
    simp only [regroup, Except.ok.injEq] at h
    subst h; exact ht
  | cons p q ih =>
    intro t t1 ht hl h
    unfold regroup at h
    cases hr : tsearchInsert filesetdatacmp ⟨size - p.bufsiz, [p], 1⟩ p t with
    | error e => simp [hr] at h
    | ok t2 =>
      simp only [hr] at h
      have hp := hl p (List.mem_cons_self _ _)
      exact ih t2 t1 (WinTree_step ht hp.1 hp.2 hr)
        (fun x hx => hl x (List.mem_cons_of_mem _ hx)) h

theorem memcmp_self : ∀ (a : List Nat) (k : Nat), memcmp a a k = 0 := by
  intro a
  induction a with
  | nil => intro k; cases k <;> simp [memcmp]
  | cons x xs ih =>
    intro k
    cases k with
    | zero => simp [memcmp]
    | succ k => unfold memcmp; simp [ih k]

/-- In the window tree two nodes holding the same window are the same node. -/
theorem WinTree.unique {k : Nat} {t : List Node} (h : WinTree k t) {a b : Node}
    (ha : a ∈ t) (hb : b ∈ t) (hw : a.win = b.win) : a = b := by
  by_contra hne
  have hsym : Symmetric (fun x y : Node => x.win ≠ y.win) := fun x y hxy => Ne.symm hxy
  have hp : t.Pairwise (fun x y : Node => x.win ≠ y.win) := by
    refine h.1.imp ?_
    intro x y hxy hxw
    rw [hxw, memcmp_self] at hxy
    omega
  exact hp.forall hsym ha hb hne hw

/-- The nodes of the new tree: every node holds members of the group, in
ascending (device, inode) order, counted by `n`, with the remaining size
`size - k`. -/
theorem regroup_nodes {size k : Nat} {l : List File} {t1 : List Node}
    (hl : ∀ p ∈ l, p.bufsiz = k) (h : regroup size l [] = .ok t1) :
    ∀ nd ∈ t1, SortedFiles nd.head ∧ nd.n = nd.head.length ∧ nd.size = size - k := by
  refine regroup_forall
    (fun nd => SortedFiles nd.head ∧ nd.n = nd.head.length ∧ nd.size = size - k)
    size l [] t1 h (by simp) ?_ ?_
  · intro p hp
    refine ⟨by simp [SortedFiles], rfl, ?_⟩
    simp only []
    rw [hl p hp]
  · intro p _ x x1 hx _ hi
    obtain ⟨h7, h8, h9⟩ := insert_ok hi
    exact ⟨insertList_sorted hx.1 h7, by rw [h9, insertList_length h7, hx.2.1],
      by rw [h8]; exact hx.2.2⟩

end Dups

namespace Dups

/-! ## compare -/

theorem openAll_cons_some {w : World} {p : File} {d : Desc} (hw : w p.name = some d)
    (rest : List File) :
    openAll w (p :: rest) =
      match openAll w rest with
      | some l => some (p.opened d :: l)
      | none => none := by
  cases rest with
  | nil => simp [openAll, hw, File.opened]
  | cons q rest1 => simp only [openAll, hw]; rfl

theorem openAll_cons_none {w : World} {p : File} (hw : w p.name = none) (q : File)
    (rest : List File) :
    openAll w (p :: q :: rest) =
      match openAll w rest with
      | some l => some (q :: l)
      | none => none := by
  simp only [openAll, hw]

theorem openAll_single_none {w : World} {p : File} (hw : w p.name = none) :
    openAll w [p] = none := by
  simp only [openAll, hw]

/-- The members `compare` leaves in the list are members it was given, in the
same order, each either opened or untouched. -/
theorem openAll_sub (w : World) : ∀ (n : Nat) (l l1 : List File), l.length ≤ n →
    openAll w l = some l1 →
    (l1.map File.key).Sublist (l.map File.key) ∧
    ∀ f ∈ l1, f ∈ l ∨ ∃ p ∈ l, ∃ d, w p.name = some d ∧ f = p.opened d := by
  intro n
  induction n with
  | zero =>
    intro l l1 hl h
    have : l = [] := List.length_eq_zero.mp (Nat.le_zero.mp hl)
    subst this
    simp only [openAll, Option.some.injEq] at h
    subst h
    simp
  | succ n ih =>
    intro l l1 hl h
    cases l with
    | nil =>
      simp only [openAll, Option.some.injEq] at h
      subst h
      simp
    | cons p rest =>
      cases hw : w p.name with
      | some d =>
        rw [openAll_cons_some hw] at h
        cases hr : openAll w rest with
        | none => simp [hr] at h
        | some l2 =>
          simp only [hr, Option.some.injEq] at h
          subst h
          obtain ⟨h1, h2⟩ := ih rest l2 (by simpa using hl) hr
          constructor
          · simp only [List.map_cons]
            exact h1.cons₂ _
          · intro f hf
            rcases List.mem_cons.mp hf with hf | hf
            · right; exact ⟨p, List.mem_cons_self _ _, d, hw, hf⟩
            · rcases h2 f hf with h3 | ⟨q, hq, d1, h3, h4⟩
              · left; exact List.mem_cons_of_mem _ h3
              · right; exact ⟨q, List.mem_cons_of_mem _ hq, d1, h3, h4⟩
      | none =>
        cases rest with
        | nil => rw [openAll_single_none hw] at h; simp at h
        | cons q rest1 =>
          rw [openAll_cons_none hw] at h
          cases hr : openAll w rest1 with
          | none => simp [hr] at h
          | some l2 =>
            simp only [hr, Option.some.injEq] at h
            subst h
            obtain ⟨h1, h2⟩ := ih rest1 l2 (by simp at hl; omega) hr
            constructor
            · simp only [List.map_cons]
              exact (h1.cons₂ _).cons _
            · intro f hf
              rcases List.mem_cons.mp hf with hf | hf
              · left; rw [hf]; simp
              · rcases h2 f hf with h3 | ⟨q1, hq, d1, h3, h4⟩
                · left; simp [h3]
                · right
                  exact ⟨q1, by simp [hq], d1, h3, h4⟩

theorem SortedFiles_key (l : List File) :
    SortedFiles l ↔
      (l.map File.key).Pairwise
        (fun a b => a.2.1 < b.2.1 ∨ (a.2.1 = b.2.1 ∧ a.2.2 < b.2.2)) := by
  unfold SortedFiles
  rw [List.pairwise_map]
  rfl

theorem openAll_sorted {w : World} {l l1 : List File} (hs : SortedFiles l)
    (h : openAll w l = some l1) : SortedFiles l1 := by
  rw [SortedFiles_key] at hs ⊢
  exact hs.sublist (openAll_sub w l.length l l1 (le_refl _) h).1

/-- When every member opens, `compare` hands the whole list on, every member
with its descriptor and an allocated buffer. -/
theorem openAll_all (w : World) : ∀ (l : List File),
    (∀ p ∈ l, ∃ d, w p.name = some d) →
    ∃ l1, openAll w l = some l1 ∧ l1.length = l.length ∧
      l1.map File.key = l.map File.key ∧
      ∀ f ∈ l1, ∃ d, w f.name = some d ∧ f.fd = some d := by
  intro l
  induction l with
  | nil => intro _; exact ⟨[], rfl, rfl, rfl, by simp⟩
  | cons p rest ih =>
    intro h
    obtain ⟨d, hd⟩ := h p (List.mem_cons_self _ _)
    obtain ⟨l1, h1, h2, h3, h4⟩ := ih (fun q hq => h q (List.mem_cons_of_mem _ hq))
    refine ⟨p.opened d :: l1, ?_, by simp [h2], ?_, ?_⟩
    · rw [openAll_cons_some hd, h1]
    · simp only [List.map_cons, h3]
      rfl
    · intro f hf
      rcases List.mem_cons.mp hf with hf | hf
      · subst hf; exact ⟨d, hd, rfl⟩
      · exact h4 f hf

end Dups

namespace Dups

/-! ## Member order and identities of the emitted sets -/

theorem sorted_compareblock (fuel : Nat) (set : Node) (st : St)
    (hp : SortedFiles set.head) (hi : ∀ s ∈ st.sets, SortedFiles s) :
    ∀ s ∈ (compareblock fuel set st).sets, SortedFiles s := by
  refine compareblock_inv (fun nd => SortedFiles nd.head)
    (fun st => ∀ s ∈ st.sets, SortedFiles s) ?_ ?_ ?_ ?_ ?_ fuel set st hp hi
  · intro set st hp _ hi s hs
    rw [emit_sets] at hs
    rcases List.mem_append.mp hs with hs | hs
    · exact hi s hs
    · simp only [List.mem_singleton] at hs
      subst hs; exact hp
  · intro st s hi; exact hi
  · intro p st hi
    simpa using hi
  · intro set st _ _ hi
    rw [(readWindows_fields set.size set.head st).1]; exact hi
  · intro set st newroot _ _ hrun hg nd hnd
    obtain ⟨_, e2, _, _⟩ := readWindows_running _ _ _ hrun
    rw [e2] at hg
    refine (regroup_nodes (k := window set.size) ?_ hg nd hnd).1
    intro p hp
    obtain ⟨q, _, rfl⟩ := List.mem_map.mp hp
    rfl

theorem sorted_action (w : World) (set : Node) (st : St)
    (hp : SortedFiles set.head) (hi : ∀ s ∈ st.sets, SortedFiles s) :
    ∀ s ∈ (action w set st).sets, SortedFiles s := by
  unfold action
  split_ifs
  · unfold compare
    cases ho : openAll w set.head with
    | none => exact hi
    | some l => exact sorted_compareblock _ _ _ (openAll_sorted hp ho) hi
  · simpa using hi

theorem sorted_main (w : World) (args : List Arg) :
    ∀ s ∈ (main w args).sets, SortedFiles s := by
  unfold main
  split_ifs
  · simp [St.init]
  · cases hs : scanArgs args [] with
    | error e => simp [St.init]
    | ok root =>
      have hr := (scanArgs_root hs).1
      exact twalk_inv (fun nd => SortedFiles nd.head)
        (fun nd st hp hi => sorted_action w nd st hp hi) root
        (fun nd hnd => (hr.2 nd hnd).1) _ (by simp [St.init])

theorem SortedFiles.sublist_of_subset {l1 l : List File} (h1 : SortedFiles l1)
    (h : SortedFiles l) (hsub : ∀ f ∈ l1, f ∈ l) : l1.Sublist l := by
  haveI : IsAntisymm File DevInoLt :=
    ⟨fun a b hab hba => absurd ⟨rfl, rfl⟩ (hab.trans hba).ne_id⟩
  have hnd : l1.Nodup := by
    refine List.Pairwise.imp ?_ h1
    intro a b hab he
    subst he
    exact hab.ne_id ⟨rfl, rfl⟩
  exact List.sublist_of_subperm_of_sorted (List.subperm_of_subset hnd hsub) h1 h

/-- C8: within every emitted set the paths are printed in strictly ascending
(device, inode) order of their files, device compared first and inode second;
`insert` keeps a member list strictly ascending under `filedevinocmp`, its
result being the old list plus the new record; and the regrouping loop of
`compareblock` hands every sub-group its members in that same order (each
sub-group is a sublist of the group it was split from). -/
theorem member_order (w : World) (args : List Arg) (file : File) (v v1 : Node)
    (size : Nat) (l : List File) (newroot : List Node)
    (hs : v.head.Pairwise (fun a b => filedevinocmp a b < 0))
    (hi : insert file v = .ok v1)
    (hl : l.Pairwise (fun a b => filedevinocmp a b < 0))
    (hg : regroup size l [] = .ok newroot) :
    (∀ s ∈ (main w args).sets,
      s.Pairwise (fun a b => a.dev < b.dev ∨ (a.dev = b.dev ∧ a.ino < b.ino))) ∧
    (v1.head.Pairwise (fun a b => filedevinocmp a b < 0) ∧
      v1.head.Perm (file :: v.head) ∧ v1.n = v.n + 1) ∧
    (∀ nd ∈ newroot,
      nd.head.Pairwise (fun a b => filedevinocmp a b < 0) ∧ nd.head.Sublist l) := by
  have hcmp : ∀ (x : List File),
      x.Pairwise (fun a b => filedevinocmp a b < 0) ↔ SortedFiles x := by
    intro x
    unfold SortedFiles
    constructor
    · exact List.Pairwise.imp (fun {a b} h => (filedevinocmp_neg a b).mp h)
    · exact List.Pairwise.imp (fun {a b} h => (filedevinocmp_neg a b).mpr h)
  refine ⟨fun s hs1 => sorted_main w args s hs1, ?_, ?_⟩
  · obtain ⟨h7, _, h9⟩ := insert_ok hi
    exact ⟨(hcmp _).mpr (insertList_sorted ((hcmp _).mp hs) h7), insertList_perm h7, h9⟩
  · intro nd hnd
    have hsn : SortedFiles nd.head := by
      refine regroup_forall (fun nd => SortedFiles nd.head) size l [] newroot hg
        (by simp) (fun p _ => by simp [SortedFiles]) ?_ nd hnd
      intro p _ x x1 hx _ hins
      exact insertList_sorted hx (insert_ok hins).1
    refine ⟨(hcmp _).mpr hsn, hsn.sublist_of_subset ((hcmp _).mp hl) ?_⟩
    intro f hf
    rcases (regroup_mem size l [] newroot hg).1 nd hnd f hf with h1 | ⟨nd0, hnd0, _⟩
    · exact h1
    · simp at hnd0

/-- C8, at a sample input: `r/b` joins the class of `r/a` and `r/c`, and a
group of three read windows is split. -/
theorem member_order_witness :
    (Node.mk 3 [fileOf ⟨"r/a", 1, 10, 3⟩, fileOf ⟨"r/c", 1, 12, 3⟩] 2).head.Pairwise
      (fun a b => filedevinocmp a b < 0) ∧
    insert (fileOf ⟨"r/b", 1, 11, 3⟩)
        (Node.mk 3 [fileOf ⟨"r/a", 1, 10, 3⟩, fileOf ⟨"r/c", 1, 12, 3⟩] 2) =
      .ok (Node.mk 3
        [fileOf ⟨"r/a", 1, 10, 3⟩, fileOf ⟨"r/b", 1, 11, 3⟩, fileOf ⟨"r/c", 1, 12, 3⟩] 3) ∧
    [File.mk "r/a" (some []) 1 10 (some [1, 2, 3]) 3,
     File.mk "r/b" (some []) 1 11 (some [1, 2, 3]) 3,
     File.mk "r/c" (some []) 1 12 (some [1, 2, 4]) 3].Pairwise
      (fun a b => filedevinocmp a b < 0) ∧
    regroup 3
        [File.mk "r/a" (some []) 1 10 (some [1, 2, 3]) 3,
         File.mk "r/b" (some []) 1 11 (some [1, 2, 3]) 3,
         File.mk "r/c" (some []) 1 12 (some [1, 2, 4]) 3] [] =
      .ok [Node.mk 0 [File.mk "r/a" (some []) 1 10 (some [1, 2, 3]) 3,
                      File.mk "r/b" (some []) 1 11 (some [1, 2, 3]) 3] 2,
           Node.mk 0 [File.mk "r/c" (some []) 1 12 (some [1, 2, 4]) 3] 1] ∧
    (∀ s ∈ (main exWorld exArgs).sets,
      s.Pairwise (fun a b => a.dev < b.dev ∨ (a.dev = b.dev ∧ a.ino < b.ino))) :=
  ⟨by decide, rfl, by decide, rfl,
   (member_order exWorld exArgs (fileOf ⟨"r/b", 1, 11, 3⟩)
      (Node.mk 3 [fileOf ⟨"r/a", 1, 10, 3⟩, fileOf ⟨"r/c", 1, 12, 3⟩] 2)
      (Node.mk 3
        [fileOf ⟨"r/a", 1, 10, 3⟩, fileOf ⟨"r/b", 1, 11, 3⟩, fileOf ⟨"r/c", 1, 12, 3⟩] 3)
      3
      [File.mk "r/a" (some []) 1 10 (some [1, 2, 3]) 3,
       File.mk "r/b" (some []) 1 11 (some [1, 2, 3]) 3,
       File.mk "r/c" (some []) 1 12 (some [1, 2, 4]) 3]
      [Node.mk 0 [File.mk "r/a" (some []) 1 10 (some [1, 2, 3]) 3,
                  File.mk "r/b" (some []) 1 11 (some [1, 2, 3]) 3] 2,
       Node.mk 0 [File.mk "r/c" (some []) 1 12 (some [1, 2, 4]) 3] 1]
      (by decide) rfl (by decide) rfl).1⟩

/-- C5: while `scan` builds the size classes, a regular file whose (device,
inode) equals that of a file already in the class of its size makes `insert`
end the run (`errx(1, "same file")`); a scan that ends this way prints
nothing and exits with status 1; the size tree `scan` builds always has the
shape this relies on; and no run ever emits a set in which two members share
(device, inode). -/
theorem identity_safety (w : World) (args : List Arg) (root : List Node)
    (path : String) (dev ino size : Nat) (hr : RootInv root)
    (hdup : ∃ nd ∈ root, nd.size = size ∧ ∃ p ∈ nd.head, p.dev = dev ∧ p.ino = ino) :
    classify path dev ino size root = .error .sameFile ∧
    (∀ e, scanArgs args [] = .error e →
      (main w args).status = .fatal e ∧ (main w args).stdout = "" ∧
      (main w args).sets = []) ∧
    (∀ root1, scanArgs args [] = .ok root1 → RootInv root1) ∧
    (∀ s ∈ (main w args).sets,
      s.Pairwise (fun a b => ¬ (a.dev = b.dev ∧ a.ino = b.ino))) := by
  refine ⟨classify_same path dev ino size root hr hdup, ?_, ?_, ?_⟩
  · intro e he
    have hne : args.isEmpty = false := by
      cases args with
      | nil => simp [scanArgs] at he
      | cons a as => rfl
    unfold main
    simp [hne, he, St.init]
  · intro root1 h1
    exact (scanArgs_root h1).1
  · intro s hs
    exact (sorted_main w args s hs).imp (fun hab => hab.ne_id)

/-- C5, at a sample input: a second record of identity (1, 10) of three bytes
meets the class holding `r/a`, and a run that finds that file under two
arguments ends with status 1 and prints nothing. -/
theorem identity_safety_witness :
    RootInv [Node.mk 3 [fileOf ⟨"r/a", 1, 10, 3⟩] 1] ∧
    (∃ nd ∈ [Node.mk 3 [fileOf ⟨"r/a", 1, 10, 3⟩] 1],
      nd.size = 3 ∧ ∃ p ∈ nd.head, p.dev = 1 ∧ p.ino = 10) ∧
    classify "q/a" 1 10 3 [Node.mk 3 [fileOf ⟨"r/a", 1, 10, 3⟩] 1] = .error .sameFile ∧
    scanArgs dupArgs [] = .error .sameFile ∧
    (main exWorld dupArgs).status = .fatal .sameFile ∧
    (main exWorld dupArgs).stdout = "" :=
  ⟨by unfold RootInv SortedFiles DevInoLt; decide, by decide,
   (identity_safety exWorld dupArgs [Node.mk 3 [fileOf ⟨"r/a", 1, 10, 3⟩] 1] "q/a" 1 10 3
      (by unfold RootInv SortedFiles DevInoLt; decide) (by decide)).1,
   rfl,
   ((identity_safety exWorld dupArgs [Node.mk 3 [fileOf ⟨"r/a", 1, 10, 3⟩] 1] "q/a" 1 10 3
      (by unfold RootInv SortedFiles DevInoLt; decide) (by decide)).2.1 .sameFile rfl).1,
   ((identity_safety exWorld dupArgs [Node.mk 3 [fileOf ⟨"r/a", 1, 10, 3⟩] 1] "q/a" 1 10 3
      (by unfold RootInv SortedFiles DevInoLt; decide) (by decide)).2.1 .sameFile rfl).2.1⟩

/-! ## A failed open in compare -/

/-- C3, evaluated: of two empty files of which the first cannot be opened,
the second is printed as a set of its own. -/
theorem singleton_set_emitted :
    regsArgs zeroArgs2 = [⟨"r/a", 1, 1, 0⟩, ⟨"r/b", 1, 2, 0⟩] ∧
    noA0 "r/a" = none ∧
    (main noA0 zeroArgs2).sets.map names = [["r/b"]] ∧
    (main noA0 zeroArgs2).stdout = "r/b\n" ∧
    (main noA0 zeroArgs2).status = .running := by
  decide

/-- C4, evaluated: of three files of one byte of which the first cannot be
opened, the second is left in the list without descriptor and buffer, and the
first read on it ends the run; when it is the last that cannot be opened the
loop of `compare` runs through a null pointer. -/
theorem open_failure_not_recovered :
    openAll noA1 [fileOf ⟨"r/a", 1, 1, 1⟩, fileOf ⟨"r/b", 1, 2, 1⟩, fileOf ⟨"r/c", 1, 3, 1⟩] =
      some [fileOf ⟨"r/b", 1, 2, 1⟩, (fileOf ⟨"r/c", 1, 3, 1⟩).opened [.data [7]]] ∧
    (main noA1 oneArgs3).status = .fatal .read ∧
    (main noA1 oneArgs3).sets = [] ∧
    (main noC1 oneArgs3).status = .crash ∧
    (main noC1 oneArgs3).sets = [] := by
  decide

end Dups

namespace Dups

/-! ## Short reads -/

theorem window_eq_min (size : Nat) : window size = min 8192 size := by
  unfold window blksize
  split_ifs <;> omega

theorem window_pos {size : Nat} (h : 0 < size) : 0 < window size := by
  rw [window_eq_min]; omega

theorem window_le (size : Nat) : window size ≤ size := by
  rw [window_eq_min]; omega

theorem compareblock_succ (fuel : Nat) (set : Node) (st : St) (hs : set.size ≠ 0) :
    compareblock (fuel + 1) set st =
      if (readWindows set.size set.head st).1.status = .running then
        match regroup set.size (readWindows set.size set.head st).2 [] with
        | .ok newroot =>
          twalk (newaction (compareblock fuel)) newroot (readWindows set.size set.head st).1
        | .error e => { (readWindows set.size set.head st).1 with status := .fatal e }
      else (readWindows set.size set.head st).1 := by
  rw [compareblock]
  simp only [hs, if_false]

theorem compareblock_zero_size (fuel : Nat) (set : Node) (st : St) (hs : set.size = 0) :
    compareblock fuel set st = emit set st := by
  unfold compareblock
  simp only [hs, if_true]

/-- C10: in `compareblock`, for a group with remaining > 0, if some member's
`readn` yields fewer bytes than the window length min(8192, remaining), the
run ends fatally (with "unexpected end of file" on a member of the group, or
with "read" when a read failed) and nothing is written at that level; if every
member yields the full window, the read loop ends without abort: every member
holds its window and the level goes on to regroup them. -/
theorem truncation_fatal (fuel : Nat) (set : Node) (st : St) (hs : 0 < set.size) :
    ((∃ p ∈ set.head,
        (readn p.fd (min 8192 set.size)).r < ((min 8192 set.size : Nat) : Int)) →
      (∃ e, (compareblock (fuel + 1) set st).status = .fatal e ∧
        (e = .read ∨ ∃ q ∈ set.head, e = .unexpectedEof q.name)) ∧
      (compareblock (fuel + 1) set st).sets = st.sets ∧
      (compareblock (fuel + 1) set st).stdout = st.stdout) ∧
    ((∀ p ∈ set.head,
        (readn p.fd (min 8192 set.size)).r = ((min 8192 set.size : Nat) : Int)) →
      st.status = .running →
      (readWindows set.size set.head st).1.status = .running ∧
      (readWindows set.size set.head st).2 = set.head.map (readStep set.size) ∧
      compareblock (fuel + 1) set st =
        match regroup set.size (set.head.map (readStep set.size)) [] with
        | .ok newroot =>
          twalk (newaction (compareblock fuel)) newroot (readWindows set.size set.head st).1
        | .error e => { (readWindows set.size set.head st).1 with status := .fatal e }) := by
  have hne : set.size ≠ 0 := by omega
  rw [← window_eq_min]
  constructor
  · rintro ⟨p, hp, hshort⟩
    obtain ⟨e, he, hwho⟩ :=
      readWindows_fatal set.size set.head st ⟨p, hp, Or.inr hshort⟩
    have hnr : ¬ (readWindows set.size set.head st).1.status = .running := by
      rw [he]; simp
    rw [compareblock_succ fuel set st hne, if_neg hnr]
    obtain ⟨h1, _, h3, _⟩ := readWindows_fields set.size set.head st
    exact ⟨⟨e, he, hwho⟩, h1, h3⟩
  · intro hfull hrun
    have hw := window_pos hs
    have hok : (readWindows set.size set.head st).1.status = .running := by
      refine readWindows_ok set.size set.head st hrun ?_
      intro p hp
      rw [hfull p hp]
      constructor
      · omega
      · omega
    obtain ⟨_, e2, _, _⟩ := readWindows_running _ _ _ hok
    refine ⟨hok, e2, ?_⟩
    rw [compareblock_succ fuel set st hne, if_pos hok, e2]

/-- C10, at a sample input: of two members of a group of three remaining
bytes the second delivers one byte only; with three bytes from both the read
loop completes. -/
theorem truncation_fatal_witness :
    0 < (Node.mk 3 [File.mk "r/a" (some [.data [1, 2, 3]]) 1 10 (some []) 0,
                    File.mk "r/b" (some [.data [1]]) 1 11 (some []) 0] 2).size ∧
    (compareblock 1
      (Node.mk 3 [File.mk "r/a" (some [.data [1, 2, 3]]) 1 10 (some []) 0,
                  File.mk "r/b" (some [.data [1]]) 1 11 (some []) 0] 2) St.init).sets = [] ∧
    (readWindows 3 [File.mk "r/a" (some [.data [1, 2, 3]]) 1 10 (some []) 0,
                    File.mk "r/b" (some [.data [1, 2], .data [3]]) 1 11 (some []) 0]
      St.init).1.status = .running :=
  ⟨by decide,
   ((truncation_fatal 0
      (Node.mk 3 [File.mk "r/a" (some [.data [1, 2, 3]]) 1 10 (some []) 0,
                  File.mk "r/b" (some [.data [1]]) 1 11 (some []) 0] 2) St.init
      (by decide)).1
      ⟨File.mk "r/b" (some [.data [1]]) 1 11 (some []) 0, by decide, by decide⟩).2.1,
   ((truncation_fatal 0
      (Node.mk 3 [File.mk "r/a" (some [.data [1, 2, 3]]) 1 10 (some []) 0,
                  File.mk "r/b" (some [.data [1, 2], .data [3]]) 1 11 (some []) 0] 2) St.init
      (by decide)).2 (by decide) rfl).1⟩

end Dups

namespace Dups

/-! ## Where the emitted members come from -/

theorem readStep_key (size : Nat) (p : File) : (readStep size p).key = p.key := rfl

theorem opened_key (d : Desc) (p : File) : (p.opened d).key = p.key := rfl

theorem prov_compareblock (A : File → Prop) (hA : ∀ f g : File, f.key = g.key → A f → A g)
    (base : List (List File)) (fuel : Nat) (set : Node) (st : St)
    (hp : ∀ f ∈ set.head, A f) (hi : ProvInv A base st) :
    ProvInv A base (compareblock fuel set st) := by
  refine compareblock_inv (fun nd => ∀ f ∈ nd.head, A f) (ProvInv A base)
    ?_ ?_ ?_ ?_ ?_ fuel set st hp hi
  · intro set st hp _ hi
    obtain ⟨⟨rest, h1, h2⟩, h3⟩ := hi
    refine ⟨⟨rest ++ [set.head], by rw [emit_sets, h1, List.append_assoc], ?_⟩, ?_⟩
    · intro s hs
      rcases List.mem_append.mp hs with hs | hs
      · exact h2 s hs
      · simp only [List.mem_singleton] at hs
        subst hs; exact hp
    · rw [emit_reads]; exact h3
  · intro st s hi; exact hi
  · intro p st hi
    unfold ProvInv at *
    simpa using hi
  · intro set st hp _ hi
    obtain ⟨⟨rest, h1, h2⟩, h3⟩ := hi
    refine ⟨⟨rest, by rw [(readWindows_fields set.size set.head st).1, h1], h2⟩, ?_⟩
    intro f hf
    rcases readWindows_reads set.size set.head st f hf with h4 | h4
    · exact h3 f h4
    · exact hp f h4
  · intro set st newroot hp _ hrun hg nd hnd f hf
    obtain ⟨_, e2, _, _⟩ := readWindows_running _ _ _ hrun
    rw [e2] at hg
    rcases (regroup_mem _ _ _ _ hg).1 nd hnd f hf with h1 | ⟨nd0, hnd0, _⟩
    · obtain ⟨q, hq, rfl⟩ := List.mem_map.mp h1
      exact hA q _ (readStep_key _ q).symm (hp q hq)
    · simp at hnd0

theorem prov_action (A : File → Prop) (hA : ∀ f g : File, f.key = g.key → A f → A g)
    (base : List (List File)) (w : World) (set : Node) (st : St)
    (hp : 1 < set.n → ∀ f ∈ set.head, A f) (hi : ProvInv A base st) :
    ProvInv A base (action w set st) := by
  unfold action
  split_ifs with hn
  · unfold compare
    cases ho : openAll w set.head with
    | none => exact hi
    | some l =>
      refine prov_compareblock A hA base _ _ _ ?_ hi
      intro f hf
      rcases (openAll_sub w _ _ _ (le_refl _) ho).2 f hf with h1 | ⟨p, hp1, d, _, h1⟩
      · exact hp hn f h1
      · rw [h1]
        exact hA p _ (opened_key d p).symm (hp hn p hp1)
  · unfold ProvInv at *
    simpa using hi

/-- Every member of an emitted set and every record read belongs to a size
class of at least two members of the scanned tree. -/
theorem prov_main (w : World) (args : List Arg) (root : List Node)
    (hs : scanArgs args [] = .ok root) :
    ProvInv (fun f => ∃ nd ∈ root, 1 < nd.n ∧ ∃ f0 ∈ nd.head, f0.key = f.key) []
      (main w args) := by
  have h0 : ProvInv (fun f => ∃ nd ∈ root, 1 < nd.n ∧ ∃ f0 ∈ nd.head, f0.key = f.key) []
      St.init := ⟨⟨[], rfl, by simp⟩, by simp [St.init]⟩
  unfold main
  split_ifs
  · exact h0
  · rw [hs]
    simp only []
    refine twalk_inv (fun nd => nd ∈ root) ?_ root (fun nd hnd => hnd) _ h0
    intro nd st hnd hi
    refine prov_action _ ?_ [] w nd st ?_ hi
    · rintro f g hfg ⟨nd1, hnd1, hn1, f0, hf0, hk⟩
      exact ⟨nd1, hnd1, hn1, f0, hf0, hk.trans hfg⟩
    · intro hn f hf
      exact ⟨nd, hnd, hn, f, hf, rfl⟩

theorem main_sets_of_not_ok (w : World) (args : List Arg)
    (h : ∀ root, scanArgs args [] ≠ .ok root) :
    (main w args).sets = [] ∧ (main w args).reads = [] := by
  unfold main
  split_ifs
  · exact ⟨rfl, rfl⟩
  · cases hs : scanArgs args [] with
    | error e => exact ⟨rfl, rfl⟩
    | ok root => exact absurd hs (h root)

/-! ## Files of unique size -/

theorem length_le_one_of_sorted_const {l : List File} (hs : SortedFiles l) (x : File)
    (h : ∀ f ∈ l, f = x) : l.length ≤ 1 := by
  cases l with
  | nil => simp
  | cons a t =>
    cases t with
    | nil => simp
    | cons b t1 =>
      exfalso
      have ha := h a (by simp)
      have hb := h b (by simp)
      have hab : DevInoLt a b := (List.pairwise_cons.mp hs).1 b (by simp)
      rw [ha, hb] at hab
      exact hab.ne_id ⟨rfl, rfl⟩

theorem RootInv.size_unique {root : List Node} (hr : RootInv root) {a b : Node}
    (ha : a ∈ root) (hb : b ∈ root) (h : a.size = b.size) : a = b := by
  by_contra hne
  have hsym : Symmetric (fun x y : Node => x.size ≠ y.size) := fun x y hxy => Ne.symm hxy
  have hp : root.Pairwise (fun x y : Node => x.size ≠ y.size) :=
    hr.1.imp (fun hxy => Nat.ne_of_lt hxy)
  exact hp.forall hsym ha hb hne h

/-- The class of a file whose size no other scanned file has. -/
theorem unique_size_class {args : List Arg} {root : List Node}
    (hs : scanArgs args [] = .ok root) {r : Reg} (hr : r ∈ regsArgs args)
    (hu : ∀ r1 ∈ regsArgs args, r1 ≠ r → r1.size ≠ r.size) :
    (⟨r.size, [fileOf r], 1⟩ : Node) ∈ root := by
  obtain ⟨hinv, hsound, hcompl⟩ := scanArgs_root hs
  obtain ⟨nd, hnd, hsz, hmem⟩ := hcompl r hr
  have hall : ∀ f ∈ nd.head, f = fileOf r := by
    intro f hf
    obtain ⟨r1, hr1, h1, h2⟩ := hsound nd hnd f hf
    have : r1 = r := by
      by_contra hne
      exact hu r1 hr1 hne (by rw [h1, hsz])
    rw [h2, this]
  obtain ⟨h1, h2, h3, _⟩ := hinv.2 nd hnd
  have hlen := length_le_one_of_sorted_const h1 _ hall
  have hhead : nd.head = [fileOf r] := by
    cases hh : nd.head with
    | nil => exact absurd hh h3
    | cons a t =>
      rw [hh] at hlen hall
      cases t with
      | nil => rw [hall a (by simp)]
      | cons b t1 => simp at hlen
  have : nd = ⟨r.size, [fileOf r], 1⟩ := by
    cases nd with
    | mk size head n =>
      simp only at hsz hhead h2
      subst hsz hhead
      simp [h2]
  rw [← this]; exact hnd

/-- C7: a regular file whose declared size differs from the size of every
other scanned regular file is never printed in any emitted set: every record
printed is that of a scanned file of another size, so that its path is not
printed as long as no other scanned file goes by the same path; its size class
has that single member and `action` releases it without comparing. -/
theorem minimality (w : World) (args : List Arg) (r : Reg) (hr : r ∈ regsArgs args)
    (hu : ∀ r1 ∈ regsArgs args, r1 ≠ r → r1.size ≠ r.size) :
    (∀ s ∈ (main w args).sets, ∀ f ∈ s,
      ∃ r1 ∈ regsArgs args, r1.size ≠ r.size ∧ f.key = (fileOf r1).key) ∧
    ((∀ r1 ∈ regsArgs args, r1 ≠ r → r1.path ≠ r.path) →
      ∀ s ∈ (main w args).sets, r.path ∉ names s) ∧
    (∀ root, scanArgs args [] = .ok root →
      (⟨r.size, [fileOf r], 1⟩ : Node) ∈ root ∧
      ∀ st, action w ⟨r.size, [fileOf r], 1⟩ st = filefree (some (fileOf r)) st) := by
  have hfirst : ∀ s ∈ (main w args).sets, ∀ f ∈ s,
      ∃ r1 ∈ regsArgs args, r1.size ≠ r.size ∧ f.key = (fileOf r1).key := by
    intro s hs f hf
    by_cases hok : ∃ root, scanArgs args [] = .ok root
    · obtain ⟨root, hroot⟩ := hok
      obtain ⟨hinv, hsound, _⟩ := scanArgs_root hroot
      obtain ⟨⟨rest, h1, h2⟩, _⟩ := prov_main w args root hroot
      simp only [List.nil_append] at h1
      rw [h1] at hs
      obtain ⟨nd, hnd, hn, f0, hf0, hk⟩ := h2 s hs f hf
      obtain ⟨r1, hr1, hsz1, hf1⟩ := hsound nd hnd f0 hf0
      refine ⟨r1, hr1, ?_, by rw [← hk, hf1]⟩
      intro hsz
      have hcls := unique_size_class hroot hr hu
      have : nd = ⟨r.size, [fileOf r], 1⟩ :=
        hinv.size_unique hnd hcls (by rw [← hsz1, hsz])
      rw [this] at hn
      simp at hn
    · have := (main_sets_of_not_ok w args (fun root h => hok ⟨root, h⟩)).1
      rw [this] at hs
      simp at hs
  refine ⟨hfirst, ?_, ?_⟩
  · intro hpath s hs hmem
    obtain ⟨f, hf, hname⟩ := List.mem_map.mp hmem
    obtain ⟨r1, hr1, hsz, hk⟩ := hfirst s hs f hf
    have hne : r1 ≠ r := fun h => hsz (by rw [h])
    have h3 : f.name = r1.path := congrArg Prod.fst hk
    exact hpath r1 hr1 hne (by rw [← h3, hname])
  · intro root hroot
    refine ⟨unique_size_class hroot hr hu, ?_⟩
    intro st
    unfold action
    simp

/-- C7, at a sample input: `r/u` is the only file of seven bytes. -/
theorem minimality_witness :
    (⟨"r/u", 1, 99, 7⟩ : Reg) ∈ regsArgs exArgs ∧
    (∀ r1 ∈ regsArgs exArgs, r1 ≠ ⟨"r/u", 1, 99, 7⟩ →
      r1.size ≠ (⟨"r/u", 1, 99, 7⟩ : Reg).size) ∧
    (∀ s ∈ (main exWorld exArgs).sets, "r/u" ∉ names s) :=
  ⟨by decide, by decide,
   (minimality exWorld exArgs ⟨"r/u", 1, 99, 7⟩ (by decide) (by decide)).2.1 (by decide)⟩

end Dups

namespace Dups

/-! ## Empty files -/

theorem two_le_length_of_mem {α : Type} {l : List α} {a b : α} (ha : a ∈ l) (hb : b ∈ l)
    (hne : a ≠ b) : 2 ≤ l.length := by
  cases l with
  | nil => simp at ha
  | cons x t =>
    cases t with
    | nil =>
      simp only [List.mem_singleton] at ha hb
      exact absurd (ha.trans hb.symm) hne
    | cons y t1 => simp

theorem levels_zero : levels 0 = 0 := by decide

/-- C6 (as amended): in a scanned tree holding two or more zero-byte regular
files of different identities, all of which can be opened, the first emitted
set consists of exactly the zero-byte files, no later set holds one of them,
and no read is issued on any of them: every record read belongs to a file of
another size, `compareblock` on a group of size 0 leaving the read log as it
was. -/
theorem zero_length_rule (w : World) (args : List Arg) (root : List Node)
    (hscan : scanArgs args [] = .ok root) (r1 r2 : Reg)
    (h1 : r1 ∈ regsArgs args) (h2 : r2 ∈ regsArgs args)
    (hz1 : r1.size = 0) (hz2 : r2.size = 0)
    (hne : ¬ (r1.dev = r2.dev ∧ r1.ino = r2.ino))
    (hopen : ∀ r ∈ regsArgs args, r.size = 0 → w r.path ≠ none) :
    (∃ s rest, (main w args).sets = s :: rest ∧
      (∀ r ∈ regsArgs args, r.size = 0 → ∃ f ∈ s, f.key = (fileOf r).key) ∧
      (∀ f ∈ s, ∃ r ∈ regsArgs args, r.size = 0 ∧ f.key = (fileOf r).key) ∧
      (∀ s1 ∈ rest, ∀ f ∈ s1, ∃ r ∈ regsArgs args, r.size ≠ 0 ∧ f.key = (fileOf r).key)) ∧
    (∀ f ∈ (main w args).reads, ∃ r ∈ regsArgs args, r.size ≠ 0 ∧ f.key = (fileOf r).key) ∧
    (∀ fuel set st, set.size = 0 → (compareblock fuel set st).reads = st.reads) := by
  obtain ⟨hinv, hsound, hcompl⟩ := scanArgs_root hscan
  obtain ⟨nd0, hnd0, hsz0, hm1⟩ := hcompl r1 h1
  rw [hz1] at hsz0
  have hzero : ∀ r ∈ regsArgs args, r.size = 0 → fileOf r ∈ nd0.head := by
    intro r hr hz
    obtain ⟨nd, hnd, hsz, hm⟩ := hcompl r hr
    have : nd = nd0 := hinv.size_unique hnd hnd0 (by rw [hsz, hz, hsz0])
    rw [← this]; exact hm
  have hm2 := hzero r2 h2 hz2
  -- the class of size 0 is the first node of the tree
  obtain ⟨rest0, hroot⟩ : ∃ rest0, root = nd0 :: rest0 := by
    cases hr : root with
    | nil => rw [hr] at hnd0; simp at hnd0
    | cons x t =>
      rw [hr] at hnd0 hinv
      rcases List.mem_cons.mp hnd0 with h | h
      · exact ⟨t, by rw [h]⟩
      · have := (List.pairwise_cons.mp hinv.1).1 nd0 h
        omega
  have hrest : ∀ nd ∈ rest0, nd.size ≠ 0 := by
    intro nd hnd
    rw [hroot] at hinv
    have := (List.pairwise_cons.mp hinv.1).1 nd hnd
    omega
  have hlen : 1 < nd0.n := by
    rw [(hinv.2 nd0 hnd0).2.1]
    have hfne : fileOf r1 ≠ fileOf r2 := by
      intro h
      apply hne
      have hd : (fileOf r1).dev = (fileOf r2).dev := by rw [h]
      have hi : (fileOf r1).ino = (fileOf r2).ino := by rw [h]
      exact ⟨hd, hi⟩
    exact two_le_length_of_mem hm1 hm2 hfne
  -- every member opens
  obtain ⟨l1, ho, _, hkeys, _⟩ := openAll_all w nd0.head (by
    intro p hp
    obtain ⟨r, hr, hsz, hf⟩ := hsound nd0 hnd0 p hp
    rw [hf]
    have := hopen r hr (by rw [hsz, hsz0])
    cases hw : w r.path with
    | none => exact absurd hw this
    | some d => exact ⟨d, hw⟩)
  have hact : action w nd0 St.init = emit ⟨nd0.size, l1, nd0.n⟩ St.init := by
    unfold action
    rw [if_pos hlen]
    unfold compare
    rw [ho]
    exact compareblock_zero_size _ _ _ hsz0
  have hargs : args.isEmpty = false := by
    cases args with
    | nil => simp [regsArgs] at h1
    | cons a as => rfl
  have hmain : main w args =
      twalk (action w) rest0 (emit ⟨nd0.size, l1, nd0.n⟩ St.init) := by
    unfold main
    simp only [hargs, hscan, hroot]
    rw [twalk, hact]
    simp only [emit_status, St.init, if_true]
    simp
  have hinv1 : ProvInv (fun f => ∃ r ∈ regsArgs args, r.size ≠ 0 ∧ f.key = (fileOf r).key)
      [l1] (main w args) := by
    rw [hmain]
    refine twalk_inv (fun nd => nd ∈ rest0) ?_ rest0 (fun nd hnd => hnd) _ ?_
    · intro nd st hnd hi
      refine prov_action _ ?_ [l1] w nd st ?_ hi
      · rintro f g hfg ⟨r, hr, hsz, hk⟩
        exact ⟨r, hr, hsz, by rw [← hfg, hk]⟩
      · intro _ f hf
        obtain ⟨r, hr, hsz, hfe⟩ := hsound nd (by rw [hroot]; exact List.mem_cons_of_mem _ hnd) f hf
        exact ⟨r, hr, by rw [hsz]; exact hrest nd hnd, by rw [hfe]⟩
    · refine ⟨⟨[], ?_, by simp⟩, ?_⟩
      · rw [emit_sets]; rfl
      · rw [emit_reads]; simp [St.init]
  obtain ⟨⟨rest, e1, e2⟩, e3⟩ := hinv1
  refine ⟨⟨l1, rest, e1, ?_, ?_, e2⟩, e3, ?_⟩
  · intro r hr hz
    have hk : (fileOf r).key ∈ l1.map File.key := by
      rw [hkeys]; exact List.mem_map_of_mem _ (hzero r hr hz)
    obtain ⟨f, hf, hfk⟩ := List.mem_map.mp hk
    exact ⟨f, hf, hfk⟩
  · intro f hf
    have hk : f.key ∈ nd0.head.map File.key := by
      rw [← hkeys]; exact List.mem_map_of_mem _ hf
    obtain ⟨f0, hf0, hfk⟩ := List.mem_map.mp hk
    obtain ⟨r, hr, hsz, hfe⟩ := hsound nd0 hnd0 f0 hf0
    exact ⟨r, hr, by rw [hsz, hsz0], by rw [← hfk, hfe]⟩
  · intro fuel set st hs
    rw [compareblock_zero_size fuel set st hs, emit_reads]

/-- C6, the claim as stated fails: of three zero-byte files of different
identities, `r/a` cannot be opened; the set printed holds `r/b` and `r/c`
only, so no emitted set holds all the zero-byte files. -/
theorem zero_length_rule_counterexample :
    regsArgs zeroArgs3 = [⟨"r/a", 1, 1, 0⟩, ⟨"r/b", 1, 2, 0⟩, ⟨"r/c", 1, 3, 0⟩] ∧
    (main noA0 zeroArgs3).status = .running ∧
    (main noA0 zeroArgs3).sets.map names = [["r/b", "r/c"]] ∧
    ¬ ∃ s ∈ (main noA0 zeroArgs3).sets,
        ∀ r ∈ regsArgs zeroArgs3, r.size = 0 → r.path ∈ names s := by
  decide

/-- C6 (as amended), at a sample input: the two empty files of the sample
tree. -/
theorem zero_length_rule_witness :
    (∃ root, scanArgs exArgs [] = .ok root) ∧
    (⟨"r/e1", 1, 4, 0⟩ : Reg) ∈ regsArgs exArgs ∧
    (⟨"r/d/e2", 1, 5, 0⟩ : Reg) ∈ regsArgs exArgs ∧
    (∀ r ∈ regsArgs exArgs, r.size = 0 → exWorld r.path ≠ none) ∧
    (∀ f ∈ (main exWorld exArgs).reads,
      ∃ r ∈ regsArgs exArgs, r.size ≠ 0 ∧ f.key = (fileOf r).key) :=
  ⟨⟨_, rfl⟩, by decide, by decide, by decide,
   (zero_length_rule exWorld exArgs _ rfl ⟨"r/e1", 1, 4, 0⟩ ⟨"r/d/e2", 1, 5, 0⟩
      (by decide) (by decide) rfl rfl (by decide) (by decide)).2.1⟩

end Dups

namespace Dups

/-! ## Soundness of the refinement -/

/-- One window read from a member whose descriptor delivers the rest of its
file. -/
theorem good_step {w : World} {off size : Nat} {f : File} (hg : GoodAt w off size f) :
    (readn f.fd (window size)).r = (window size : Nat) ∧
    (readStep size f).win = ((fullBytes w f.name).drop off).take (window size) ∧
    (readStep size f).bufsiz = window size ∧
    (readStep size f).win.length = window size ∧
    GoodAt w (off + window size) (size - window size) (readStep size f) := by
  obtain ⟨d, hfd, hb, hlen⟩ := hg
  have hk := window_le size
  have hdl : ((fullBytes w f.name).drop off).length = size := by
    rw [List.length_drop, hlen]; omega
  obtain ⟨e1, e2, d1, e3, e4⟩ := readn_bytes (n := window size) hb (by rw [hdl]; exact hk)
  rw [← hfd] at e1 e2 e3
  have hwin : (readStep size f).win = ((fullBytes w f.name).drop off).take (window size) := e2
  refine ⟨e1, hwin, rfl, ?_, ?_⟩
  · rw [hwin, List.length_take, hdl]; omega
  · refine ⟨d1, e3, ?_, ?_⟩
    · rw [e4, List.drop_drop]
      rfl
    · show (fullBytes w f.name).length = off + window size + (size - window size)
      omega

/-- The sub-groups of a good group are good groups, one window further. -/
theorem good_sub {w : World} {off : Nat} {set : Node} {newroot : List Node}
    (hg : GoodGroup w off set)
    (hr : regroup set.size (set.head.map (readStep set.size)) [] = .ok newroot) :
    ∀ nd ∈ newroot, GoodGroup w (off + window set.size) nd := by
  intro nd hnd
  have hL : ∀ p ∈ set.head.map (readStep set.size),
      p.bufsiz = window set.size ∧ p.win.length = window set.size := by
    intro p hp
    obtain ⟨q, hq, rfl⟩ := List.mem_map.mp hp
    obtain ⟨_, _, h3, h4, _⟩ := good_step (hg.1 q hq)
    exact ⟨h3, h4⟩
  have hwt : WinTree (window set.size) newroot :=
    regroup_WinTree set.size (window set.size) _ [] newroot
      ⟨List.Pairwise.nil, by simp⟩ hL hr
  have hsz := (regroup_nodes (fun p hp => (hL p hp).1) hr nd hnd).2.2
  have hfrom : ∀ f ∈ nd.head, ∃ q ∈ set.head, f = readStep set.size q := by
    intro f hf
    rcases (regroup_mem _ _ _ _ hr).1 nd hnd f hf with h1 | ⟨nd0, hnd0, _⟩
    · obtain ⟨q, hq, rfl⟩ := List.mem_map.mp h1
      exact ⟨q, hq, rfl⟩
    · simp at hnd0
  constructor
  · intro f hf
    obtain ⟨q, hq, rfl⟩ := hfrom f hf
    rw [hsz]
    exact (good_step (hg.1 q hq)).2.2.2.2
  · intro f hf g hg1
    obtain ⟨q, hq, rfl⟩ := hfrom f hf
    obtain ⟨q1, hq1, rfl⟩ := hfrom g hg1
    have hwf := ((hwt.2 nd hnd).2 _ hf).2.2
    have hwg := ((hwt.2 nd hnd).2 _ hg1).2.2
    rw [(good_step (hg.1 q hq)).2.1] at hwf
    rw [(good_step (hg.1 q1 hq1)).2.1] at hwg
    show (fullBytes w q.name).take (off + window set.size) =
      (fullBytes w q1.name).take (off + window set.size)
    rw [List.take_add, List.take_add, hg.2 q hq q1 hq1, hwf, hwg]

theorem sound_compareblock (w : World) (fuel : Nat) (set : Node) (st : St)
    (hp : ∃ off, GoodGroup w off set)
    (hi : ∀ s ∈ st.sets, ∀ f ∈ s, ∀ g ∈ s, fullBytes w f.name = fullBytes w g.name) :
    ∀ s ∈ (compareblock fuel set st).sets, ∀ f ∈ s, ∀ g ∈ s,
      fullBytes w f.name = fullBytes w g.name := by
  refine compareblock_inv (fun nd => ∃ off, GoodGroup w off nd)
    (fun st => ∀ s ∈ st.sets, ∀ f ∈ s, ∀ g ∈ s, fullBytes w f.name = fullBytes w g.name)
    ?_ ?_ ?_ ?_ ?_ fuel set st hp hi
  · rintro set st ⟨off, hg⟩ h0 hi s hs
    rw [emit_sets] at hs
    rcases List.mem_append.mp hs with hs | hs
    · exact hi s hs
    · simp only [List.mem_singleton] at hs
      subst hs
      intro f hf g hg1
      have h1 := hg.2 f hf g hg1
      obtain ⟨_, _, _, hlf⟩ := hg.1 f hf
      obtain ⟨_, _, _, hlg⟩ := hg.1 g hg1
      rw [h0] at hlf hlg
      rwa [List.take_of_length_le (by omega), List.take_of_length_le (by omega)] at h1
  · intro st s hi; exact hi
  · intro p st hi
    simpa using hi
  · intro set st _ _ hi
    rw [(readWindows_fields set.size set.head st).1]; exact hi
  · rintro set st newroot ⟨off, hg⟩ _ hrun hr nd hnd
    obtain ⟨_, e2, _, _⟩ := readWindows_running _ _ _ hrun
    rw [e2] at hr
    exact ⟨_, good_sub hg hr nd hnd⟩

/-- After `compare` has opened them all, the members of a size class whose
files hold as many bytes as declared form a good group at offset 0. -/
theorem good_opened {w : World} {set : Node} {l1 : List File}
    (hk : l1.map File.key = set.head.map File.key)
    (hfd : ∀ f ∈ l1, ∃ d, w f.name = some d ∧ f.fd = some d)
    (H : ∀ f ∈ set.head, ∃ bs, content w f.name = some bs ∧ bs.length = set.size) :
    GoodGroup w 0 { set with head := l1 } := by
  constructor
  · intro f hf
    obtain ⟨d, hw, hd⟩ := hfd f hf
    have hkf : f.key ∈ set.head.map File.key := by
      rw [← hk]; exact List.mem_map_of_mem _ hf
    obtain ⟨f0, hf0, hfk⟩ := List.mem_map.mp hkf
    have hname : f0.name = f.name := congrArg Prod.fst hfk
    obtain ⟨bs, hc, hl⟩ := H f0 hf0
    rw [hname] at hc
    have hb : bytesOf d = some bs := by
      unfold content at hc
      rw [hw] at hc
      exact hc
    have hfull : fullBytes w f.name = bs := by
      unfold fullBytes
      rw [hc]; rfl
    refine ⟨d, hd, ?_, ?_⟩
    · rw [hfull, List.drop_zero]; exact hb
    · rw [hfull, hl]; simp
  · intro f _ g _
    simp

theorem sound_action (w : World) (set : Node) (st : St)
    (H : ∀ f ∈ set.head, ∃ bs, content w f.name = some bs ∧ bs.length = set.size)
    (hi : ∀ s ∈ st.sets, ∀ f ∈ s, ∀ g ∈ s, fullBytes w f.name = fullBytes w g.name) :
    ∀ s ∈ (action w set st).sets, ∀ f ∈ s, ∀ g ∈ s,
      fullBytes w f.name = fullBytes w g.name := by
  unfold action
  split_ifs
  · unfold compare
    have hopen : ∀ p ∈ set.head, ∃ d, w p.name = some d := by
      intro p hp
      obtain ⟨bs, hc, _⟩ := H p hp
      unfold content at hc
      cases hw : w p.name with
      | none => rw [hw] at hc; simp at hc
      | some d => exact ⟨d, rfl⟩
    obtain ⟨l1, ho, _, hk, hfd⟩ := openAll_all w set.head hopen
    rw [ho]
    exact sound_compareblock w _ _ st ⟨0, good_opened hk hfd H⟩ hi
  · simpa using hi

theorem class_content {w : World} {args : List Arg} {root : List Node}
    (hs : scanArgs args [] = .ok root)
    (H : ∀ r ∈ regsArgs args, ∃ bs, content w r.path = some bs ∧ bs.length = r.size) :
    ∀ nd ∈ root, ∀ f ∈ nd.head, ∃ bs, content w f.name = some bs ∧ bs.length = nd.size := by
  intro nd hnd f hf
  obtain ⟨r, hr, hsz, hfe⟩ := (scanArgs_root hs).2.1 nd hnd f hf
  obtain ⟨bs, hc, hl⟩ := H r hr
  exact ⟨bs, by rw [hfe]; exact hc, by rw [hl, hsz]⟩

theorem holds_declared {w : World} {regs : List Reg}
    (h : ∀ r ∈ regs, (content w r.path).map List.length = some r.size) :
    ∀ r ∈ regs, ∃ bs, content w r.path = some bs ∧ bs.length = r.size := by
  intro r hr
  have := h r hr
  cases hc : content w r.path with
  | none => rw [hc] at this; simp at this
  | some bs =>
    rw [hc] at this
    simp only [Option.map_some', Option.some.injEq] at this
    exact ⟨bs, rfl, this⟩

/-- C1: when every scanned file opens and holds exactly as many bytes as its
declared size, every emitted set consists of scanned files that pairwise have
the same size and the same byte content over their whole length, however many
windows long the files are. -/
theorem soundness (w : World) (args : List Arg)
    (hbytes : ∀ r ∈ regsArgs args, (content w r.path).map List.length = some r.size) :
    ∀ s ∈ (main w args).sets, ∀ f ∈ s, ∀ g ∈ s,
      (∃ rf ∈ regsArgs args, ∃ rg ∈ regsArgs args,
        f.key = (fileOf rf).key ∧ g.key = (fileOf rg).key ∧ rf.size = rg.size) ∧
      content w f.name = content w g.name ∧ content w f.name ≠ none := by
  intro s hs f hf g hg
  have H := holds_declared hbytes
  by_cases hok : ∃ root, scanArgs args [] = .ok root
  · obtain ⟨root, hroot⟩ := hok
    obtain ⟨_, hsound, _⟩ := scanArgs_root hroot
    have hbytes : fullBytes w f.name = fullBytes w g.name := by
      have hmain : ∀ s ∈ (main w args).sets, ∀ f ∈ s, ∀ g ∈ s,
          fullBytes w f.name = fullBytes w g.name := by
        unfold main
        split_ifs
        · simp [St.init]
        · rw [hroot]
          simp only []
          exact twalk_inv (fun nd => nd ∈ root)
            (fun nd st hnd hi => sound_action w nd st (class_content hroot H nd hnd) hi)
            root (fun nd hnd => hnd) _ (by simp [St.init])
      exact hmain s hs f hf g hg
    obtain ⟨⟨rest, h1, h2⟩, _⟩ := prov_main w args root hroot
    simp only [List.nil_append] at h1
    rw [h1] at hs
    have hreg : ∀ x ∈ s, ∃ r ∈ regsArgs args, x.key = (fileOf r).key ∧
        content w x.name = some (fullBytes w x.name) ∧ (fullBytes w x.name).length = r.size := by
      intro x hx
      obtain ⟨nd, hnd, _, f0, hf0, hk⟩ := h2 s hs x hx
      obtain ⟨r, hr, _, hfe⟩ := hsound nd hnd f0 hf0
      obtain ⟨bs, hc, hl⟩ := H r hr
      have hname : x.name = r.path := by
        have : f0.name = x.name := congrArg Prod.fst hk
        rw [← this, hfe]; rfl
      have hfull : fullBytes w x.name = bs := by
        unfold fullBytes
        rw [hname, hc]; rfl
      exact ⟨r, hr, by rw [← hk, hfe], by rw [hfull, hname]; exact hc, by rw [hfull]; exact hl⟩
    obtain ⟨rf, hrf, hkf, hcf, hlf⟩ := hreg f hf
    obtain ⟨rg, hrg, hkg, hcg, hlg⟩ := hreg g hg
    refine ⟨⟨rf, hrf, rg, hrg, hkf, hkg, ?_⟩, ?_, ?_⟩
    · rw [← hlf, ← hlg, hbytes]
    · rw [hcf, hcg, hbytes]
    · rw [hcf]; simp
  · have := (main_sets_of_not_ok w args (fun root h => hok ⟨root, h⟩)).1
    rw [this] at hs
    simp at hs

/-- C1, at a sample input: in the sample tree every file holds as many bytes
as declared. -/
theorem soundness_witness :
    (∀ r ∈ regsArgs exArgs, (content exWorld r.path).map List.length = some r.size) ∧
    (∀ s ∈ (main exWorld exArgs).sets, ∀ f ∈ s, ∀ g ∈ s,
      content exWorld f.name = content exWorld g.name) :=
  ⟨by decide, fun s hs f hf g hg => (soundness exWorld exArgs (by decide) s hs f hf g hg).2.1⟩

end Dups

namespace Dups

/-! ## A scan that runs to its end -/

mutual
theorem scanEntry_eq : ∀ (e : Ent) (dir : String) (root : List Node),
    statOkEntry e = true → scanEntry dir e root = classifyAll (regsEntry dir e) root
  | .reg name dev ino size, dir, root, _ => by
    unfold scanEntry regsEntry
    split_ifs
    · rfl
    · simp only [classifyAll]
      cases classify (mkpath dir name) dev ino size root <;> rfl
  | .dir name listable entries, dir, root, h => by
    unfold scanEntry regsEntry
    unfold statOkEntry at h
    split_ifs with h1 h2
    · rfl
    · have h3 : statOkList entries = true := by simpa [h1, h2] using h
      exact scanLoop_eq entries (mkpath dir name) root h3
    · rfl
  | .other name, dir, root, _ => by
    unfold scanEntry regsEntry
    rfl
  | .nostat name, dir, root, h => by
    unfold scanEntry regsEntry
    unfold statOkEntry at h
    rw [if_pos h]
    rfl
theorem scanLoop_eq : ∀ (es : List Ent) (dir : String) (root : List Node),
    statOkList es = true → scanLoop dir es root = classifyAll (regsList dir es) root
  | [], dir, root, _ => by
    unfold scanLoop regsList
    rfl
  | e :: es, dir, root, h => by
    unfold statOkList at h
    simp only [Bool.and_eq_true] at h
    unfold scanLoop regsList
    rw [classifyAll_append, scanEntry_eq e dir root h.1]
    cases classifyAll (regsEntry dir e) root with
    | error err => rfl
    | ok root1 => exact scanLoop_eq es dir root1 h.2
end

theorem scanArgs_eq : ∀ (args : List Arg) (root : List Node),
    statOkArgs args = true → scanArgs args root = classifyAll (regsArgs args) root := by
  intro args
  induction args with
  | nil => intro root _; rfl
  | cons a as ih =>
    intro root h
    unfold statOkArgs at h
    simp only [Bool.and_eq_true, Bool.or_eq_true, Bool.not_eq_true'] at h
    unfold scanArgs regsArgs
    rw [classifyAll_append]
    unfold scan
    split_ifs with h1
    · have h2 : statOkList a.entries = true := by
        rcases h.1 with h3 | h3
        · rw [h1] at h3; simp at h3
        · exact h3
      rw [scanLoop_eq _ _ _ h2]
      cases classifyAll (regsList a.path a.entries) root with
      | error err => rfl
      | ok root1 => exact ih root1 h.2
    · simp only [classifyAll]
      exact ih root h.2

/-- Regular files of pairwise different identity are all classified. -/
theorem classifyAll_ok : ∀ (rs : List Reg) (root : List Node),
    rs.Pairwise (fun a b => ¬ (a.dev = b.dev ∧ a.ino = b.ino)) →
    (∀ nd ∈ root, ∀ f ∈ nd.head, ∀ r ∈ rs, ¬ (f.dev = r.dev ∧ f.ino = r.ino)) →
    ∃ root1, classifyAll rs root = .ok root1 := by
  intro rs
  induction rs with
  | nil => intro root _ _; exact ⟨root, rfl⟩
  | cons r rs ih =>
    intro root hp hroot
    have hp1 := List.pairwise_cons.mp hp
    unfold classifyAll
    cases hc : classify r.path r.dev r.ino r.size root with
    | error e =>
      exfalso
      obtain ⟨_, nd, hnd, _, p, hp2, hid⟩ := classify_error hc
      exact hroot nd hnd p hp2 r (List.mem_cons_self _ _) hid
    | ok root1 =>
      simp only []
      refine ih root1 hp1.2 ?_
      intro nd hnd f hf r1 hr1
      rcases (classify_mem hc).1 nd hnd f hf with ⟨h1, _⟩ | ⟨nd0, hnd0, _, h1⟩
      · rw [h1]
        exact hp1.1 r1 hr1
      · exact hroot nd0 hnd0 f h1 r1 (List.mem_cons_of_mem _ hr1)

theorem scanArgs_succeeds {args : List Arg} (hstat : statOkArgs args = true)
    (hid : (regsArgs args).Pairwise (fun a b => ¬ (a.dev = b.dev ∧ a.ino = b.ino))) :
    ∃ root, scanArgs args [] = .ok root := by
  rw [scanArgs_eq args [] hstat]
  exact classifyAll_ok _ [] hid (by simp)

end Dups

namespace Dups

/-! ## Completeness of the refinement -/

theorem levels_pos {size : Nat} (h : size ≠ 0) : 0 < levels size := by
  unfold levels blksize; omega

theorem levels_sub {size fuel : Nat} (hf : levels size ≤ fuel + 1) :
    levels (size - window size) ≤ fuel := by
  unfold levels window blksize at *
  split_ifs <;> omega

theorem PairsIn.mono {w : World} {l : List File} {new new1 : List (List File)}
    (h : PairsIn w l new) (hsub : ∀ s ∈ new, s ∈ new1) : PairsIn w l new1 := by
  intro f hf g hg hid hb
  obtain ⟨s, hs, h1⟩ := h f hf g hg hid hb
  exact ⟨s, hsub s hs, h1⟩

theorem PairsIn_of_length_le_one (w : World) {l : List File} (h : l.length ≤ 1)
    (new : List (List File)) : PairsIn w l new := by
  intro f hf g hg hid _
  exfalso
  cases l with
  | nil => simp at hf
  | cons a t =>
    cases t with
    | nil =>
      simp only [List.mem_singleton] at hf hg
      subst hf hg
      exact hid ⟨rfl, rfl⟩
    | cons b t1 => simp at h

theorem comp_twalk (w : World) (act : Node → St → St) : ∀ (nodes : List Node),
    (∀ nd ∈ nodes, ∀ st, st.status = .running →
      (act nd st).status = .running ∧
      ∃ new, (act nd st).sets = st.sets ++ new ∧ PairsIn w nd.head new) →
    ∀ st, st.status = .running →
      (twalk act nodes st).status = .running ∧
      ∃ new, (twalk act nodes st).sets = st.sets ++ new ∧
        ∀ nd ∈ nodes, PairsIn w nd.head new := by
  intro nodes
  induction nodes with
  | nil => intro _ st hst; exact ⟨hst, [], by simp [twalk], by simp⟩
  | cons nd rest ih =>
    intro h st hst
    obtain ⟨h1, new1, h2, h3⟩ := h nd (List.mem_cons_self _ _) st hst
    obtain ⟨h4, new2, h5, h6⟩ :=
      ih (fun x hx => h x (List.mem_cons_of_mem _ hx)) (act nd st) h1
    have htw : twalk act (nd :: rest) st = twalk act rest (act nd st) := by
      rw [twalk]
      simp only [h1, if_true]
    rw [htw]
    refine ⟨h4, new1 ++ new2, by rw [h5, h2, List.append_assoc], ?_⟩
    intro x hx
    rcases List.mem_cons.mp hx with hx | hx
    · subst hx
      exact h3.mono (fun s hs => List.mem_append.mpr (Or.inl hs))
    · exact (h6 x hx).mono (fun s hs => List.mem_append.mpr (Or.inr hs))

theorem IdNe_of_sorted {l : List File} (h : SortedFiles l) : l.Pairwise IdNe :=
  List.Pairwise.imp (fun hab => hab.ne_id) h

/-- A good, sorted group is refined to its end without abort, and any two of
its members holding the same bytes are printed together. -/
theorem comp_compareblock (w : World) : ∀ (fuel : Nat) (set : Node) (st : St) (off : Nat),
    levels set.size ≤ fuel → GoodGroup w off set → SortedFiles set.head →
    st.status = .running →
    (compareblock fuel set st).status = .running ∧
    ∃ new, (compareblock fuel set st).sets = st.sets ++ new ∧ PairsIn w set.head new := by
  intro fuel
  induction fuel with
  | zero =>
    intro set st off hf hg hs hst
    have h0 : set.size = 0 := by
      by_contra hne
      have := levels_pos hne
      omega
    rw [compareblock_zero_size 0 set st h0]
    refine ⟨by rw [emit_status]; exact hst, [set.head], emit_sets set st, ?_⟩
    intro f hf1 g hg1 _ _
    exact ⟨set.head, by simp, List.mem_map_of_mem _ hf1, List.mem_map_of_mem _ hg1⟩
  | succ fuel ih =>
    intro set st off hf hg hs hst
    by_cases h0 : set.size = 0
    · rw [compareblock_zero_size _ set st h0]
      refine ⟨by rw [emit_status]; exact hst, [set.head], emit_sets set st, ?_⟩
      intro f hf1 g hg1 _ _
      exact ⟨set.head, by simp, List.mem_map_of_mem _ hf1, List.mem_map_of_mem _ hg1⟩
    · -- the read loop succeeds
      have hfull : ∀ p ∈ set.head, ¬ (readn p.fd (window set.size)).r = -1 ∧
          ¬ (readn p.fd (window set.size)).r < (window set.size : Nat) := by
        intro p hp
        rw [(good_step (hg.1 p hp)).1]
        constructor <;> omega
      have hrun := readWindows_ok set.size set.head st hst hfull
      obtain ⟨_, e2, _, _⟩ := readWindows_running _ _ _ hrun
      have hsets := (readWindows_fields set.size set.head st).1
      -- the regrouping succeeds
      have hsl : SortedFiles (set.head.map (readStep set.size)) :=
        SortedFiles_map_readStep _ hs
      obtain ⟨newroot, hr⟩ := regroup_ok set.size _ [] (IdNe_of_sorted hsl) (by simp)
      rw [compareblock_succ fuel set st h0, if_pos hrun, e2, hr]
      simp only []
      have hL : ∀ p ∈ set.head.map (readStep set.size),
          p.bufsiz = window set.size ∧ p.win.length = window set.size := by
        intro p hp
        obtain ⟨q, hq, rfl⟩ := List.mem_map.mp hp
        obtain ⟨_, _, h3, h4, _⟩ := good_step (hg.1 q hq)
        exact ⟨h3, h4⟩
      have hnodes := regroup_nodes (fun p hp => (hL p hp).1) hr
      have hwt : WinTree (window set.size) newroot :=
        regroup_WinTree set.size (window set.size) _ [] newroot
          ⟨List.Pairwise.nil, by simp⟩ hL hr
      obtain ⟨h4, new, h5, h6⟩ := comp_twalk w (newaction (compareblock fuel)) newroot (by
        intro nd hnd st1 hst1
        obtain ⟨hsn, hn, hsz⟩ := hnodes nd hnd
        unfold newaction
        split_ifs with hgt
        · exact ih nd st1 (off + window set.size)
            (by rw [hsz]; exact levels_sub hf) (good_sub hg hr nd hnd) hsn hst1
        · refine ⟨by simpa using hst1, [], by simp, ?_⟩
          exact PairsIn_of_length_le_one w (by omega) []) _ hrun
      refine ⟨h4, new, by rw [h5, hsets], ?_⟩
      intro f hf1 g hg1 hid hb
      -- both members land in the same node
      have hmf : readStep set.size f ∈ set.head.map (readStep set.size) :=
        List.mem_map_of_mem _ hf1
      have hmg : readStep set.size g ∈ set.head.map (readStep set.size) :=
        List.mem_map_of_mem _ hg1
      obtain ⟨ndf, hndf, hinf⟩ := (regroup_mem _ _ _ _ hr).2.1 _ hmf
      obtain ⟨ndg, hndg, hing⟩ := (regroup_mem _ _ _ _ hr).2.1 _ hmg
      have hwf := ((hwt.2 ndf hndf).2 _ hinf).2.2
      have hwg := ((hwt.2 ndg hndg).2 _ hing).2.2
      rw [(good_step (hg.1 f hf1)).2.1] at hwf
      rw [(good_step (hg.1 g hg1)).2.1] at hwg
      have hsame : ndf = ndg := hwt.unique hndf hndg (by rw [← hwf, ← hwg, hb])
      subst hsame
      exact h6 ndf hndf (readStep set.size f) hinf (readStep set.size g) hing hid hb

end Dups

namespace Dups

/-! ## Emitted sets are whole classes -/

theorem names_of_key_mem {l1 l : List File} (hk : l1.map File.key = l.map File.key)
    {f : File} (hf : f ∈ l) : f.name ∈ names l1 := by
  have h1 : f.key ∈ l1.map File.key := by
    rw [hk]; exact List.mem_map_of_mem _ hf
  obtain ⟨g, hg, hgk⟩ := List.mem_map.mp h1
  have : g.name = f.name := congrArg Prod.fst hgk
  rw [← this]
  exact List.mem_map_of_mem _ hg

/-- The sub-groups of a closed good group are closed, one window further. -/
theorem closed_sub {w : World} {regs : List Reg} {off : Nat} {set : Node}
    {newroot : List Node} (hg : GoodGroup w off set)
    (hc : ClosedAt w regs off set.head)
    (hr : regroup set.size (set.head.map (readStep set.size)) [] = .ok newroot) :
    ∀ nd ∈ newroot, ClosedAt w regs (off + window set.size) nd.head := by
  intro nd hnd f hf r hreg hlen htake
  have hL : ∀ p ∈ set.head.map (readStep set.size),
      p.bufsiz = window set.size ∧ p.win.length = window set.size := by
    intro p hp
    obtain ⟨q, hq, rfl⟩ := List.mem_map.mp hp
    obtain ⟨_, _, h3, h4, _⟩ := good_step (hg.1 q hq)
    exact ⟨h3, h4⟩
  have hwt : WinTree (window set.size) newroot :=
    regroup_WinTree set.size (window set.size) _ [] newroot
      ⟨List.Pairwise.nil, by simp⟩ hL hr
  -- the member the file is compared with
  obtain ⟨q, hq, hfq⟩ : ∃ q ∈ set.head, f = readStep set.size q := by
    rcases (regroup_mem _ _ _ _ hr).1 nd hnd f hf with h1 | ⟨nd0, hnd0, _⟩
    · obtain ⟨q, hq, rfl⟩ := List.mem_map.mp h1
      exact ⟨q, hq, rfl⟩
    · simp at hnd0
  subst hfq
  have hlen1 : (fullBytes w r.path).length = (fullBytes w q.name).length := hlen
  have htake1 : (fullBytes w r.path).take (off + window set.size) =
      (fullBytes w q.name).take (off + window set.size) := htake
  -- the scanned file is a member of the parent group
  have hoff : (fullBytes w r.path).take off = (fullBytes w q.name).take off := by
    have := congrArg (List.take off) htake1
    rwa [List.take_take, List.take_take, Nat.min_eq_left (Nat.le_add_right _ _)] at this
  obtain ⟨q2, hq2, hname⟩ := List.mem_map.mp (hc q hq r hreg hlen1 hoff)
  -- its window is the window of the node
  have hm2 : readStep set.size q2 ∈ set.head.map (readStep set.size) :=
    List.mem_map_of_mem _ hq2
  obtain ⟨nd2, hnd2, hin2⟩ := (regroup_mem _ _ _ _ hr).2.1 _ hm2
  have hw1 := ((hwt.2 nd hnd).2 _ hf).2.2
  have hw2 := ((hwt.2 nd2 hnd2).2 _ hin2).2.2
  rw [(good_step (hg.1 q hq)).2.1] at hw1
  rw [(good_step (hg.1 q2 hq2)).2.1, hname] at hw2
  have hwin : ((fullBytes w r.path).drop off).take (window set.size) =
      ((fullBytes w q.name).drop off).take (window set.size) := by
    rw [List.take_drop, List.take_drop, htake1]
  have hsame : nd2 = nd := hwt.unique hnd2 hnd (by rw [← hw1, ← hw2, hwin])
  subst hsame
  have : (readStep set.size q2).name ∈ names nd2.head := List.mem_map_of_mem _ hin2
  rw [← hname]
  exact this

theorem maximal_compareblock (w : World) (regs : List Reg) (fuel : Nat) (set : Node)
    (st : St) (hp : ∃ off, GoodGroup w off set ∧ ClosedAt w regs off set.head)
    (hi : ∀ s ∈ st.sets, ∀ f ∈ s, ∀ r ∈ regs,
      fullBytes w r.path = fullBytes w f.name → r.path ∈ names s) :
    ∀ s ∈ (compareblock fuel set st).sets, ∀ f ∈ s, ∀ r ∈ regs,
      fullBytes w r.path = fullBytes w f.name → r.path ∈ names s := by
  refine compareblock_inv
    (fun nd => ∃ off, GoodGroup w off nd ∧ ClosedAt w regs off nd.head)
    (fun st => ∀ s ∈ st.sets, ∀ f ∈ s, ∀ r ∈ regs,
      fullBytes w r.path = fullBytes w f.name → r.path ∈ names s)
    ?_ ?_ ?_ ?_ ?_ fuel set st hp hi
  · rintro set st ⟨off, _, hc⟩ _ hi s hs
    rw [emit_sets] at hs
    rcases List.mem_append.mp hs with hs | hs
    · exact hi s hs
    · simp only [List.mem_singleton] at hs
      subst hs
      intro f hf r hr hb
      exact hc f hf r hr (by rw [hb]) (by rw [hb])
  · intro st s hi; exact hi
  · intro p st hi
    simpa using hi
  · intro set st _ _ hi
    rw [(readWindows_fields set.size set.head st).1]; exact hi
  · rintro set st newroot ⟨off, hg, hc⟩ _ hrun hr nd hnd
    obtain ⟨_, e2, _, _⟩ := readWindows_running _ _ _ hrun
    rw [e2] at hr
    exact ⟨_, good_sub hg hr nd hnd, closed_sub hg hc hr nd hnd⟩

/-- What `action` does with a class of a scanned tree whose files all open and
hold as many bytes as declared. -/
theorem class_opened {w : World} {args : List Arg} {root : List Node}
    (hroot : scanArgs args [] = .ok root)
    (H : ∀ r ∈ regsArgs args, ∃ bs, content w r.path = some bs ∧ bs.length = r.size)
    {nd : Node} (hnd : nd ∈ root) :
    ∃ l1, openAll w nd.head = some l1 ∧ l1.map File.key = nd.head.map File.key ∧
      GoodGroup w 0 { nd with head := l1 } ∧ SortedFiles l1 ∧
      ClosedAt w (regsArgs args) 0 l1 := by
  obtain ⟨hinv, hsound, hcompl⟩ := scanArgs_root hroot
  have Hc := class_content hroot H nd hnd
  have hopen : ∀ p ∈ nd.head, ∃ d, w p.name = some d := by
    intro p hp
    obtain ⟨bs, hc, _⟩ := Hc p hp
    unfold content at hc
    cases hw : w p.name with
    | none => rw [hw] at hc; simp at hc
    | some d => exact ⟨d, rfl⟩
  obtain ⟨l1, ho, _, hk, hfd⟩ := openAll_all w nd.head hopen
  have hgood := good_opened hk hfd Hc
  refine ⟨l1, ho, hk, hgood, openAll_sorted (hinv.2 nd hnd).1 ho, ?_⟩
  intro f hf r hr hlen _
  obtain ⟨_, _, _, hlf⟩ := hgood.1 f hf
  obtain ⟨bs, hc, hl⟩ := H r hr
  have hfr : fullBytes w r.path = bs := by
    unfold fullBytes; rw [hc]; rfl
  have hsz : r.size = nd.size := by
    have h1 : (fullBytes w f.name).length = 0 + nd.size := hlf
    rw [← hl, ← hfr, hlen, h1]; simp
  obtain ⟨nd1, hnd1, hsz1, hm⟩ := hcompl r hr
  have : nd1 = nd := hinv.size_unique hnd1 hnd (by rw [hsz1, hsz])
  subst this
  exact names_of_key_mem hk hm

/-- C2: in a tree that `scan` walks to its end (no `fstatat` fails), in which
all regular files have different (device, inode), open, and hold exactly as
many bytes as their declared size, the run completes, any two regular files
under the roots with identical size and identical byte content are printed in
the same emitted set, and every emitted set holds every scanned file with the
byte content of its members: each emitted set is a maximal class of
byte-identical files. -/
theorem completeness (w : World) (args : List Arg) (hstat : statOkArgs args = true)
    (hid : (regsArgs args).Pairwise (fun a b => ¬ (a.dev = b.dev ∧ a.ino = b.ino)))
    (hbytes : ∀ r ∈ regsArgs args, (content w r.path).map List.length = some r.size) :
    (args ≠ [] → (main w args).status = .running) ∧
    (∀ rf ∈ regsArgs args, ∀ rg ∈ regsArgs args, rf ≠ rg → rf.size = rg.size →
      content w rf.path = content w rg.path →
      ∃ s ∈ (main w args).sets, rf.path ∈ names s ∧ rg.path ∈ names s) ∧
    (∀ s ∈ (main w args).sets, ∀ f ∈ s, ∀ r ∈ regsArgs args,
      content w r.path = content w f.name → r.path ∈ names s) := by
  have H := holds_declared hbytes
  obtain ⟨root, hroot⟩ := scanArgs_succeeds hstat hid
  obtain ⟨hinv, hsound, hcompl⟩ := scanArgs_root hroot
  have hfull : ∀ r ∈ regsArgs args, content w r.path = some (fullBytes w r.path) := by
    intro r hr
    obtain ⟨bs, hc, _⟩ := H r hr
    unfold fullBytes
    rw [hc]; rfl
  -- each class is processed without abort, pairs are printed together
  have hstep : ∀ nd ∈ root, ∀ st, st.status = .running →
      (action w nd st).status = .running ∧
      ∃ new, (action w nd st).sets = st.sets ++ new ∧ PairsIn w nd.head new := by
    intro nd hnd st hst
    unfold action
    split_ifs with hn
    · obtain ⟨l1, ho, hk, hgood, hsl, _⟩ := class_opened hroot H hnd
      unfold compare
      rw [ho]
      obtain ⟨h1, new, h2, h3⟩ := comp_compareblock w (levels nd.size)
        { nd with head := l1 } st 0 (le_refl _) hgood hsl hst
      refine ⟨h1, new, h2, ?_⟩
      intro f hf g hg hidne hb
      have hkf : f.key ∈ l1.map File.key := by
        rw [hk]; exact List.mem_map_of_mem _ hf
      have hkg : g.key ∈ l1.map File.key := by
        rw [hk]; exact List.mem_map_of_mem _ hg
      obtain ⟨f1, hf1, hfk⟩ := List.mem_map.mp hkf
      obtain ⟨g1, hg1, hgk⟩ := List.mem_map.mp hkg
      have efn : f1.name = f.name := congrArg Prod.fst hfk
      have egn : g1.name = g.name := congrArg Prod.fst hgk
      have efd : f1.dev = f.dev := congrArg (fun k => k.2.1) hfk
      have egd : g1.dev = g.dev := congrArg (fun k => k.2.1) hgk
      have efi : f1.ino = f.ino := congrArg (fun k => k.2.2) hfk
      have egi : g1.ino = g.ino := congrArg (fun k => k.2.2) hgk
      have := h3 f1 hf1 g1 hg1
        (by unfold IdNe at *; rw [efd, egd, efi, egi]; exact hidne)
        (by rw [efn, egn]; exact hb)
      rwa [efn, egn] at this
    · refine ⟨by simpa using hst, [], by simp, ?_⟩
      exact PairsIn_of_length_le_one w (by rw [← (hinv.2 nd hnd).2.1]; omega) []
  have hmain : args ≠ [] → main w args = twalk (action w) root St.init := by
    intro hne
    have : args.isEmpty = false := by
      cases args with
      | nil => exact absurd rfl hne
      | cons a as => rfl
    unfold main
    simp only [this, hroot]
    simp
  obtain ⟨hrun, new, hsets, hpairs⟩ := comp_twalk w (action w) root hstep St.init rfl
  refine ⟨?_, ?_, ?_⟩
  · intro hne
    rw [hmain hne]; exact hrun
  · intro rf hrf rg hrg hne hsz hcont
    have hargs : args ≠ [] := by
      intro h
      rw [h] at hrf
      simp [regsArgs] at hrf
    obtain ⟨nd, hnd, hs1, hm1⟩ := hcompl rf hrf
    obtain ⟨nd2, hnd2, hs2, hm2⟩ := hcompl rg hrg
    have : nd2 = nd := hinv.size_unique hnd2 hnd (by rw [hs2, hs1, hsz])
    subst this
    have hsym : Symmetric (fun a b : Reg => ¬ (a.dev = b.dev ∧ a.ino = b.ino)) :=
      fun a b hab hba => hab ⟨hba.1.symm, hba.2.symm⟩
    have hidne : IdNe (fileOf rf) (fileOf rg) := hid.forall hsym hrf hrg hne
    have hb : fullBytes w (fileOf rf).name = fullBytes w (fileOf rg).name := by
      have h1 := hfull rf hrf
      have h2 := hfull rg hrg
      rw [hcont, h2] at h1
      exact (Option.some.inj h1).symm
    obtain ⟨s, hs, h3⟩ := hpairs nd2 hnd2 _ hm1 _ hm2 hidne hb
    refine ⟨s, ?_, h3⟩
    rw [hmain hargs, hsets]
    simpa [St.init] using hs
  · intro s hs f hf r hr hcont
    by_cases hargs : args = []
    · rw [hargs] at hr
      simp [regsArgs] at hr
    · have hmax : ∀ s ∈ (main w args).sets, ∀ f ∈ s, ∀ r ∈ regsArgs args,
          fullBytes w r.path = fullBytes w f.name → r.path ∈ names s := by
        rw [hmain hargs]
        refine @twalk_inv
          (fun st => ∀ s ∈ st.sets, ∀ f ∈ s, ∀ r ∈ regsArgs args,
            fullBytes w r.path = fullBytes w f.name → r.path ∈ names s)
          (action w) (fun nd => nd ∈ root) ?_ root (fun nd hnd => hnd) St.init
          (by simp [St.init])
        intro nd st hnd hi
        unfold action
        split_ifs
        · obtain ⟨l1, ho, _, hgood, _, hclosed⟩ := class_opened hroot H hnd
          unfold compare
          rw [ho]
          exact maximal_compareblock w _ _ _ st ⟨0, hgood, hclosed⟩ hi
        · simpa using hi
      refine hmax s hs f hf r hr ?_
      unfold fullBytes
      rw [hcont]

/-- C2, at a sample input: the sample tree, in which `r/a` and `r/b` hold the
same three bytes. -/
theorem completeness_witness :
    statOkArgs exArgs = true ∧
    (regsArgs exArgs).Pairwise (fun a b => ¬ (a.dev = b.dev ∧ a.ino = b.ino)) ∧
    (∀ r ∈ regsArgs exArgs, (content exWorld r.path).map List.length = some r.size) ∧
    (∃ s ∈ (main exWorld exArgs).sets, "r/a" ∈ names s ∧ "r/b" ∈ names s) :=
  ⟨by decide, by decide, by decide,
   (completeness exWorld exArgs (by decide) (by decide) (by decide)).2.1
     ⟨"r/a", 1, 10, 3⟩ (by decide) ⟨"r/b", 1, 11, 3⟩ (by decide) (by decide) rfl
     (by decide)⟩

end Dups

namespace Dups

/-! ## readn on a fragmented stream -/

theorem readnLoop_arrived (n : Nat) : ∀ (d : Desc) (t : Nat) (a : List Nat), t ≤ n →
    (n - t ≤ (arrived d).1.length →
      (readnLoop n d t a).r = (n : Nat) ∧
      (readnLoop n d t a).bytes = a ++ (arrived d).1.take (n - t)) ∧
    ((arrived d).1.length < n - t → (arrived d).2 = false →
      (readnLoop n d t a).r = ((t + (arrived d).1.length : Nat) : Int) ∧
      (readnLoop n d t a).bytes = a ++ (arrived d).1) ∧
    ((arrived d).1.length < n - t → (arrived d).2 = true →
      (readnLoop n d t a).r = -1) := by
  intro d
  induction d with
  | nil =>
    intro t a ht
    simp only [arrived, readnLoop, List.length_nil, List.take_nil, List.append_nil]
    refine ⟨?_, ?_, ?_⟩
    · intro h
      have : t = n := by omega
      subst this
      simp
    · intro _ _; simp
    · intro _ h; simp at h
  | cons o rest ih =>
    intro t a ht
    unfold readnLoop
    by_cases h1 : t < n
    · rw [if_pos h1]
      cases o with
      | eintr => simpa [arrived] using ih t a ht
      | error =>
        simp only [arrived, List.length_nil]
        refine ⟨fun h => by omega, fun _ h => by simp at h, fun _ _ => by trivial⟩
      | eof =>
        simp only [arrived, List.length_nil]
        refine ⟨fun h => by omega, fun _ _ => by simp, fun _ h => by simp at h⟩
      | data c =>
        simp only []
        unfold arrived
        by_cases h2 : c.length = 0
        · rw [if_pos h2, if_pos h2]
          simp only [List.length_nil]
          refine ⟨fun h => by omega, fun _ _ => by simp, fun _ h => by simp at h⟩
        · rw [if_neg h2, if_neg h2]
          simp only [List.length_append]
          by_cases h3 : c.length ≤ n - t
          · rw [if_pos h3]
            obtain ⟨i1, i2, i3⟩ := ih (t + c.length) (a ++ c) (by omega)
            refine ⟨?_, ?_, ?_⟩
            · intro h
              obtain ⟨e1, e2⟩ := i1 (by omega)
              refine ⟨e1, ?_⟩
              rw [e2, List.take_append_eq_append_take, List.take_of_length_le h3,
                List.append_assoc]
              congr 3
              omega
            · intro h hf
              obtain ⟨e1, e2⟩ := i2 (by omega) hf
              refine ⟨?_, by rw [e2, List.append_assoc]⟩
              rw [e1]
              congr 1
              omega
            · intro h hf
              exact i3 (by omega) hf
          · rw [if_neg h3]
            refine ⟨?_, fun h => by omega, fun h => by omega⟩
            intro _
            refine ⟨by simp only []; congr 1; omega, ?_⟩
            simp only []
            rw [List.take_append_eq_append_take]
            have : n - t - c.length = 0 := by omega
            rw [this, List.take_zero, List.append_nil]
    · rw [if_neg h1]
      have h0 : n - t = 0 := by omega
      rw [h0]
      refine ⟨fun _ => ⟨by simp only []; congr 1; omega, by simp⟩, fun h => by omega,
        fun h => by omega⟩

/-- C19: on a descriptor given as a finite sequence of read outcomes,
`readn(fd, buf, n)` returns `n` with the first `n` bytes of the stream in the
buffer whenever at least `n` bytes arrive before the end of file or an error,
however they are fragmented and whatever interrupted calls come in between; it
returns the number of bytes received, fewer than `n`, with those bytes in the
buffer, when the end of file comes first; and it returns `-1` exactly when an
error other than `EINTR` comes before `n` bytes have arrived. -/
theorem readn_accumulates (d : Desc) (n : Nat) :
    (n ≤ (arrived d).1.length →
      (readn (some d) n).r = (n : Nat) ∧
      (readn (some d) n).bytes = (arrived d).1.take n) ∧
    ((arrived d).1.length < n → (arrived d).2 = false →
      (readn (some d) n).r = ((arrived d).1.length : Nat) ∧
      (readn (some d) n).bytes = (arrived d).1) ∧
    ((readn (some d) n).r = -1 ↔ (arrived d).1.length < n ∧ (arrived d).2 = true) := by
  obtain ⟨h1, h2, h3⟩ := readnLoop_arrived n d 0 [] (Nat.zero_le _)
  simp only [Nat.sub_zero, List.nil_append, Nat.zero_add] at h1 h2 h3
  refine ⟨h1, h2, ?_⟩
  constructor
  · intro hr
    by_cases hlen : n ≤ (arrived d).1.length
    · have := (h1 hlen).1
      unfold readn at hr
      simp only [] at hr
      rw [this] at hr
      omega
    · refine ⟨by omega, ?_⟩
      cases he : (arrived d).2 with
      | true => rfl
      | false =>
        have := (h2 (by omega) he).1
        unfold readn at hr
        simp only [] at hr
        rw [this] at hr
        omega
  · rintro ⟨hlen, he⟩
    exact h3 hlen he

/-- C19, at sample streams: five bytes asked of a stream that delivers six in
three pieces around two interrupted calls; five bytes asked of a stream that
ends after three; an error after two bytes. -/
theorem readn_accumulates_witness :
    5 ≤ (arrived [.data [1, 2], .eintr, .data [3], .eintr, .data [4, 5, 6]]).1.length ∧
    (readn (some [.data [1, 2], .eintr, .data [3], .eintr, .data [4, 5, 6]]) 5).bytes =
      [1, 2, 3, 4, 5] ∧
    (arrived [.data [1, 2], .eintr, .data [3], .eof, .data [4]]).1.length < 5 ∧
    (arrived [.data [1, 2], .eintr, .data [3], .eof, .data [4]]).2 = false ∧
    (readn (some [.data [1, 2], .eintr, .data [3], .eof, .data [4]]) 5).bytes = [1, 2, 3] ∧
    (readn (some [.data [1, 2], .error, .data [3, 4, 5]]) 5).r = -1 :=
  ⟨by decide,
   ((readn_accumulates [.data [1, 2], .eintr, .data [3], .eintr, .data [4, 5, 6]] 5).1
      (by decide)).2.trans (by decide),
   by decide, by decide,
   ((readn_accumulates [.data [1, 2], .eintr, .data [3], .eof, .data [4]] 5).2.1
      (by decide) (by decide)).2.trans (by decide),
   (readn_accumulates [.data [1, 2], .error, .data [3, 4, 5]] 5).2.2.mpr
      ⟨by decide, by decide⟩⟩

/-! ## The entry-name filter -/

/-- C15: for every directory entry name (a C string: no NUL inside), the test
at the top of the loop of `scan` skips the entry if and only if the name is
exactly "." or exactly ".."; names that merely start with a dot, such as
".a", "..a" or "...", are not skipped. -/
theorem entry_name_filter (d_name : String) (hnul : Char.ofNat 0 ∉ d_name.toList) :
    (isDotOrDotDot d_name = true ↔ d_name = "." ∨ d_name = "..") ∧
    isDotOrDotDot ".a" = false ∧ isDotOrDotDot "..a" = false ∧
    isDotOrDotDot "..." = false ∧ isDotOrDotDot "" = false := by
  refine ⟨?_, by decide, by decide, by decide, by decide⟩
  rcases d_name with ⟨l⟩
  have e1 : (String.mk l = ".") ↔ l = ['.'] := by
    constructor
    · intro h; exact congrArg String.data h
    · intro h; rw [h]
  have e2 : (String.mk l = "..") ↔ l = ['.', '.'] := by
    constructor
    · intro h; exact congrArg String.data h
    · intro h; rw [h]
  rw [e1, e2]
  simp only [String.toList] at hnul
  unfold isDotOrDotDot
  simp only [String.toList]
  match l, hnul with
  | [], _ => simp
  | [a], h =>
    simp only [List.mem_singleton] at h
    simp [List.getD]
  | [a, b], h =>
    simp only [List.mem_cons, List.mem_singleton, not_or] at h
    have hb : ¬ b = Char.ofNat 0 := fun hb => h.2.1 hb.symm
    simp [List.getD, hb]
  | a :: b :: c :: rest, h =>
    simp only [List.mem_cons, not_or] at h
    have hb : ¬ b = Char.ofNat 0 := fun hb => h.2.1 hb.symm
    have hc : ¬ c = Char.ofNat 0 := fun hc => h.2.2.1 hc.symm
    simp [List.getD, hb, hc]

/-- C15, at a sample name. -/
theorem entry_name_filter_witness :
    Char.ofNat 0 ∉ ("..").toList ∧ isDotOrDotDot ".." = true :=
  ⟨by decide, (entry_name_filter ".." (by decide)).1.mpr (Or.inr rfl)⟩

end Dups

namespace Dups

/-! ## Depth of the refinement -/

theorem levels_ceil (s : Nat) :
    levels s = (s + 8191) / 8192 ∧ s ≤ levels s * 8192 ∧ levels s * 8192 < s + 8192 := by
  unfold levels blksize
  refine ⟨rfl, ?_, ?_⟩ <;> omega

theorem levels_step {s : Nat} (h : 0 < s) : levels (s - window s) + 1 = levels s := by
  unfold levels window blksize
  split_ifs <;> omega

theorem twalk_congr {act1 act2 : Node → St → St} : ∀ (nodes : List Node),
    (∀ nd ∈ nodes, ∀ st, act1 nd st = act2 nd st) →
    ∀ st, twalk act1 nodes st = twalk act2 nodes st := by
  intro nodes
  induction nodes with
  | nil => intro _ st; rfl
  | cons nd rest ih =>
    intro h st
    unfold twalk
    rw [h nd (List.mem_cons_self _ _) st]
    simp only []
    split_ifs
    · exact ih (fun x hx => h x (List.mem_cons_of_mem _ hx)) _
    · rfl

theorem readWindows_status (size : Nat) : ∀ (l : List File) (st : St),
    (readWindows size l st).1.status = st.status ∨
    ∃ e, (readWindows size l st).1.status = .fatal e := by
  intro l
  induction l with
  | nil => intro st; left; rfl
  | cons p rest ih =>
    intro st
    rw [readWindows_cons]
    split_ifs
    · right; exact ⟨_, rfl⟩
    · right; exact ⟨_, rfl⟩
    · exact ih _

/-- The sub-groups of one level, whatever the reads delivered: one window
less to go. -/
theorem regroup_sizes {set : Node} {st : St} {newroot : List Node}
    (hrun : (readWindows set.size set.head st).1.status = .running)
    (hg : regroup set.size (readWindows set.size set.head st).2 [] = .ok newroot) :
    ∀ nd ∈ newroot, nd.size = set.size - window set.size := by
  intro nd hnd
  obtain ⟨_, e2, _, _⟩ := readWindows_running _ _ _ hrun
  rw [e2] at hg
  refine (regroup_nodes (k := window set.size) ?_ hg nd hnd).2.2
  intro p hp
  obtain ⟨q, _, rfl⟩ := List.mem_map.mp hp
  rfl

/-- Enough fuel: any two numbers of levels not below `levels set.size` give
the same run. -/
theorem compareblock_fuel : ∀ (fuel fuel1 : Nat) (set : Node) (st : St),
    levels set.size ≤ fuel → levels set.size ≤ fuel1 →
    compareblock fuel set st = compareblock fuel1 set st := by
  intro fuel
  induction fuel with
  | zero =>
    intro fuel1 set st h _
    have h0 : set.size = 0 := by
      by_contra hne
      have := levels_pos hne
      omega
    rw [compareblock_zero_size _ _ _ h0, compareblock_zero_size _ _ _ h0]
  | succ fuel ih =>
    intro fuel1 set st h h1
    by_cases h0 : set.size = 0
    · rw [compareblock_zero_size _ _ _ h0, compareblock_zero_size _ _ _ h0]
    · cases fuel1 with
      | zero =>
        have := levels_pos h0
        omega
      | succ fuel1 =>
        rw [compareblock_succ fuel set st h0, compareblock_succ fuel1 set st h0]
        split_ifs with hrun
        · cases hg : regroup set.size (readWindows set.size set.head st).2 [] with
          | error e => rfl
          | ok newroot =>
            simp only []
            refine twalk_congr newroot ?_ _
            intro nd hnd st1
            unfold newaction
            split_ifs
            · have hsz := regroup_sizes hrun hg nd hnd
              exact ih fuel1 nd st1 (by rw [hsz]; exact levels_sub h)
                (by rw [hsz]; exact levels_sub h1)
            · rfl
        · rfl

/-- With `levels set.size` levels to descend the refinement never runs out
of them. -/
theorem compareblock_never_nofuel : ∀ (fuel : Nat) (set : Node) (st : St),
    levels set.size ≤ fuel → st.status ≠ .nofuel →
    (compareblock fuel set st).status ≠ .nofuel := by
  intro fuel
  induction fuel with
  | zero =>
    intro set st h hst
    have h0 : set.size = 0 := by
      by_contra hne
      have := levels_pos hne
      omega
    rw [compareblock_zero_size _ _ _ h0, emit_status]
    exact hst
  | succ fuel ih =>
    intro set st h hst
    by_cases h0 : set.size = 0
    · rw [compareblock_zero_size _ _ _ h0, emit_status]
      exact hst
    · rw [compareblock_succ fuel set st h0]
      have hrs : (readWindows set.size set.head st).1.status ≠ .nofuel := by
        rcases readWindows_status set.size set.head st with h1 | ⟨e, h1⟩
        · rw [h1]; exact hst
        · rw [h1]; simp
      split_ifs with hrun
      · cases hg : regroup set.size (readWindows set.size set.head st).2 [] with
        | error e => simp
        | ok newroot =>
          simp only []
          refine @twalk_inv (fun st => st.status ≠ .nofuel) (newaction (compareblock fuel))
            (fun nd => levels nd.size ≤ fuel) ?_ newroot ?_ _ hrs
          · intro nd st1 hnd hst1
            unfold newaction
            split_ifs
            · exact ih nd st1 hnd hst1
            · simpa using hst1
          · intro nd hnd
            rw [regroup_sizes hrun hg nd hnd]
            exact levels_sub h
      · exact hrs

/-- C12: for a group with remaining size s > 0 whose reads succeed, the level
consumes a window of min(8192, s) > 0 bytes from every member, every sub-group
has remaining exactly s minus that window and so one level less to go; the
number of levels of a group is ceil(s / 8192), and with that many levels (or
more) `compareblock` runs to its result without running out of levels. -/
theorem refinement_terminates (fuel : Nat) (set : Node) (st : St) (newroot : List Node)
    (hs : 0 < set.size)
    (hrun : (readWindows set.size set.head st).1.status = .running)
    (hg : regroup set.size (readWindows set.size set.head st).2 [] = .ok newroot)
    (hfuel : levels set.size ≤ fuel) :
    (0 < window set.size ∧ window set.size = min 8192 set.size) ∧
    (∀ p ∈ (readWindows set.size set.head st).2,
      p.bufsiz = window set.size ∧ p.win.length = window set.size) ∧
    (∀ nd ∈ newroot, nd.size = set.size - window set.size ∧ nd.size < set.size ∧
      levels nd.size + 1 = levels set.size) ∧
    (levels set.size = (set.size + 8191) / 8192 ∧ set.size ≤ levels set.size * 8192 ∧
      levels set.size * 8192 < set.size + 8192) ∧
    compareblock fuel set st = compareblock (levels set.size) set st ∧
    (st.status ≠ .nofuel → (compareblock fuel set st).status ≠ .nofuel) := by
  have hw := window_pos hs
  refine ⟨⟨hw, window_eq_min _⟩, ?_, ?_, levels_ceil _, ?_, ?_⟩
  · intro p hp
    obtain ⟨_, e2, _, e4⟩ := readWindows_running _ _ _ hrun
    rw [e2] at hp
    obtain ⟨q, hq, rfl⟩ := List.mem_map.mp hp
    exact ⟨rfl, readn_full (e4 q hq).1 (e4 q hq).2⟩
  · intro nd hnd
    have hsz := regroup_sizes hrun hg nd hnd
    refine ⟨hsz, by omega, ?_⟩
    rw [hsz]
    exact levels_step hs
  · exact compareblock_fuel fuel _ set st hfuel (le_refl _)
  · exact compareblock_never_nofuel fuel set st hfuel

/-- C12, at a sample input: a group of three remaining bytes, split in two
sub-groups of nothing left to read. -/
theorem refinement_terminates_witness :
    0 < (Node.mk 3 [File.mk "r/a" (some [.data [1, 2, 3]]) 1 10 (some []) 0,
                    File.mk "r/c" (some [.data [1, 2, 4]]) 1 12 (some []) 0] 2).size ∧
    (readWindows 3 [File.mk "r/a" (some [.data [1, 2, 3]]) 1 10 (some []) 0,
                    File.mk "r/c" (some [.data [1, 2, 4]]) 1 12 (some []) 0]
      St.init).1.status = .running ∧
    levels 3 ≤ 1 ∧
    (compareblock 1
      (Node.mk 3 [File.mk "r/a" (some [.data [1, 2, 3]]) 1 10 (some []) 0,
                  File.mk "r/c" (some [.data [1, 2, 4]]) 1 12 (some []) 0] 2)
      St.init).status ≠ .nofuel :=
  ⟨by decide, by decide, by decide,
   (refinement_terminates 1
      (Node.mk 3 [File.mk "r/a" (some [.data [1, 2, 3]]) 1 10 (some []) 0,
                  File.mk "r/c" (some [.data [1, 2, 4]]) 1 12 (some []) 0] 2)
      St.init
      [Node.mk 0 [File.mk "r/a" (some []) 1 10 (some [1, 2, 3]) 3] 1,
       Node.mk 0 [File.mk "r/c" (some []) 1 12 (some [1, 2, 4]) 3] 1]
      (by decide) (by decide) rfl (by decide)).2.2.2.2.2 (by decide)⟩

end Dups

namespace Dups

/-! ## One refinement level as a partition -/

theorem members_append (a b : List Node) : members (a ++ b) = members a ++ members b := by
  simp [members]

theorem members_cons (x : Node) (b : List Node) : members (x :: b) = x.head ++ members b := by
  simp [members]

theorem mem_members {t : List Node} {f : File} :
    f ∈ members t ↔ ∃ nd ∈ t, f ∈ nd.head := by
  unfold members
  rw [List.mem_flatten]
  constructor
  · rintro ⟨l, hl, hf⟩
    obtain ⟨nd, hnd, rfl⟩ := List.mem_map.mp hl
    exact ⟨nd, hnd, hf⟩
  · rintro ⟨nd, hnd, hf⟩
    exact ⟨nd.head, List.mem_map_of_mem _ hnd, hf⟩

/-- The call of `tsearch` and `insert` adds the file to the members of the
tree and changes nothing else. -/
theorem tsearchInsert_perm {compar : Node → Node → Int} {key : Node} {file : File}
    {t t1 : List Node} (hk : key.head = [file])
    (h : tsearchInsert compar key file t = .ok t1) :
    (members t1).Perm (file :: members t) := by
  obtain ⟨a, b, e1, _, h4⟩ := tsearchInsert_split compar key file t t1 h
  subst e1
  rcases h4 with ⟨x, x1, b1, e2, _, h6, e3⟩ | ⟨_, e3⟩
  · subst e2 e3
    have h7 := insertList_perm (insert_ok h6).1
    simp only [members_append, members_cons]
    have h8 : (x1.head ++ members b1).Perm (file :: (x.head ++ members b1)) := by
      have := h7.append_right (members b1)
      simpa using this
    exact (List.Perm.append_left _ h8).trans List.perm_middle
  · subst e3
    simp only [members_append, members_cons, hk]
    exact List.perm_middle

theorem regroup_perm (size : Nat) : ∀ (l : List File) (t t1 : List Node),
    regroup size l t = .ok t1 → (members t1).Perm (l ++ members t) := by
  intro l
  induction l with
  | nil =>
    intro t t1 h
    simp only [regroup, Except.ok.injEq] at h
    subst h
    simp
  | cons p q ih =>
    intro t t1 h
    unfold regroup at h
    cases hr : tsearchInsert filesetdatacmp ⟨size - p.bufsiz, [p], 1⟩ p t with
    | error e => simp [hr] at h
    | ok t2 =>
      simp only [hr] at h
      have h1 := ih t2 t1 h
      have h2 := tsearchInsert_perm rfl hr
      refine h1.trans ?_
      refine (List.Perm.append_left q h2).trans ?_
      simp

theorem classifyAll_perm : ∀ (rs : List Reg) (root root1 : List Node),
    classifyAll rs root = .ok root1 →
    (members root1).Perm (rs.map fileOf ++ members root) := by
  intro rs
  induction rs with
  | nil =>
    intro root root1 h
    simp only [classifyAll, Except.ok.injEq] at h
    subst h
    simp
  | cons r rs ih =>
    intro root root1 h
    unfold classifyAll at h
    cases hc : classify r.path r.dev r.ino r.size root with
    | error e => simp [hc] at h
    | ok root2 =>
      simp only [hc] at h
      have h1 := ih root2 root1 h
      have h2 : (members root2).Perm (fileOf r :: members root) := by
        unfold classify at hc
        exact tsearchInsert_perm rfl hc
      refine h1.trans ?_
      refine (List.Perm.append_left _ h2).trans ?_
      simp

/-- C13: one refinement level is an exact partition by window equality.  For
a group with remaining > 0 whose reads all succeed, with sub-groups built by
the regrouping loop: every member holds a full window, the bytes just read;
two members are in a common sub-group if and only if their windows are equal
byte for byte; every member is in one sub-group and no other, the sub-groups
together holding the members of the group, each once; and every sub-group's
remaining size is the parent's minus the window length, its `n` counting its
members. -/
theorem partition_by_window (set : Node) (st : St) (newroot : List Node)
    (hs : 0 < set.size)
    (hrun : (readWindows set.size set.head st).1.status = .running)
    (hg : regroup set.size (readWindows set.size set.head st).2 [] = .ok newroot) :
    (readWindows set.size set.head st).2 = set.head.map (readStep set.size) ∧
    (∀ p ∈ set.head,
      (readStep set.size p).win = (readn p.fd (min 8192 set.size)).bytes ∧
      (readStep set.size p).win.length = min 8192 set.size) ∧
    (∀ f ∈ set.head.map (readStep set.size), ∀ g ∈ set.head.map (readStep set.size),
      ((∃ nd ∈ newroot, f ∈ nd.head ∧ g ∈ nd.head) ↔ f.win = g.win)) ∧
    (∀ f ∈ set.head.map (readStep set.size),
      ∃ nd ∈ newroot, f ∈ nd.head ∧ ∀ nd1 ∈ newroot, f ∈ nd1.head → nd1 = nd) ∧
    (members newroot).Perm (set.head.map (readStep set.size)) ∧
    (∀ nd ∈ newroot, nd.size = set.size - min 8192 set.size ∧ nd.size < set.size ∧
      nd.n = nd.head.length ∧ nd.head ≠ []) := by
  obtain ⟨_, e2, _, e4⟩ := readWindows_running _ _ _ hrun
  rw [e2] at hg
  have hw := window_pos hs
  rw [← window_eq_min]
  have hL : ∀ p ∈ set.head.map (readStep set.size),
      p.bufsiz = window set.size ∧ p.win.length = window set.size := by
    intro p hp
    obtain ⟨q, hq, rfl⟩ := List.mem_map.mp hp
    exact ⟨rfl, readn_full (e4 q hq).1 (e4 q hq).2⟩
  have hwt : WinTree (window set.size) newroot :=
    regroup_WinTree set.size (window set.size) _ [] newroot
      ⟨List.Pairwise.nil, by simp⟩ hL hg
  have hmem := regroup_mem _ _ _ _ hg
  have hnodes := regroup_nodes (fun p hp => (hL p hp).1) hg
  have hone : ∀ f, ∀ nd ∈ newroot, ∀ nd1 ∈ newroot, f ∈ nd.head → f ∈ nd1.head →
      nd1 = nd := by
    intro f nd hnd nd1 hnd1 hf hf1
    have h1 := ((hwt.2 nd hnd).2 f hf).2.2
    have h2 := ((hwt.2 nd1 hnd1).2 f hf1).2.2
    exact hwt.unique hnd1 hnd (by rw [← h1, ← h2])
  refine ⟨e2, ?_, ?_, ?_, ?_, ?_⟩
  · intro p hp
    exact ⟨rfl, (hL _ (List.mem_map_of_mem _ hp)).2⟩
  · intro f hf g hg1
    constructor
    · rintro ⟨nd, hnd, hfn, hgn⟩
      rw [((hwt.2 nd hnd).2 f hfn).2.2, ((hwt.2 nd hnd).2 g hgn).2.2]
    · intro hwin
      obtain ⟨ndf, hndf, hinf⟩ := hmem.2.1 f hf
      obtain ⟨ndg, hndg, hing⟩ := hmem.2.1 g hg1
      have h1 := ((hwt.2 ndf hndf).2 f hinf).2.2
      have h2 := ((hwt.2 ndg hndg).2 g hing).2.2
      have : ndf = ndg := hwt.unique hndf hndg (by rw [← h1, ← h2, hwin])
      subst this
      exact ⟨ndf, hndf, hinf, hing⟩
  · intro f hf
    obtain ⟨nd, hnd, hin⟩ := hmem.2.1 f hf
    exact ⟨nd, hnd, hin, fun nd1 hnd1 hf1 => hone f nd hnd nd1 hnd1 hin hf1⟩
  · simpa [members] using regroup_perm _ _ _ _ hg
  · intro nd hnd
    obtain ⟨_, h2, h3⟩ := hnodes nd hnd
    exact ⟨h3, by omega, h2, (hwt.2 nd hnd).1⟩

/-- C13, at a sample input: three members of three remaining bytes, two of
them with the same window. -/
theorem partition_by_window_witness :
    0 < (Node.mk 3 [File.mk "r/a" (some [.data [1, 2, 3]]) 1 10 (some []) 0,
                    File.mk "r/b" (some [.data [1, 2], .eintr, .data [3]]) 1 11 (some []) 0,
                    File.mk "r/c" (some [.data [1, 2, 4]]) 1 12 (some []) 0] 3).size ∧
    (readWindows 3 [File.mk "r/a" (some [.data [1, 2, 3]]) 1 10 (some []) 0,
                    File.mk "r/b" (some [.data [1, 2], .eintr, .data [3]]) 1 11 (some []) 0,
                    File.mk "r/c" (some [.data [1, 2, 4]]) 1 12 (some []) 0]
      St.init).1.status = .running ∧
    (members [Node.mk 0 [File.mk "r/a" (some []) 1 10 (some [1, 2, 3]) 3,
                         File.mk "r/b" (some []) 1 11 (some [1, 2, 3]) 3] 2,
              Node.mk 0 [File.mk "r/c" (some []) 1 12 (some [1, 2, 4]) 3] 1]).Perm
      ([File.mk "r/a" (some [.data [1, 2, 3]]) 1 10 (some []) 0,
        File.mk "r/b" (some [.data [1, 2], .eintr, .data [3]]) 1 11 (some []) 0,
        File.mk "r/c" (some [.data [1, 2, 4]]) 1 12 (some []) 0].map (readStep 3)) :=
  ⟨by decide, by decide,
   (partition_by_window
      (Node.mk 3 [File.mk "r/a" (some [.data [1, 2, 3]]) 1 10 (some []) 0,
                  File.mk "r/b" (some [.data [1, 2], .eintr, .data [3]]) 1 11 (some []) 0,
                  File.mk "r/c" (some [.data [1, 2, 4]]) 1 12 (some []) 0] 3)
      St.init
      [Node.mk 0 [File.mk "r/a" (some []) 1 10 (some [1, 2, 3]) 3,
                  File.mk "r/b" (some []) 1 11 (some [1, 2, 3]) 3] 2,
       Node.mk 0 [File.mk "r/c" (some []) 1 12 (some [1, 2, 4]) 3] 1]
      (by decide) (by decide) rfl).2.2.2.2.1⟩

end Dups

namespace Dups

/-! ## What the walker hands to the classifier -/

mutual
theorem scanEntry_with : ∀ (e : Ent) (dir : String) (root : List Node),
    scanEntry dir e root = scanEntryWith classify dir e root
  | .reg name dev ino size, dir, root => by
    unfold scanEntry scanEntryWith
    rfl
  | .dir name listable entries, dir, root => by
    unfold scanEntry scanEntryWith
    rw [scanLoop_with entries (mkpath dir name) root]
  | .other name, dir, root => by
    unfold scanEntry scanEntryWith
    rfl
  | .nostat name, dir, root => by
    unfold scanEntry scanEntryWith
    rfl
theorem scanLoop_with : ∀ (es : List Ent) (dir : String) (root : List Node),
    scanLoop dir es root = scanLoopWith classify dir es root
  | [], dir, root => by
    unfold scanLoop scanLoopWith
    rfl
  | e :: es, dir, root => by
    unfold scanLoop scanLoopWith
    rw [scanEntry_with e dir root]
    cases scanEntryWith classify dir e root with
    | error err => rfl
    | ok root1 => exact scanLoop_with es dir root1
end

theorem feedAll_append {σ : Type} (cls : String → Nat → Nat → Nat → σ → Except Err σ) :
    ∀ (xs ys : List Reg) (s : σ),
    feedAll cls (xs ++ ys) s =
      match feedAll cls xs s with
      | .ok s1 => feedAll cls ys s1
      | .error e => .error e := by
  intro xs
  induction xs with
  | nil => intro ys s; rfl
  | cons r rs ih =>
    intro ys s
    simp only [List.cons_append, feedAll]
    cases cls r.path r.dev r.ino r.size s with
    | error e => rfl
    | ok s1 => exact ih ys s1

mutual
theorem scanEntryWith_feed {σ : Type} (cls : String → Nat → Nat → Nat → σ → Except Err σ) :
    ∀ (e : Ent) (dir : String) (s : σ),
    (statOkEntry e = true →
      scanEntryWith cls dir e s = feedAll cls (regsEntry dir e) s) ∧
    (∀ s1, scanEntryWith cls dir e s = .ok s1 → feedAll cls (regsEntry dir e) s = .ok s1)
  | .reg name dev ino size, dir, s => by
    unfold scanEntryWith regsEntry
    split_ifs
    · exact ⟨fun _ => rfl, fun s1 h => h⟩
    · simp only [feedAll]
      cases cls (mkpath dir name) dev ino size s with
      | error e => exact ⟨fun _ => rfl, fun s1 h => by simp at h⟩
      | ok s2 => exact ⟨fun _ => rfl, fun s1 h => h⟩
  | .dir name listable entries, dir, s => by
    unfold scanEntryWith regsEntry statOkEntry
    split_ifs with h1 h2
    · exact ⟨fun _ => rfl, fun s1 h => h⟩
    · obtain ⟨i1, i2⟩ := scanLoopWith_feed cls entries (mkpath dir name) s
      exact ⟨fun h => i1 (by simpa [h1, h2] using h), i2⟩
    · exact ⟨fun _ => rfl, fun s1 h => h⟩
  | .other name, dir, s => by
    unfold scanEntryWith regsEntry
    exact ⟨fun _ => rfl, fun s1 h => h⟩
  | .nostat name, dir, s => by
    unfold scanEntryWith regsEntry statOkEntry
    split_ifs with h1
    · exact ⟨fun _ => rfl, fun s1 h => h⟩
    · exact ⟨fun h => absurd h h1, fun s1 h => by simp at h⟩
theorem scanLoopWith_feed {σ : Type} (cls : String → Nat → Nat → Nat → σ → Except Err σ) :
    ∀ (es : List Ent) (dir : String) (s : σ),
    (statOkList es = true →
      scanLoopWith cls dir es s = feedAll cls (regsList dir es) s) ∧
    (∀ s1, scanLoopWith cls dir es s = .ok s1 → feedAll cls (regsList dir es) s = .ok s1)
  | [], dir, s => by
    unfold scanLoopWith regsList
    exact ⟨fun _ => rfl, fun s1 h => h⟩
  | e :: es, dir, s => by
    unfold scanLoopWith regsList statOkList
    rw [feedAll_append]
    obtain ⟨i1, i2⟩ := scanEntryWith_feed cls e dir s
    constructor
    · intro h
      simp only [Bool.and_eq_true] at h
      rw [i1 h.1]
      cases feedAll cls (regsEntry dir e) s with
      | error err => rfl
      | ok s2 => exact (scanLoopWith_feed cls es dir s2).1 h.2
    · intro s1 h
      cases hr : scanEntryWith cls dir e s with
      | error err => simp [hr] at h
      | ok s2 =>
        simp only [hr] at h
        rw [i2 s2 hr]
        exact (scanLoopWith_feed cls es dir s2).2 s1 h
end

theorem feedAll_noteReg : ∀ (rs log : List Reg),
    feedAll noteReg rs log = .ok (log ++ rs) := by
  intro rs
  induction rs with
  | nil => intro log; simp [feedAll]
  | cons r rs ih =>
    intro log
    simp only [feedAll, noteReg]
    rw [ih]
    simp

theorem Reaches.of_subset {dir : String} {es es1 : List Ent} {r : Reg}
    (h : Reaches dir es r) (hsub : ∀ e ∈ es, e ∈ es1) : Reaches dir es1 r := by
  cases h with
  | file hm hd => exact Reaches.file (hsub _ hm) hd
  | sub hm hd hr => exact Reaches.sub (hsub _ hm) hd hr

mutual
theorem regsEntry_reach : ∀ (e : Ent) (dir : String) (r : Reg),
    r ∈ regsEntry dir e → ∀ es, e ∈ es → Reaches dir es r
  | .reg name dev ino size, dir, r, h, es, hm => by
    unfold regsEntry at h
    split_ifs at h with h1
    · simp at h
    · simp only [List.mem_singleton] at h
      subst h
      exact Reaches.file hm (by simpa using h1)
  | .dir name listable entries, dir, r, h, es, hm => by
    unfold regsEntry at h
    split_ifs at h with h1 h2
    · simp at h
    · subst h2
      exact Reaches.sub hm (by simpa using h1)
        (regsList_reach entries (mkpath dir name) r h)
    · simp at h
  | .other name, dir, r, h, es, hm => by
    unfold regsEntry at h
    simp at h
  | .nostat name, dir, r, h, es, hm => by
    unfold regsEntry at h
    simp at h
theorem regsList_reach : ∀ (es : List Ent) (dir : String) (r : Reg),
    r ∈ regsList dir es → Reaches dir es r
  | [], dir, r, h => by
    unfold regsList at h
    simp at h
  | e :: es, dir, r, h => by
    unfold regsList at h
    rcases List.mem_append.mp h with h1 | h1
    · exact regsEntry_reach e dir r h1 (e :: es) (List.mem_cons_self _ _)
    · exact (regsList_reach es dir r h1).of_subset (fun x hx => List.mem_cons_of_mem _ hx)
end

theorem mem_regsList_of_entry (dir : String) (r : Reg) (e : Ent) :
    ∀ (es : List Ent), e ∈ es → r ∈ regsEntry dir e → r ∈ regsList dir es := by
  intro es
  induction es with
  | nil => intro h; simp at h
  | cons x rest ih =>
    intro h hr
    unfold regsList
    rcases List.mem_cons.mp h with h1 | h1
    · subst h1; exact List.mem_append.mpr (Or.inl hr)
    · exact List.mem_append.mpr (Or.inr (ih h1 hr))

theorem reach_regsList {dir : String} {es : List Ent} {r : Reg} (h : Reaches dir es r) :
    r ∈ regsList dir es := by
  induction h with
  | file hm hd =>
    refine mem_regsList_of_entry _ _ _ _ hm ?_
    unfold regsEntry
    simp [hd]
  | sub hm hd _ ih =>
    refine mem_regsList_of_entry _ _ _ _ hm ?_
    unfold regsEntry
    simp [hd, ih]

/-- C14: `scan` is the walker with `classify` as what is done with a regular
file; whatever that is, the walker hands it, in order and each entry once,
the list `regsList` of a tree on which no `fstatat` fails (and of any tree on
which the walk comes to its end), as the noting classifier shows; that list
holds exactly the regular files reachable through directories that can be
listed, each with the path of its directory, a '/', and its name; a directory
that cannot be opened, and an entry that is neither a regular file nor a
directory, contribute nothing and leave the scan of the following entries as
it is. -/
theorem walker_coverage {σ : Type} (cls : String → Nat → Nat → Nat → σ → Except Err σ)
    (dir : String) (es : List Ent) (s : σ) (hstat : statOkList es = true) :
    (∀ root, scanLoop dir es root = scanLoopWith classify dir es root) ∧
    scanLoopWith cls dir es s = feedAll cls (regsList dir es) s ∧
    scanLoopWith noteReg dir es [] = .ok (regsList dir es) ∧
    (∀ (es1 : List Ent) (s1 : σ), scanLoopWith cls dir es1 s = .ok s1 →
      feedAll cls (regsList dir es1) s = .ok s1) ∧
    (∀ (es1 : List Ent) (r : Reg), r ∈ regsList dir es1 ↔ Reaches dir es1 r) ∧
    (∀ (name : String) (dev ino size : Nat), isDotOrDotDot name = false →
      regsList dir (.reg name dev ino size :: es) =
        ⟨mkpath dir name, dev, ino, size⟩ :: regsList dir es) ∧
    (∀ (name : String) (entries : List Ent), isDotOrDotDot name = false →
      regsList dir (.dir name true entries :: es) =
        regsList (mkpath dir name) entries ++ regsList dir es) ∧
    (∀ (name : String) (entries : List Ent),
      regsList dir (.dir name false entries :: es) = regsList dir es ∧
      scanLoopWith cls dir (.dir name false entries :: es) s = scanLoopWith cls dir es s) ∧
    (∀ (name : String),
      regsList dir (.other name :: es) = regsList dir es ∧
      scanLoopWith cls dir (.other name :: es) s = scanLoopWith cls dir es s) := by
  refine ⟨fun root => scanLoop_with es dir root, (scanLoopWith_feed cls es dir s).1 hstat,
    ?_, fun es1 s1 h => (scanLoopWith_feed cls es1 dir s).2 s1 h,
    fun es1 r => ⟨regsList_reach es1 dir r, reach_regsList⟩, ?_, ?_, ?_, ?_⟩
  · rw [(scanLoopWith_feed noteReg es dir []).1 hstat, feedAll_noteReg]
    simp
  · intro name dev ino size hd
    rw [regsList, regsEntry]
    simp [hd]
  · intro name entries hd
    rw [regsList, regsEntry]
    simp [hd]
  · intro name entries
    constructor
    · rw [regsList, regsEntry]
      simp
    · rw [scanLoopWith, scanEntryWith]
      split_ifs with h1 h2
      · rfl
      · exact absurd h2 (by simp)
      · rfl
  · intro name
    constructor
    · rw [regsList, regsEntry]
      simp
    · rw [scanLoopWith, scanEntryWith]

/-- C14, at a sample input: the entries of the sample tree. -/
theorem walker_coverage_witness :
    statOkList
      [.reg "a" 1 10 3, .reg "c" 1 12 3, .dir "d" true [.reg "e2" 1 5 0],
       .reg "b" 1 11 3, .reg "e1" 1 4 0, .reg "u" 1 99 7, .other "l"] = true ∧
    scanLoopWith noteReg "r"
      [.reg "a" 1 10 3, .reg "c" 1 12 3, .dir "d" true [.reg "e2" 1 5 0],
       .reg "b" 1 11 3, .reg "e1" 1 4 0, .reg "u" 1 99 7, .other "l"] [] =
      .ok (regsList "r"
        [.reg "a" 1 10 3, .reg "c" 1 12 3, .dir "d" true [.reg "e2" 1 5 0],
         .reg "b" 1 11 3, .reg "e1" 1 4 0, .reg "u" 1 99 7, .other "l"]) ∧
    regsList "r"
      [.reg "a" 1 10 3, .reg "c" 1 12 3, .dir "d" true [.reg "e2" 1 5 0],
       .reg "b" 1 11 3, .reg "e1" 1 4 0, .reg "u" 1 99 7, .other "l"] =
      [⟨"r/a", 1, 10, 3⟩, ⟨"r/c", 1, 12, 3⟩, ⟨"r/d/e2", 1, 5, 0⟩, ⟨"r/b", 1, 11, 3⟩,
       ⟨"r/e1", 1, 4, 0⟩, ⟨"r/u", 1, 99, 7⟩] :=
  ⟨by decide,
   (walker_coverage classify "r"
      [.reg "a" 1 10 3, .reg "c" 1 12 3, .dir "d" true [.reg "e2" 1 5 0],
       .reg "b" 1 11 3, .reg "e1" 1 4 0, .reg "u" 1 99 7, .other "l"] [] (by decide)).2.2.1,
   by decide⟩

end Dups

namespace Dups

/-! ## Every member printed at most once, released once -/

theorem subperm_append {α : Type} {a b c d : List α} (h1 : List.Subperm a b)
    (h2 : List.Subperm c d) : List.Subperm (a ++ c) (b ++ d) :=
  ((List.subperm_append_right c).mpr h1).trans ((List.subperm_append_left b).mpr h2)

theorem subperm_map {α β : Type} (f : α → β) {a b : List α} (h : List.Subperm a b) :
    List.Subperm (a.map f) (b.map f) := by
  obtain ⟨l, hp, hs⟩ := h
  exact ⟨l.map f, hp.map f, hs.map f⟩

theorem nodup_of_subperm {α : Type} {a b : List α} (h : List.Subperm a b) (hb : b.Nodup) :
    a.Nodup := by
  obtain ⟨l, hp, hs⟩ := h
  exact hp.nodup_iff.mp (hb.sublist hs)

theorem map_key_readStep (size : Nat) (l : List File) :
    (l.map (readStep size)).map File.key = l.map File.key := by
  rw [List.map_map]
  rfl

/-- What a walk prints, whatever happens: sets of members of the nodes walked,
no member twice. -/
theorem twalk_printed (act : Node → St → St) : ∀ (nodes : List Node),
    (∀ nd ∈ nodes, ∀ st, ∃ new, (act nd st).sets = st.sets ++ new ∧
      List.Subperm (new.flatten.map File.key) (nd.head.map File.key)) →
    ∀ st, ∃ new, (twalk act nodes st).sets = st.sets ++ new ∧
      List.Subperm (new.flatten.map File.key) ((members nodes).map File.key) := by
  intro nodes
  induction nodes with
  | nil => intro _ st; exact ⟨[], by simp [twalk], by simp⟩
  | cons nd rest ih =>
    intro h st
    obtain ⟨new1, h1, h2⟩ := h nd (List.mem_cons_self _ _) st
    unfold twalk
    simp only []
    rw [members_cons, List.map_append]
    split_ifs
    · obtain ⟨new2, h3, h4⟩ := ih (fun x hx => h x (List.mem_cons_of_mem _ hx)) (act nd st)
      refine ⟨new1 ++ new2, by rw [h3, h1, List.append_assoc], ?_⟩
      rw [List.flatten_append, List.map_append]
      exact subperm_append h2 h4
    · refine ⟨new1, h1, h2.trans ?_⟩
      exact (List.sublist_append_left _ _).subperm

/-- What `compareblock` prints, whatever happens: sets of members of the
group, no member twice. -/
theorem compareblock_printed : ∀ (fuel : Nat) (set : Node) (st : St),
    ∃ new, (compareblock fuel set st).sets = st.sets ++ new ∧
      List.Subperm (new.flatten.map File.key) (set.head.map File.key) := by
  intro fuel
  induction fuel with
  | zero =>
    intro set st
    unfold compareblock
    split_ifs
    · exact ⟨[set.head], emit_sets set st, by simp [List.Subperm.refl]⟩
    · exact ⟨[], by simp, by simp⟩
  | succ fuel ih =>
    intro set st
    by_cases h0 : set.size = 0
    · rw [compareblock_zero_size _ _ _ h0]
      exact ⟨[set.head], emit_sets set st, by simp [List.Subperm.refl]⟩
    · rw [compareblock_succ fuel set st h0]
      have hsets := (readWindows_fields set.size set.head st).1
      split_ifs with hrun
      · obtain ⟨_, e2, _, _⟩ := readWindows_running _ _ _ hrun
        cases hg : regroup set.size (readWindows set.size set.head st).2 [] with
        | error e => exact ⟨[], by simp [hsets], by simp⟩
        | ok newroot =>
          simp only []
          obtain ⟨new, h1, h2⟩ := twalk_printed (newaction (compareblock fuel)) newroot (by
            intro nd _ st1
            unfold newaction
            split_ifs
            · exact ih nd st1
            · exact ⟨[], by simp, by simp⟩) (readWindows set.size set.head st).1
          refine ⟨new, by rw [h1, hsets], h2.trans ?_⟩
          rw [e2] at hg
          have hp := (regroup_perm _ _ _ _ hg).map File.key
          simp only [members, List.map_nil, List.flatten_nil, List.append_nil] at hp
          rw [map_key_readStep] at hp
          exact hp.subperm
      · exact ⟨[], by simp [hsets], by simp⟩

theorem action_printed (w : World) (set : Node) (st : St) :
    ∃ new, (action w set st).sets = st.sets ++ new ∧
      List.Subperm (new.flatten.map File.key) (set.head.map File.key) := by
  unfold action
  split_ifs
  · unfold compare
    cases ho : openAll w set.head with
    | none => exact ⟨[], by simp, by simp⟩
    | some l =>
      obtain ⟨new, h1, h2⟩ := compareblock_printed (levels set.size) { set with head := l } st
      exact ⟨new, h1, h2.trans (openAll_sub w _ _ _ (le_refl _) ho).1.subperm⟩
  · exact ⟨[], by simp, by simp⟩

/-- The records printed in a whole run are records of scanned files, none
twice. -/
theorem main_printed (w : World) (args : List Arg) :
    List.Subperm ((main w args).sets.flatten.map File.key)
      ((regsArgs args).map (fun r => (fileOf r).key)) := by
  by_cases hok : ∃ root, scanArgs args [] = .ok root
  · obtain ⟨root, hroot⟩ := hok
    have hperm := classifyAll_perm _ _ _ (scanArgs_ok args [] root hroot)
    simp only [members, List.map_nil, List.flatten_nil, List.append_nil] at hperm
    have hk : ((members root).map File.key).Perm
        ((regsArgs args).map (fun r => (fileOf r).key)) := by
      have := hperm.map File.key
      rwa [List.map_map] at this
    unfold main
    split_ifs
    · simp [St.init]
    · rw [hroot]
      simp only []
      obtain ⟨new, h1, h2⟩ := twalk_printed (action w) root
        (fun nd _ st => action_printed w nd st) St.init
      rw [h1]
      simp only [St.init, List.nil_append]
      exact h2.trans hk.subperm
  · rw [(main_sets_of_not_ok w args (fun root h => hok ⟨root, h⟩)).1]
    simp

/-- What a walk that runs to its end releases: piece by piece what every
step releases. -/
theorem twalk_freed (act : Node → St → St) : ∀ (nodes : List Node),
    (∀ nd ∈ nodes, ∀ st, st.status = .running →
      (act nd st).status = .running ∧
      ∃ fr, (act nd st).freed = st.freed ++ fr ∧
        (fr.map File.key).Perm (nd.head.map File.key)) →
    ∀ st, st.status = .running →
      (twalk act nodes st).status = .running ∧
      ∃ fr, (twalk act nodes st).freed = st.freed ++ fr ∧
        (fr.map File.key).Perm ((members nodes).map File.key) := by
  intro nodes
  induction nodes with
  | nil => intro _ st hst; exact ⟨hst, [], by simp [twalk], by simp [members]⟩
  | cons nd rest ih =>
    intro h st hst
    obtain ⟨h1, fr1, h2, h3⟩ := h nd (List.mem_cons_self _ _) st hst
    obtain ⟨h4, fr2, h5, h6⟩ :=
      ih (fun x hx => h x (List.mem_cons_of_mem _ hx)) (act nd st) h1
    have htw : twalk act (nd :: rest) st = twalk act rest (act nd st) := by
      rw [twalk]
      simp only [h1, if_true]
    rw [htw, members_cons, List.map_append]
    refine ⟨h4, fr1 ++ fr2, by rw [h5, h2, List.append_assoc], ?_⟩
    rw [List.map_append]
    exact h3.append h6

theorem putsAll_freed : ∀ (l : List File) (st : St),
    (putsAll l st).freed = st.freed ++ l := by
  intro l
  induction l with
  | nil => intro st; simp [putsAll]
  | cons p rest ih =>
    intro st
    unfold putsAll
    rw [ih]
    simp [filefree]

theorem emit_freed (set : Node) (st : St) : (emit set st).freed = st.freed ++ set.head := by
  unfold emit
  simp only []
  rw [putsAll_freed]
  split_ifs <;> rfl

/-- A good, sorted group refined to its end: every member is released once. -/
theorem freed_compareblock (w : World) : ∀ (fuel : Nat) (set : Node) (st : St) (off : Nat),
    levels set.size ≤ fuel → GoodGroup w off set → SortedFiles set.head →
    st.status = .running →
    (compareblock fuel set st).status = .running ∧
    ∃ fr, (compareblock fuel set st).freed = st.freed ++ fr ∧
      (fr.map File.key).Perm (set.head.map File.key) := by
  intro fuel
  induction fuel with
  | zero =>
    intro set st off hf hg hs hst
    have h0 : set.size = 0 := by
      by_contra hne
      have := levels_pos hne
      omega
    rw [compareblock_zero_size 0 set st h0]
    exact ⟨by rw [emit_status]; exact hst, set.head, emit_freed set st, List.Perm.refl _⟩
  | succ fuel ih =>
    intro set st off hf hg hs hst
    by_cases h0 : set.size = 0
    · rw [compareblock_zero_size _ set st h0]
      exact ⟨by rw [emit_status]; exact hst, set.head, emit_freed set st, List.Perm.refl _⟩
    · have hfull : ∀ p ∈ set.head, ¬ (readn p.fd (window set.size)).r = -1 ∧
          ¬ (readn p.fd (window set.size)).r < (window set.size : Nat) := by
        intro p hp
        rw [(good_step (hg.1 p hp)).1]
        constructor <;> omega
      have hrun := readWindows_ok set.size set.head st hst hfull
      obtain ⟨_, e2, _, _⟩ := readWindows_running _ _ _ hrun
      have hfr := (readWindows_fields set.size set.head st).2.2.2
      have hsl : SortedFiles (set.head.map (readStep set.size)) :=
        SortedFiles_map_readStep _ hs
      obtain ⟨newroot, hr⟩ := regroup_ok set.size _ [] (IdNe_of_sorted hsl) (by simp)
      rw [compareblock_succ fuel set st h0, if_pos hrun, e2, hr]
      simp only []
      have hL : ∀ p ∈ set.head.map (readStep set.size), p.bufsiz = window set.size := by
        intro p hp
        obtain ⟨q, _, rfl⟩ := List.mem_map.mp hp
        rfl
      have hnodes := regroup_nodes hL hr
      have hwt : ∀ nd ∈ newroot, nd.head ≠ [] := by
        intro nd hnd hnil
        have := (regroup_forall (fun nd => nd.head ≠ []) set.size _ [] newroot hr
          (by simp) (fun p _ => by simp) (by
            intro p _ x x1 _ _ hi hnil1
            have := insertList_length (insert_ok hi).1
            rw [hnil1] at this
            simp at this)) nd hnd
        exact this hnil
      obtain ⟨h4, fr, h5, h6⟩ := twalk_freed (newaction (compareblock fuel)) newroot (by
        intro nd hnd st1 hst1
        obtain ⟨hsn, hn, hsz⟩ := hnodes nd hnd
        unfold newaction
        split_ifs with hgt
        · exact ih nd st1 (off + window set.size)
            (by rw [hsz]; exact levels_sub hf) (good_sub hg hr nd hnd) hsn hst1
        · have hne := hwt nd hnd
          cases hh : nd.head with
          | nil => exact absurd hh hne
          | cons a t =>
            have ht : t = [] := by
              rw [hh] at hn
              simp only [List.length_cons] at hn
              have : t.length = 0 := by omega
              exact List.length_eq_zero.mp this
            subst ht
            exact ⟨by simpa using hst1, [a], by simp [filefree], List.Perm.refl _⟩) _ hrun
      refine ⟨h4, fr, by rw [h5, hfr], h6.trans ?_⟩
      have hp := (regroup_perm _ _ _ _ hr).map File.key
      simp only [members, List.map_nil, List.flatten_nil, List.append_nil] at hp
      rw [map_key_readStep] at hp
      exact hp

/-- C18: no file is reported twice and none is lost.  For a group passed to
`compareblock` whose reads all succeed, the run goes on, every member is
released exactly once, and the sets printed hold members of the group, none
of them twice, within a set or in two sets; over a whole run the records
printed are records of scanned files, none twice, so that when no two scanned
files go by one path every path is printed at most once and the emitted sets
are pairwise disjoint. -/
theorem no_double_report (w : World) (args : List Arg) (fuel : Nat) (set : Node) (st : St)
    (off : Nat) (hfuel : levels set.size ≤ fuel) (hg : GoodGroup w off set)
    (hs : SortedFiles set.head) (hst : st.status = .running) :
    ((compareblock fuel set st).status = .running ∧
      ∃ new fr, (compareblock fuel set st).sets = st.sets ++ new ∧
        (compareblock fuel set st).freed = st.freed ++ fr ∧
        (fr.map File.key).Perm (set.head.map File.key) ∧
        List.Subperm (new.flatten.map File.key) (set.head.map File.key) ∧
        (new.flatten.map File.key).Nodup ∧ (fr.map File.key).Nodup) ∧
    List.Subperm ((main w args).sets.flatten.map File.key)
      ((regsArgs args).map (fun r => (fileOf r).key)) ∧
    (((regsArgs args).map Reg.path).Nodup →
      ((main w args).sets.map names).flatten.Nodup ∧
      ((main w args).sets.map names).Pairwise List.Disjoint) := by
  have hkeys : (set.head.map File.key).Nodup := by
    have := (SortedFiles_key set.head).mp hs
    refine this.imp ?_
    intro a b hab he
    rw [he] at hab
    omega
  refine ⟨?_, main_printed w args, ?_⟩
  · obtain ⟨h1, fr, h2, h3⟩ := freed_compareblock w fuel set st off hfuel hg hs hst
    obtain ⟨new, h4, h5⟩ := compareblock_printed fuel set st
    exact ⟨h1, new, fr, h4, h2, h3, h5, nodup_of_subperm h5 hkeys, h3.nodup_iff.mpr hkeys⟩
  · intro hpaths
    have h1 := subperm_map Prod.fst (main_printed w args)
    rw [List.map_map, List.map_map] at h1
    have h2 : ((main w args).sets.map names).flatten =
        (main w args).sets.flatten.map (Prod.fst ∘ File.key) := by
      unfold names
      induction (main w args).sets with
      | nil => rfl
      | cons s rest ih => simp only [List.map_cons, List.flatten_cons, List.map_append, ih]; rfl
    have h3 : ((main w args).sets.map names).flatten.Nodup := by
      rw [h2]
      exact nodup_of_subperm h1 hpaths
    exact ⟨h3, (List.nodup_flatten.mp h3).2⟩

theorem exGroup_good : GoodGroup exWorld 0 exGroup := by
  constructor
  · intro f hf
    simp only [exGroup, List.mem_cons, List.mem_singleton, List.not_mem_nil, or_false] at hf
    rcases hf with rfl | rfl | rfl
    · exact ⟨_, rfl, by decide, by decide⟩
    · exact ⟨_, rfl, by decide, by decide⟩
    · exact ⟨_, rfl, by decide, by decide⟩
  · intro f _ g _
    simp

/-- C18, at a sample input: the class of three bytes of the sample tree. -/
theorem no_double_report_witness :
    levels exGroup.size ≤ 1 ∧ GoodGroup exWorld 0 exGroup ∧ SortedFiles exGroup.head ∧
    St.init.status = .running ∧
    (compareblock 1 exGroup St.init).status = .running ∧
    ((regsArgs exArgs).map Reg.path).Nodup ∧
    ((main exWorld exArgs).sets.map names).Pairwise List.Disjoint :=
  ⟨by decide, exGroup_good, by unfold SortedFiles DevInoLt; decide, rfl,
   (no_double_report exWorld exArgs 1 exGroup St.init 0 (by decide) exGroup_good
      (by unfold SortedFiles DevInoLt; decide) rfl).1.1,
   by decide,
   ((no_double_report exWorld exArgs 1 exGroup St.init 0 (by decide) exGroup_good
      (by unfold SortedFiles DevInoLt; decide) rfl).2.2 (by decide)).2⟩

end Dups

namespace Dups

/-! ## The size tree does not depend on the order of discovery -/

mutual
theorem scanEntry_statOk : ∀ (e : Ent) (dir : String) (root root1 : List Node),
    scanEntry dir e root = .ok root1 → statOkEntry e = true
  | .reg name dev ino size, dir, root, root1, _ => by
    unfold statOkEntry; rfl
  | .dir name listable entries, dir, root, root1, h => by
    unfold scanEntry at h
    unfold statOkEntry
    split_ifs at h with h1 h2
    · simp [h1]
    · simp [scanLoop_statOk entries (mkpath dir name) root root1 h]
    · simp [h2]
  | .other name, dir, root, root1, _ => by
    unfold statOkEntry; rfl
  | .nostat name, dir, root, root1, h => by
    unfold scanEntry at h
    unfold statOkEntry
    split_ifs at h with h1
    exact h1
theorem scanLoop_statOk : ∀ (es : List Ent) (dir : String) (root root1 : List Node),
    scanLoop dir es root = .ok root1 → statOkList es = true
  | [], dir, root, root1, _ => by
    unfold statOkList; rfl
  | e :: es, dir, root, root1, h => by
    unfold scanLoop at h
    unfold statOkList
    cases hr : scanEntry dir e root with
    | error err => simp [hr] at h
    | ok root2 =>
      simp only [hr] at h
      simp [scanEntry_statOk e dir root root2 hr, scanLoop_statOk es dir root2 root1 h]
end

theorem scanArgs_statOk : ∀ (args : List Arg) (root root1 : List Node),
    scanArgs args root = .ok root1 → statOkArgs args = true := by
  intro args
  induction args with
  | nil => intro _ _ _; rfl
  | cons a as ih =>
    intro root root1 h
    unfold scanArgs at h
    unfold statOkArgs
    cases hr : scan a root with
    | error err => simp [hr] at h
    | ok root2 =>
      simp only [hr] at h
      have h2 := ih root2 root1 h
      unfold scan at hr
      split_ifs at hr with h1
      · simp [scanLoop_statOk _ _ _ _ hr, h2]
      · simp [h1, h2]

/-- A scan comes to its end exactly when no `fstatat` fails and the
classifier takes every regular file. -/
theorem scanArgs_ok_iff (args : List Arg) (root : List Node) :
    scanArgs args [] = .ok root ↔
      statOkArgs args = true ∧ classifyAll (regsArgs args) [] = .ok root := by
  constructor
  · intro h
    exact ⟨scanArgs_statOk args [] root h, scanArgs_ok args [] root h⟩
  · rintro ⟨h1, h2⟩
    rw [scanArgs_eq args [] h1]
    exact h2

/-- Regular files that clash with nothing in the tree and not with one
another, two files clashing when they have one size and one identity, are all
classified. -/
theorem classifyAll_ok_of_noclash : ∀ (rs : List Reg) (root : List Node),
    rs.Pairwise (fun a b => a.size = b.size → ¬ (a.dev = b.dev ∧ a.ino = b.ino)) →
    (∀ nd ∈ root, ∀ f ∈ nd.head, ∀ r ∈ rs, nd.size = r.size →
      ¬ (f.dev = r.dev ∧ f.ino = r.ino)) →
    ∃ root1, classifyAll rs root = .ok root1 := by
  intro rs
  induction rs with
  | nil => intro root _ _; exact ⟨root, rfl⟩
  | cons r rs ih =>
    intro root hp hroot
    have hp1 := List.pairwise_cons.mp hp
    unfold classifyAll
    cases hc : classify r.path r.dev r.ino r.size root with
    | error e =>
      exfalso
      obtain ⟨_, nd, hnd, hsz, p, hp2, hid⟩ := classify_error hc
      exact hroot nd hnd p hp2 r (List.mem_cons_self _ _) hsz hid
    | ok root1 =>
      simp only []
      refine ih root1 hp1.2 ?_
      intro nd hnd f hf r1 hr1 hsz
      rcases (classify_mem hc).1 nd hnd f hf with ⟨h1, h2⟩ | ⟨nd0, hnd0, h2, h1⟩
      · rw [h1]
        exact hp1.1 r1 hr1 (by rw [← hsz, h2])
      · exact hroot nd0 hnd0 f h1 r1 (List.mem_cons_of_mem _ hr1) (by rw [h2, hsz])

/-- In a run of the classifier that comes to its end, no file handed in
clashes with a member of the tree it started from. -/
theorem classifyAll_noclash_root : ∀ (rs : List Reg) (root root1 : List Node),
    RootInv root → classifyAll rs root = .ok root1 →
    ∀ nd ∈ root, ∀ f ∈ nd.head, ∀ r ∈ rs, nd.size = r.size →
      ¬ (f.dev = r.dev ∧ f.ino = r.ino) := by
  intro rs
  induction rs with
  | nil => intro _ _ _ _ nd _ f _ r hr; simp at hr
  | cons r0 rs ih =>
    intro root root1 hinv h nd hnd f hf r hr hsz hid
    unfold classifyAll at h
    cases hc : classify r0.path r0.dev r0.ino r0.size root with
    | error e => simp [hc] at h
    | ok root2 =>
      simp only [hc] at h
      rcases List.mem_cons.mp hr with hr | hr
      · subst hr
        have := classify_same r.path r.dev r.ino r.size root hinv
          ⟨nd, hnd, hsz, f, hf, hid⟩
        rw [this] at hc
        simp at hc
      · obtain ⟨nd2, hnd2, hs2, hf2⟩ := (classify_mem hc).2.2 nd hnd f hf
        exact ih root2 root1 (classify_RootInv hinv hc) h nd2 hnd2 f hf2 r hr
          (by rw [hs2, hsz]) hid

theorem classifyAll_noclash : ∀ (rs : List Reg) (root root1 : List Node),
    RootInv root → classifyAll rs root = .ok root1 →
    rs.Pairwise (fun a b => a.size = b.size → ¬ (a.dev = b.dev ∧ a.ino = b.ino)) := by
  intro rs
  induction rs with
  | nil => intro _ _ _ _; exact List.Pairwise.nil
  | cons r rs ih =>
    intro root root1 hinv h
    unfold classifyAll at h
    cases hc : classify r.path r.dev r.ino r.size root with
    | error e => simp [hc] at h
    | ok root2 =>
      simp only [hc] at h
      have hinv2 := classify_RootInv hinv hc
      refine List.pairwise_cons.mpr ⟨?_, ih root2 root1 hinv2 h⟩
      intro r1 hr1 hsz hid
      obtain ⟨nd, hnd, hs, hm⟩ := (classify_mem hc).2.1
      exact classifyAll_noclash_root rs root2 root1 hinv2 h nd hnd _ hm r1 hr1
        (by rw [hs, hsz]) hid

theorem SortedFiles.members_eq {l1 l2 : List File} (h1 : SortedFiles l1)
    (h2 : SortedFiles l2) (h : ∀ f, f ∈ l1 ↔ f ∈ l2) : l1 = l2 := by
  haveI : IsAntisymm File DevInoLt :=
    ⟨fun a b hab hba => absurd ⟨rfl, rfl⟩ (hab.trans hba).ne_id⟩
  have hn : ∀ {l : List File}, SortedFiles l → l.Nodup := by
    intro l hl
    refine List.Pairwise.imp ?_ hl
    intro a b hab he
    subst he
    exact hab.ne_id ⟨rfl, rfl⟩
  exact List.eq_of_perm_of_sorted ((List.perm_ext_iff_of_nodup (hn h1) (hn h2)).mpr h) h1 h2

/-- The size tree is determined by what is in it: two trees of the shape
`scan` builds that hold the same files in classes of the same sizes are the
same tree. -/
theorem RootInv.eq_of_mem {root1 root2 : List Node} (h1 : RootInv root1)
    (h2 : RootInv root2)
    (h : ∀ (sz : Nat) (f : File), (∃ nd ∈ root1, nd.size = sz ∧ f ∈ nd.head) ↔
      (∃ nd ∈ root2, nd.size = sz ∧ f ∈ nd.head)) : root1 = root2 := by
  have key : ∀ {ra rb : List Node}, RootInv ra → RootInv rb →
      (∀ (sz : Nat) (f : File), (∃ nd ∈ ra, nd.size = sz ∧ f ∈ nd.head) →
        (∃ nd ∈ rb, nd.size = sz ∧ f ∈ nd.head)) →
      (∀ (sz : Nat) (f : File), (∃ nd ∈ rb, nd.size = sz ∧ f ∈ nd.head) →
        (∃ nd ∈ ra, nd.size = sz ∧ f ∈ nd.head)) →
      ∀ nd ∈ ra, nd ∈ rb := by
    intro ra rb ha hb hab hba nd hnd
    obtain ⟨hs, hn, hne, _⟩ := ha.2 nd hnd
    obtain ⟨f0, hf0⟩ := List.exists_mem_of_ne_nil _ hne
    obtain ⟨nd2, hnd2, hsz2, _⟩ := hab nd.size f0 ⟨nd, hnd, rfl, hf0⟩
    obtain ⟨hs2, hn2, _, _⟩ := hb.2 nd2 hnd2
    have hheads : nd.head = nd2.head := by
      refine hs.members_eq hs2 ?_
      intro f
      constructor
      · intro hf
        obtain ⟨nd3, hnd3, hsz3, hf3⟩ := hab nd.size f ⟨nd, hnd, rfl, hf⟩
        have : nd3 = nd2 := hb.size_unique hnd3 hnd2 (by rw [hsz3, hsz2])
        rw [← this]; exact hf3
      · intro hf
        obtain ⟨nd3, hnd3, hsz3, hf3⟩ := hba nd2.size f ⟨nd2, hnd2, rfl, hf⟩
        have : nd3 = nd := ha.size_unique hnd3 hnd (by rw [hsz3, hsz2])
        rw [← this]; exact hf3
    have : nd = nd2 := by
      cases nd with
      | mk s1 l1 n1 =>
        cases nd2 with
        | mk s2 l2 n2 =>
          simp only at hsz2 hheads hn hn2
          subst hsz2 hheads
          rw [hn, hn2]
    rw [this]; exact hnd2
  haveI : IsAntisymm Node (fun a b => a.size < b.size) :=
    ⟨fun a b hab hba => absurd hab (Nat.lt_asymm hba)⟩
  have hn : ∀ {r : List Node}, RootInv r → r.Nodup := by
    intro r hr
    refine List.Pairwise.imp ?_ hr.1
    intro a b hab he
    subst he
    exact Nat.lt_irrefl _ hab
  refine List.eq_of_perm_of_sorted ((List.perm_ext_iff_of_nodup (hn h1) (hn h2)).mpr ?_)
    h1.1 h2.1
  intro nd
  exact ⟨key h1 h2 (fun sz f hx => (h sz f).mp hx) (fun sz f hx => (h sz f).mpr hx) nd,
    key h2 h1 (fun sz f hx => (h sz f).mpr hx) (fun sz f hx => (h sz f).mp hx) nd⟩

/-- The tree the classifier builds does not depend on the order in which
the files are handed to it. -/
theorem classifyAll_perm_eq {rs rs1 : List Reg} (hp : rs.Perm rs1) {root : List Node}
    (h : classifyAll rs [] = .ok root) : classifyAll rs1 [] = .ok root := by
  have hnc := classifyAll_noclash rs [] root RootInv_nil h
  have hsym : Symmetric (fun a b : Reg =>
      a.size = b.size → ¬ (a.dev = b.dev ∧ a.ino = b.ino)) :=
    fun a b hab hsz hid => hab hsz.symm ⟨hid.1.symm, hid.2.symm⟩
  have hnc1 := (hp.pairwise_iff (fun {x y} hxy => hsym hxy)).mp hnc
  obtain ⟨root1, h1⟩ := classifyAll_ok_of_noclash rs1 [] hnc1 (by simp)
  have hi := classifyAll_RootInv _ _ _ RootInv_nil h
  have hi1 := classifyAll_RootInv _ _ _ RootInv_nil h1
  have hmem : ∀ {ra : List Reg} {ta : List Node}, classifyAll ra [] = .ok ta →
      ∀ (sz : Nat) (f : File), (∃ nd ∈ ta, nd.size = sz ∧ f ∈ nd.head) ↔
        ∃ r ∈ ra, r.size = sz ∧ f = fileOf r := by
    intro ra ta hta sz f
    constructor
    · rintro ⟨nd, hnd, hsz, hf⟩
      rcases classifyAll_sound _ _ _ hta nd hnd f hf with ⟨r, hr, e1, e2⟩ | ⟨nd0, hnd0, _⟩
      · exact ⟨r, hr, by rw [e1, hsz], e2⟩
      · simp at hnd0
    · rintro ⟨r, hr, hsz, hf⟩
      obtain ⟨nd, hnd, e1, e2⟩ := (classifyAll_complete _ _ _ hta).1 r hr
      exact ⟨nd, hnd, by rw [e1, hsz], by rw [hf]; exact e2⟩
  have : root = root1 := by
    refine hi.eq_of_mem hi1 ?_
    intro sz f
    rw [hmem h, hmem h1]
    constructor
    · rintro ⟨r, hr, e⟩; exact ⟨r, hp.mem_iff.mp hr, e⟩
    · rintro ⟨r, hr, e⟩; exact ⟨r, hp.mem_iff.mpr hr, e⟩
  rw [this]; exact h1

end Dups

namespace Dups

/-! ## Two runs over the same tree -/

/-- Listing the entries in another order permutes the regular files found
and moves no failure of `fstatat` in or out of the way of `scan`. -/
theorem Reordered.regs_perm {es es1 : List Ent} (h : Reordered es es1) : ∀ (dir : String),
    (regsList dir es).Perm (regsList dir es1) ∧ statOkList es = statOkList es1 := by
  induction h with
  | nil => intro dir; exact ⟨List.Perm.refl _, rfl⟩
  | cons e _ ih =>
    intro dir
    unfold regsList statOkList
    rw [(ih dir).2]
    exact ⟨List.Perm.append_left _ (ih dir).1, rfl⟩
  | dir name listable _ _ ih1 ih2 =>
    intro dir
    unfold regsList statOkList
    rw [(ih2 dir).2]
    unfold regsEntry statOkEntry
    rw [(ih1 (mkpath dir name)).2]
    refine ⟨?_, rfl⟩
    split_ifs
    · exact List.Perm.append_left _ (ih2 dir).1
    · exact (ih1 (mkpath dir name)).1.append (ih2 dir).1
    · exact List.Perm.append_left _ (ih2 dir).1
  | swap a b es =>
    intro dir
    unfold regsList statOkList
    unfold regsList statOkList
    refine ⟨?_, ?_⟩
    · rw [← List.append_assoc, ← List.append_assoc]
      exact List.Perm.append_right _ List.perm_append_comm
    · rw [← Bool.and_assoc, ← Bool.and_assoc, Bool.and_comm (statOkEntry a)]
  | trans _ _ ih1 ih2 =>
    intro dir
    exact ⟨(ih1 dir).1.trans (ih2 dir).1, (ih1 dir).2.trans (ih2 dir).2⟩

theorem ReorderedArgs.regs : ∀ {args args1 : List Arg}, ReorderedArgs args args1 →
    (regsArgs args).Perm (regsArgs args1) ∧ statOkArgs args = statOkArgs args1 ∧
    args.isEmpty = args1.isEmpty
  | [], [], _ => ⟨List.Perm.refl _, rfl, rfl⟩
  | a :: as, b :: bs, h => by
    unfold ReorderedArgs at h
    obtain ⟨h1, h2, h3, h4⟩ := h
    obtain ⟨i1, i2, _⟩ := ReorderedArgs.regs h4
    have j := h3.regs_perm a.path
    unfold regsArgs statOkArgs
    rw [← h1, ← h2, ← j.2, i2]
    refine ⟨?_, rfl, rfl⟩
    split_ifs
    · exact j.1.append i1
    · exact List.Perm.append_left _ i1
  | [], _ :: _, h => by simp [ReorderedArgs] at h
  | _ :: _, [], h => by simp [ReorderedArgs] at h

/-- Two runs over trees that hold the same regular files, on which `fstatat`
fails in both or in neither, print the same. -/
theorem main_of_perm (w : World) {args args1 : List Arg}
    (hp : (regsArgs args).Perm (regsArgs args1))
    (hs : statOkArgs args = statOkArgs args1) (he : args.isEmpty = args1.isEmpty) :
    (main w args).sets = (main w args1).sets ∧
    (main w args).stdout = (main w args1).stdout ∧
    (main w args).firstset = (main w args1).firstset ∧
    ((main w args).status = .running ↔ (main w args1).status = .running) ∧
    ((∃ root, scanArgs args [] = .ok root) → main w args = main w args1) := by
  have hiff : ∀ root, scanArgs args [] = .ok root ↔ scanArgs args1 [] = .ok root := by
    intro root
    rw [scanArgs_ok_iff, scanArgs_ok_iff, hs]
    constructor
    · rintro ⟨h1, h2⟩; exact ⟨h1, classifyAll_perm_eq hp h2⟩
    · rintro ⟨h1, h2⟩; exact ⟨h1, classifyAll_perm_eq hp.symm h2⟩
  by_cases hok : ∃ root, scanArgs args [] = .ok root
  · obtain ⟨root, hroot⟩ := hok
    have hroot1 := (hiff root).mp hroot
    have : main w args = main w args1 := by
      unfold main
      rw [he, hroot, hroot1]
    rw [this]
    exact ⟨rfl, rfl, rfl, Iff.rfl, fun _ => rfl⟩
  · have hno : ∀ root, scanArgs args [] ≠ .ok root := fun root h => hok ⟨root, h⟩
    have hno1 : ∀ root, scanArgs args1 [] ≠ .ok root :=
      fun root h => hok ⟨root, (hiff root).mpr h⟩
    have hshape : ∀ {a : List Arg}, (∀ root, scanArgs a [] ≠ .ok root) →
        ∃ e, main w a = { St.init with status := .fatal e } := by
      intro a ha
      unfold main
      split_ifs
      · exact ⟨_, rfl⟩
      · cases hsc : scanArgs a [] with
        | error e => exact ⟨e, rfl⟩
        | ok root => exact absurd hsc (ha root)
    obtain ⟨e, h1⟩ := hshape hno
    obtain ⟨e1, h2⟩ := hshape hno1
    rw [h1, h2]
    refine ⟨rfl, rfl, rfl, ?_, fun h => absurd h hok⟩
    simp

/-- C11: two runs of the pipeline over the same file tree (same paths,
identities, sizes, contents and open results), the directory entries
enumerated in another order in the second, write the same emitted sets in the
same order with the same member order, hence the same text; when the scan
comes to its end the two runs end in the same state altogether. -/
theorem determinism (w : World) (args args1 : List Arg) (h : ReorderedArgs args args1) :
    (main w args).sets = (main w args1).sets ∧
    (main w args).stdout = (main w args1).stdout ∧
    ((main w args).status = .running ↔ (main w args1).status = .running) ∧
    ((∃ root, scanArgs args [] = .ok root) → main w args = main w args1) := by
  obtain ⟨h1, h2, h3⟩ := h.regs
  obtain ⟨i1, i2, _, i4, i5⟩ := main_of_perm w h1 h2 h3
  exact ⟨i1, i2, i4, i5⟩

/-- C11, at a sample input: the sample tree with `r/a` and `r/c` listed the
other way round. -/
theorem determinism_witness :
    ReorderedArgs exArgs exArgsReordered ∧
    (main exWorld exArgs).sets = (main exWorld exArgsReordered).sets ∧
    (main exWorld exArgsReordered).stdout = "r/e1\nr/d/e2\n\nr/a\nr/b\n" :=
  ⟨⟨rfl, rfl, Reordered.swap _ _ _, trivial⟩,
   (determinism exWorld exArgs exArgsReordered
      ⟨rfl, rfl, Reordered.swap _ _ _, trivial⟩).1,
   by decide⟩

/-! ## The member count after a failed open -/

/-- C17, evaluated: of the class of two empty files of which the first
cannot be opened, `compare` hands on one member under the count 2, and the
member is printed as a set. -/
theorem count_after_failed_open :
    scanArgs zeroArgs2 [] =
      .ok [⟨0, [fileOf ⟨"r/a", 1, 1, 0⟩, fileOf ⟨"r/b", 1, 2, 0⟩], 2⟩] ∧
    openAll noA0 [fileOf ⟨"r/a", 1, 1, 0⟩, fileOf ⟨"r/b", 1, 2, 0⟩] =
      some [fileOf ⟨"r/b", 1, 2, 0⟩] ∧
    compare noA0 ⟨0, [fileOf ⟨"r/a", 1, 1, 0⟩, fileOf ⟨"r/b", 1, 2, 0⟩], 2⟩ St.init =
      compareblock 0 ⟨0, [fileOf ⟨"r/b", 1, 2, 0⟩], 2⟩ St.init ∧
    (compareblock 0 ⟨0, [fileOf ⟨"r/b", 1, 2, 0⟩], 2⟩ St.init).sets =
      [[fileOf ⟨"r/b", 1, 2, 0⟩]] :=
  ⟨rfl, by decide, by decide, by decide⟩

end Dups

namespace Dups

/-! ## The order of emission -/

theorem lexLt_append_left (p : List Nat) (a b : List Nat) :
    lexLt (p ++ a) (p ++ b) ↔ lexLt a b := by
  induction p with
  | nil => rfl
  | cons x p ih =>
    show (x < x ∨ (x = x ∧ lexLt (p ++ a) (p ++ b))) ↔ lexLt a b
    rw [ih]
    simp

theorem lexLt_append_right : ∀ (a b x y : List Nat), a.length = b.length →
    lexLt a b → lexLt (a ++ x) (b ++ y) := by
  intro a
  induction a with
  | nil =>
    intro b x y hl h
    have : b = [] := List.length_eq_zero.mp hl.symm
    subst this
    simp [lexLt] at h
  | cons c a ih =>
    intro b x y hl h
    cases b with
    | nil => simp at hl
    | cons d b =>
      simp only [List.length_cons, Nat.add_right_cancel_iff] at hl
      simp only [List.cons_append, lexLt] at h ⊢
      rcases h with h | ⟨h1, h2⟩
      · exact Or.inl h
      · exact Or.inr ⟨h1, ih b x y hl h2⟩

theorem memcmp_neg_lex : ∀ (a b : List Nat) (k : Nat), a.length = k → b.length = k →
    memcmp a b k < 0 → lexLt a b := by
  intro a
  induction a with
  | nil => intro b k _ _ h; simp [memcmp] at h
  | cons x xs ih =>
    intro b k ha hb h
    cases k with
    | zero => simp at ha
    | succ k =>
      cases b with
      | nil => simp at hb
      | cons y ys =>
        simp only [List.length_cons, Nat.add_right_cancel_iff] at ha hb
        unfold memcmp at h
        unfold lexLt
        split_ifs at h with h1 h2
        · exact Or.inl h1
        · omega
        · exact Or.inr ⟨by omega, ih ys k ha hb h⟩

/-- A walk that runs to its end, piece by piece: what every step emits. -/
theorem twalk_pieces (act : Node → St → St) (R : Node → List (List File) → Prop) :
    ∀ (nodes : List Node),
    (∀ nd ∈ nodes, ∀ st, st.status = .running →
      (act nd st).status = .running ∧
      ∃ new, (act nd st).sets = st.sets ++ new ∧ R nd new) →
    ∀ st, st.status = .running →
      (twalk act nodes st).status = .running ∧
      ∃ news : List (List (List File)),
        (twalk act nodes st).sets = st.sets ++ news.flatten ∧ List.Forall₂ R nodes news := by
  intro nodes
  induction nodes with
  | nil => intro _ st hst; exact ⟨hst, [], by simp [twalk], List.Forall₂.nil⟩
  | cons nd rest ih =>
    intro h st hst
    obtain ⟨h1, new1, h2, h3⟩ := h nd (List.mem_cons_self _ _) st hst
    obtain ⟨h4, news, h5, h6⟩ :=
      ih (fun x hx => h x (List.mem_cons_of_mem _ hx)) (act nd st) h1
    have htw : twalk act (nd :: rest) st = twalk act rest (act nd st) := by
      rw [twalk]
      simp only [h1, if_true]
    rw [htw]
    exact ⟨h4, new1 :: news, by rw [h5, h2, List.flatten_cons, List.append_assoc],
      List.Forall₂.cons h3 h6⟩

/-- Pieces emitted for nodes in order are in order among themselves. -/
theorem pieces_pairwise {R : Node → List (List File) → Prop} {P : Node → Node → Prop}
    {Q : List File → List File → Prop} :
    ∀ {nodes : List Node} {news : List (List (List File))},
    List.Forall₂ R nodes news → nodes.Pairwise P →
    (∀ nd1 ∈ nodes, ∀ nd2 ∈ nodes, ∀ n1 n2, P nd1 nd2 → R nd1 n1 → R nd2 n2 →
      ∀ s1 ∈ n1, ∀ s2 ∈ n2, Q s1 s2) →
    (∀ nd ∈ nodes, ∀ n, R nd n → n.Pairwise Q) →
    news.flatten.Pairwise Q := by
  intro nodes news h
  induction h with
  | nil => intro _ _ _; simp
  | @cons nd n nodes1 news1 h1 h2 ih =>
    intro hp hcross hself
    have hp1 := List.pairwise_cons.mp hp
    rw [List.flatten_cons, List.pairwise_append]
    refine ⟨hself nd (List.mem_cons_self _ _) n h1, ?_, ?_⟩
    · exact ih hp1.2
        (fun a ha b hb => hcross a (List.mem_cons_of_mem _ ha) b (List.mem_cons_of_mem _ hb))
        (fun a ha => hself a (List.mem_cons_of_mem _ ha))
    · intro s1 hs1 s2 hs2
      obtain ⟨n2, hn2, hs2n⟩ := List.mem_flatten.mp hs2
      -- the node of the later piece
      have : ∃ nd2 ∈ nodes1, R nd2 n2 := by
        clear ih hp hcross hself hp1 hs2 hs1
        induction h2 with
        | nil => simp at hn2
        | @cons a b l1 l2 hab _ ih2 =>
          rcases List.mem_cons.mp hn2 with e | e
          · subst e; exact ⟨a, List.mem_cons_self _ _, hab⟩
          · obtain ⟨x, hx, hr⟩ := ih2 e
            exact ⟨x, List.mem_cons_of_mem _ hx, hr⟩
      obtain ⟨nd2, hnd2, hr2⟩ := this
      exact hcross nd (List.mem_cons_self _ _) nd2 (List.mem_cons_of_mem _ hnd2) n n2
        (hp1.1 nd2 hnd2) h1 hr2 s1 hs1 s2 hs2n

theorem pieces_forall {R : Node → List (List File) → Prop} {T : List File → Prop} :
    ∀ {nodes : List Node} {news : List (List (List File))},
    List.Forall₂ R nodes news →
    (∀ nd ∈ nodes, ∀ n, R nd n → ∀ s ∈ n, T s) →
    ∀ s ∈ news.flatten, T s := by
  intro nodes news h
  induction h with
  | nil => intro _ s hs; simp at hs
  | @cons nd n nodes1 news1 h1 _ ih =>
    intro hall s hs
    rw [List.flatten_cons] at hs
    rcases List.mem_append.mp hs with hs | hs
    · exact hall nd (List.mem_cons_self _ _) n h1 s hs
    · exact ih (fun a ha => hall a (List.mem_cons_of_mem _ ha)) s hs

/-- The bytes of a member of a good group, cut at the window. -/
theorem good_split {w : World} {off size : Nat} {f : File} (hg : GoodAt w off size f) :
    fullBytes w f.name =
      (fullBytes w f.name).take off ++
        ((readStep size f).win ++ (fullBytes w f.name).drop (off + window size)) := by
  rw [(good_step hg).2.1, ← List.drop_drop, List.take_append_drop, List.take_append_drop]

/-- A good, sorted group of at least two members is refined to its end and
its sets are emitted in ascending order of content. -/
theorem order_compareblock (w : World) : ∀ (fuel : Nat) (set : Node) (st : St) (off : Nat),
    levels set.size ≤ fuel → GoodGroup w off set → SortedFiles set.head →
    2 ≤ set.head.length → st.status = .running →
    (compareblock fuel set st).status = .running ∧
    ∃ new, (compareblock fuel set st).sets = st.sets ++ new ∧
      OrderedFrom w set.head new := by
  intro fuel
  induction fuel with
  | zero =>
    intro set st off hf hg hs h2 hst
    have h0 : set.size = 0 := by
      by_contra hne
      have := levels_pos hne
      omega
    rw [compareblock_zero_size 0 set st h0]
    refine ⟨by rw [emit_status]; exact hst, [set.head], emit_sets set st, by simp, ?_⟩
    intro s hs1
    simp only [List.mem_singleton] at hs1
    subst hs1
    exact ⟨h2, fun f hf1 => ⟨f, hf1, rfl⟩⟩
  | succ fuel ih =>
    intro set st off hf hg hs h2 hst
    by_cases h0 : set.size = 0
    · rw [compareblock_zero_size _ set st h0]
      refine ⟨by rw [emit_status]; exact hst, [set.head], emit_sets set st, by simp, ?_⟩
      intro s hs1
      simp only [List.mem_singleton] at hs1
      subst hs1
      exact ⟨h2, fun f hf1 => ⟨f, hf1, rfl⟩⟩
    · have hfull : ∀ p ∈ set.head, ¬ (readn p.fd (window set.size)).r = -1 ∧
          ¬ (readn p.fd (window set.size)).r < (window set.size : Nat) := by
        intro p hp
        rw [(good_step (hg.1 p hp)).1]
        constructor <;> omega
      have hrun := readWindows_ok set.size set.head st hst hfull
      obtain ⟨_, e2, _, _⟩ := readWindows_running _ _ _ hrun
      have hsets := (readWindows_fields set.size set.head st).1
      have hsl : SortedFiles (set.head.map (readStep set.size)) :=
        SortedFiles_map_readStep _ hs
      obtain ⟨newroot, hr⟩ := regroup_ok set.size _ [] (IdNe_of_sorted hsl) (by simp)
      rw [compareblock_succ fuel set st h0, if_pos hrun, e2, hr]
      simp only []
      have hL : ∀ p ∈ set.head.map (readStep set.size),
          p.bufsiz = window set.size ∧ p.win.length = window set.size := by
        intro p hp
        obtain ⟨q, hq, rfl⟩ := List.mem_map.mp hp
        obtain ⟨_, _, h3, h4, _⟩ := good_step (hg.1 q hq)
        exact ⟨h3, h4⟩
      have hnodes := regroup_nodes (fun p hp => (hL p hp).1) hr
      have hwt : WinTree (window set.size) newroot :=
        regroup_WinTree set.size (window set.size) _ [] newroot
          ⟨List.Pairwise.nil, by simp⟩ hL hr
      have hfrom : ∀ nd ∈ newroot, ∀ f ∈ nd.head, ∃ q ∈ set.head, f = readStep set.size q := by
        intro nd hnd f hf1
        rcases (regroup_mem _ _ _ _ hr).1 nd hnd f hf1 with h1 | ⟨nd0, hnd0, _⟩
        · obtain ⟨q, hq, rfl⟩ := List.mem_map.mp h1
          exact ⟨q, hq, rfl⟩
        · simp at hnd0
      obtain ⟨h4, news, h5, h6⟩ := twalk_pieces (newaction (compareblock fuel))
        (fun nd new => OrderedFrom w nd.head new) newroot (by
          intro nd hnd st1 hst1
          obtain ⟨hsn, hn, hsz⟩ := hnodes nd hnd
          unfold newaction
          split_ifs with hgt
          · exact ih nd st1 (off + window set.size)
              (by rw [hsz]; exact levels_sub hf) (good_sub hg hr nd hnd) hsn
              (by omega) hst1
          · exact ⟨by simpa using hst1, [], by simp, List.Pairwise.nil, by simp⟩) _ hrun
      refine ⟨h4, news.flatten, by rw [h5, hsets], ?_, ?_⟩
      · refine pieces_pairwise h6 hwt.1 ?_ (fun nd _ n hn => hn.1)
        intro nd1 hnd1 nd2 hnd2 n1 n2 hlt hr1 hr2 s1 hs1 s2 hs2 f hf1 g hg1
        obtain ⟨f0, hf0, ef⟩ := (hr1.2 s1 hs1).2 f hf1
        obtain ⟨g0, hg0, eg⟩ := (hr2.2 s2 hs2).2 g hg1
        obtain ⟨qf, hqf, rfl⟩ := hfrom nd1 hnd1 f0 hf0
        obtain ⟨qg, hqg, rfl⟩ := hfrom nd2 hnd2 g0 hg0
        have ef1 : f.name = qf.name := ef
        have eg1 : g.name = qg.name := eg
        have hwf := ((hwt.2 nd1 hnd1).2 _ hf0).2.2
        have hwg := ((hwt.2 nd2 hnd2).2 _ hg0).2.2
        have hlf := ((hwt.2 nd1 hnd1).2 _ hf0).2.1
        have hlg := ((hwt.2 nd2 hnd2).2 _ hg0).2.1
        rw [← hwf, ← hwg] at hlt
        have hlex := memcmp_neg_lex _ _ _ hlf hlg hlt
        obtain ⟨_, _, _, lf⟩ := hg.1 qf hqf
        obtain ⟨_, _, _, lg⟩ := hg.1 qg hqg
        rw [ef1, eg1]
        refine Or.inr ⟨by rw [lf, lg], ?_⟩
        rw [good_split (hg.1 qf hqf), good_split (hg.1 qg hqg), hg.2 qf hqf qg hqg,
          lexLt_append_left]
        exact lexLt_append_right _ _ _ _ (by rw [hlf, hlg]) hlex
      · refine pieces_forall h6 ?_
        intro nd hnd n hn s hs1
        refine ⟨(hn.2 s hs1).1, ?_⟩
        intro f hf1
        obtain ⟨f0, hf0, ef⟩ := (hn.2 s hs1).2 f hf1
        obtain ⟨q, hq, rfl⟩ := hfrom nd hnd f0 hf0
        exact ⟨q, hq, ef⟩

theorem lexLt_irrefl : ∀ (a : List Nat), ¬ lexLt a a
  | [] => by simp [lexLt]
  | x :: xs => by
    intro h
    unfold lexLt at h
    rcases h with h | ⟨_, h⟩
    · omega
    · exact lexLt_irrefl xs h

theorem ContentLt_irrefl (a : List Nat) : ¬ ContentLt a a := by
  rintro (h | ⟨_, h⟩)
  · omega
  · exact lexLt_irrefl a h

/-- What `action` emits for a class of a scanned tree whose files all open and
hold as many bytes as declared. -/
theorem order_action {w : World} {args : List Arg} {root : List Node}
    (hroot : scanArgs args [] = .ok root)
    (H : ∀ r ∈ regsArgs args, ∃ bs, content w r.path = some bs ∧ bs.length = r.size)
    {nd : Node} (hnd : nd ∈ root) (st : St) (hst : st.status = .running) :
    (action w nd st).status = .running ∧
    ∃ new, (action w nd st).sets = st.sets ++ new ∧ OrderedFrom w nd.head new := by
  obtain ⟨hinv, _, _⟩ := scanArgs_root hroot
  unfold action
  split_ifs with hn
  · obtain ⟨l1, ho, hk, hgood, hsl, _⟩ := class_opened hroot H hnd
    have hlen : l1.length = nd.head.length := by
      have := congrArg List.length hk
      simpa using this
    unfold compare
    rw [ho]
    obtain ⟨h1, new, h2, h3, h4⟩ := order_compareblock w (levels nd.size)
      { nd with head := l1 } st 0 (le_refl _) hgood hsl
      (by
        show 2 ≤ l1.length
        rw [hlen, ← (hinv.2 nd hnd).2.1]; omega) hst
    refine ⟨h1, new, h2, h3, ?_⟩
    intro s hs
    refine ⟨(h4 s hs).1, ?_⟩
    intro f hf
    obtain ⟨f0, hf0, ef⟩ := (h4 s hs).2 f hf
    have hk0 : f0.key ∈ nd.head.map File.key := by
      rw [← hk]; exact List.mem_map_of_mem _ hf0
    obtain ⟨g, hg, hgk⟩ := List.mem_map.mp hk0
    exact ⟨g, hg, by rw [ef]; exact (congrArg Prod.fst hgk).symm⟩
  · exact ⟨by simpa using hst, [], by simp, List.Pairwise.nil, by simp⟩

/-- The emitted sets of a run over files that all open and hold as many bytes
as declared: in emission order, each of at least two scanned files. -/
theorem order_main (w : World) (args : List Arg)
    (H : ∀ r ∈ regsArgs args, ∃ bs, content w r.path = some bs ∧ bs.length = r.size) :
    (main w args).sets.Pairwise (SetLt w) ∧
    ∀ s ∈ (main w args).sets, 2 ≤ s.length ∧
      ∀ f ∈ s, ∃ r ∈ regsArgs args, r.path = f.name := by
  unfold main
  split_ifs with he
  · exact ⟨List.Pairwise.nil, by simp [St.init]⟩
  · cases hroot : scanArgs args [] with
    | error e => exact ⟨List.Pairwise.nil, by simp [St.init]⟩
    | ok root =>
      simp only []
      obtain ⟨hinv, hsound, _⟩ := scanArgs_root hroot
      have Hc := class_content hroot H
      obtain ⟨_, news, h5, h6⟩ := twalk_pieces (action w)
        (fun nd new => OrderedFrom w nd.head new) root
        (fun nd hnd st hst => order_action hroot H hnd st hst) St.init rfl
      have h5a : (twalk (action w) root St.init).sets = news.flatten := by
        rw [h5]; simp [St.init]
      rw [h5a]
      constructor
      · refine pieces_pairwise h6 hinv.1 ?_ (fun nd _ n hn => hn.1)
        intro nd1 hnd1 nd2 hnd2 n1 n2 hlt hr1 hr2 s1 hs1 s2 hs2 f hf g hg
        obtain ⟨f0, hf0, ef⟩ := (hr1.2 s1 hs1).2 f hf
        obtain ⟨g0, hg0, eg⟩ := (hr2.2 s2 hs2).2 g hg
        obtain ⟨bf, hcf, hlf⟩ := Hc nd1 hnd1 f0 hf0
        obtain ⟨bg, hcg, hlg⟩ := Hc nd2 hnd2 g0 hg0
        refine Or.inl ?_
        unfold fullBytes
        rw [ef, eg, hcf, hcg]
        simp only [Option.getD_some]
        omega
      · refine pieces_forall h6 ?_
        intro nd hnd n hn s hs
        refine ⟨(hn.2 s hs).1, ?_⟩
        intro f hf
        obtain ⟨f0, hf0, ef⟩ := (hn.2 s hs).2 f hf
        obtain ⟨r, hr, _, hfe⟩ := hsound nd hnd f0 hf0
        refine ⟨r, hr, ?_⟩
        rw [ef, hfe]
        rfl

/-- C16: when every scanned regular file opens and holds exactly as many bytes
as its declared size, the emitted sets come in strictly ascending order of
content, the shorter content first and of two contents of one length the
lexicographically smaller (bytes compared as unsigned numbers) first: every
member of an earlier set holds a content that comes before that of every
member of a later set, no set comes before itself, every set holds at least
two scanned files and its members hold as many bytes as declared; and the text
written is the same for the same tree enumerated in another order. -/
theorem emission_order (w : World) (args : List Arg)
    (hbytes : ∀ r ∈ regsArgs args, (content w r.path).map List.length = some r.size) :
    (main w args).sets.Pairwise (SetLt w) ∧
    (∀ s ∈ (main w args).sets, ¬ SetLt w s s) ∧
    (∀ s ∈ (main w args).sets, 2 ≤ s.length ∧
      ∀ f ∈ s, ∃ r ∈ regsArgs args, r.path = f.name ∧
        (fullBytes w f.name).length = r.size) ∧
    (∀ args1, ReorderedArgs args args1 →
      (main w args).stdout = (main w args1).stdout ∧
      (main w args1).sets.Pairwise (SetLt w)) := by
  have H := holds_declared hbytes
  obtain ⟨h1, h2⟩ := order_main w args H
  refine ⟨h1, ?_, ?_, ?_⟩
  · intro s hs hlt
    have hlen := (h2 s hs).1
    cases s with
    | nil => simp at hlen
    | cons f rest =>
      exact ContentLt_irrefl _ (hlt f (List.mem_cons_self _ _) f (List.mem_cons_self _ _))
  · intro s hs
    refine ⟨(h2 s hs).1, ?_⟩
    intro f hf
    obtain ⟨r, hr, e⟩ := (h2 s hs).2 f hf
    obtain ⟨bs, hc, hl⟩ := H r hr
    refine ⟨r, hr, e, ?_⟩
    unfold fullBytes
    rw [← e, hc]
    exact hl
  · intro args1 hre
    obtain ⟨p1, p2, p3⟩ := hre.regs
    obtain ⟨i1, i2, _⟩ := main_of_perm w p1 p2 p3
    refine ⟨i2, ?_⟩
    rw [← i1]
    exact h1

/-- C16, at a sample input: two files of two bytes 5 2, listed first, two of
two bytes 5 1 and two of one byte 9 are printed as the set of one byte, then
the set 5 1, then the set 5 2. -/
theorem emission_order_witness :
    (∀ r ∈ regsArgs ordArgs, (content ordWorld r.path).map List.length = some r.size) ∧
    (main ordWorld ordArgs).sets.Pairwise (SetLt ordWorld) ∧
    (main ordWorld ordArgs).stdout = "r/e\nr/f\n\nr/c\nr/d\n\nr/a\nr/b\n" :=
  ⟨by decide, (emission_order ordWorld ordArgs (by decide)).1, by decide⟩

end Dups
